import Mathlib

/-! # Unrolled-input convolution kernel (`UnrolledInputConv_cI.h`)

A shallow embedding of the unrolling transform `ChlMajInputUnroll` and of the
four `Convolution` overloads that combine it with one `Gemm` call.

Conventions of the embedding.

* A C++ `int` is an `Int`; the index expressions are evaluated over the
  unbounded integers, and the section on 32-bit arithmetic says when a 32-bit
  machine evaluates them to the same values.
* A pointer to a buffer is the buffer itself (a `List`) together with an
  integer offset; `X`, `U`, `W`, `Y` and `space` are offset `0` of their buffers.
* A routine that mutates a buffer returns the new buffer.  The result `none`
  stands for a failed `assert` or for an access outside a buffer.
* The element type is any commutative ring, so that the matrix product is exact.
-/

namespace Convolutional

open Finset

/-! ## Control flow and `std::copy` -/

/-- The loop `for (int i = 0; i < n; ++i) body(i)` threading a state `σ`;
the loop stops with `none` as soon as one iteration does. -/
def forLoop {σ : Type} (n : Int) (body : Int → σ → Option σ) (s : σ) : Option σ :=
  (List.range n.toNat).foldlM (fun s (i : Nat) => body (i : Int) s) s

/-- Element-by-element copy of `count` elements from `X` at `source` to `U` at
`target`; an access outside either buffer gives `none`. -/
def copyElements {α : Type} (X : List α) (source : Nat) :
    Nat → List α → Nat → Option (List α)
  | 0, U, _ => some U
  | count + 1, U, target =>
    match X[source]? with
    | none => none
    | some v =>
      if target < U.length then
        copyElements X (source + 1) count (U.set target v) (target + 1)
      else none

/-- The call `std::copy(first, last, result)` where `first` and `last` are offsets
into `X` and `result` is an offset into `U`.  A reversed range or a negative
offset is undefined behaviour. -/
def stdCopy {α : Type} (X : List α) (first last : Int) (U : List α) (result : Int) :
    Option (List α) :=
  if first < 0 ∨ result < 0 ∨ last < first then none
  else copyElements X first.toNat (last - first).toNat U result.toNat

/-! ## The unrolling transform -/

/-- Offset of `source` from `X` in one iteration of `ChlMajInputUnroll`
(the lines under "calculate copy source"). -/
def copySource (wRows wCols vStride yRows yCols wRow wCol wChl yRow : Int) : Int :=
  let xRows := (yRows - 1) * vStride + wRows
  let xCols := yCols + wCols - 1
  let xRow := yRow * vStride + wRow
  let xCol := wCol
  let xChl := wChl
  (xChl * xRows + xRow) * xCols + xCol

/-- Offset of `target` from `U` in one iteration of `ChlMajInputUnroll`
(the lines under "calculate copy target"). -/
def copyTarget (wCols wChls yRows yCols wRow wCol wChl yRow : Int) : Int :=
  let uCol := (wRow * wCols + wCol) * wChls + wChl
  (uCol * yRows + yRow) * yCols

/-- The four assertions that precede the copy, on the offsets `source` and
`target`. -/
def copyAsserts (wRows wCols wChls vStride yRows yCols uRows uCols source target : Int) :
    Prop :=
  let copySize := yCols
  let xRows := (yRows - 1) * vStride + wRows
  let xCols := yCols + wCols - 1
  let xChls := wChls
  0 ≤ source ∧ source + copySize ≤ xRows * xCols * xChls ∧
    0 ≤ target ∧ target + copySize ≤ uRows * uCols

instance (wRows wCols wChls vStride yRows yCols uRows uCols source target : Int) :
    Decidable (copyAsserts wRows wCols wChls vStride yRows yCols uRows uCols source target) := by
  unfold copyAsserts; infer_instance

/-- The body of the innermost loop of `ChlMajInputUnroll`: compute `source` and
`target`, check the assertions, copy `copySize` elements. -/
def unrollBody {α : Type} (X : List α)
    (wRows wCols wChls vStride yRows yCols uRows uCols : Int)
    (wRow wCol wChl yRow : Int) (U : List α) : Option (List α) :=
  let copySize := yCols
  let source := copySource wRows wCols vStride yRows yCols wRow wCol wChl yRow
  let target := copyTarget wCols wChls yRows yCols wRow wCol wChl yRow
  if copyAsserts wRows wCols wChls vStride yRows yCols uRows uCols source target then
    stdCopy X source (source + copySize) U target
  else none

/-- The helper `ChlMajInputUnroll`: unrolls the channel-major input tensor `X`
into the unrolled input matrix `U`. -/
def ChlMajInputUnroll {α : Type} (X U : List α)
    (wRows wCols wChls vStride yRows yCols uRows uCols : Int) : Option (List α) :=
  forLoop wRows (fun wRow U =>
    forLoop wCols (fun wCol U =>
      forLoop wChls (fun wChl U =>
        forLoop yRows (fun yRow U =>
          unrollBody X wRows wCols wChls vStride yRows yCols uRows uCols
            wRow wCol wChl yRow U) U) U) U) U

/-! ## The matrix product -/

/-- The two dense matrix layouts accepted by `Gemm`. -/
inductive MatrixOrder where
  | RowMaj
  | ColMaj
  deriving DecidableEq, Repr

/-- Modelled from the spec: `BlasHelpers.h` is not among the sources.  Position
of entry `(i, j)` of a dense `rows × cols` matrix whose leading dimension is the
natural one for its layout. -/
def MatrixOrder.index (order : MatrixOrder) (rows cols i j : Nat) : Nat :=
  match order with
  | MatrixOrder.RowMaj => i * cols + j
  | MatrixOrder.ColMaj => j * rows + i

/-- Modelled from the spec: row of the entry stored at position `p`. -/
def MatrixOrder.rowOf (order : MatrixOrder) (rows cols p : Nat) : Nat :=
  match order with
  | MatrixOrder.RowMaj => p / cols
  | MatrixOrder.ColMaj => p % rows

/-- Modelled from the spec: column of the entry stored at position `p`. -/
def MatrixOrder.colOf (order : MatrixOrder) (rows cols p : Nat) : Nat :=
  match order with
  | MatrixOrder.RowMaj => p % cols
  | MatrixOrder.ColMaj => p / rows

/-- Modelled from the spec: the primitive `Gemm` of `BlasHelpers.h`, which is not
among the sources, as the exact reference `C = alpha·A·B + beta·C` with `A` an
`m × k`, `B` a `k × n` and `C` an `m × n` dense matrix, each in its own layout.
A negative dimension or a buffer shorter than its matrix gives `none`. -/
def Gemm {α : Type} [CommRing α] (orderA orderB orderC : MatrixOrder) (m n k : Int)
    (alpha : α) (A B : List α) (beta : α) (C : List α) : Option (List α) :=
  if m < 0 ∨ n < 0 ∨ k < 0 then none
  else
    let m := m.toNat
    let n := n.toNat
    let k := k.toNat
    if A.length < m * k ∨ B.length < k * n ∨ C.length < m * n then none
    else
      some (C.mapIdx fun p c =>
        if p < m * n then
          let i := orderC.rowOf m n p
          let j := orderC.colOf m n p
          alpha * (∑ l in range k,
              A.getD (orderA.index m k i l) 0 * B.getD (orderB.index k n l j) 0)
            + beta * c
        else c)

/-! ## The four convolutions

Each returns the final contents of `Y` and of `space`. -/

/-- `Convolution` for filters in filter-major order and output in row-major
order. -/
def Convolution_FilterMajorFilters_RowMajorOutput {α : Type} [CommRing α]
    (W X Y : List α) (wCount wRows wCols wChls vStride yRows yCols : Int)
    (space : List α) : Option (List α × List α) := do
  let uRows := yRows * yCols
  let uCols := wRows * wCols * wChls
  let U ← ChlMajInputUnroll X space wRows wCols wChls vStride yRows yCols uRows uCols
  let vCols := wCount
  let V := W
  let Z ← Gemm MatrixOrder.ColMaj MatrixOrder.ColMaj MatrixOrder.RowMaj
    uRows vCols uCols 1 U V 0 Y
  pure (Z, U)

/-- `Convolution` for filters in row-major order and output in row-major
order. -/
def Convolution_RowMajorFilters_RowMajorOutput {α : Type} [CommRing α]
    (W X Y : List α) (wCount wRows wCols wChls vStride yRows yCols : Int)
    (space : List α) : Option (List α × List α) := do
  let uRows := yRows * yCols
  let uCols := wRows * wCols * wChls
  let U ← ChlMajInputUnroll X space wRows wCols wChls vStride yRows yCols uRows uCols
  let vCols := wCount
  let V := W
  let Z ← Gemm MatrixOrder.ColMaj MatrixOrder.RowMaj MatrixOrder.RowMaj
    uRows vCols uCols 1 U V 0 Y
  pure (Z, U)

/-- `Convolution` for filters in filter-major order and output in channel-major
order. -/
def Convolution_FilterMajorFilters_ChannelMajorOutput {α : Type} [CommRing α]
    (W X Y : List α) (wCount wRows wCols wChls vStride yRows yCols : Int)
    (space : List α) : Option (List α × List α) := do
  let uRows := yRows * yCols
  let uCols := wRows * wCols * wChls
  let U ← ChlMajInputUnroll X space wRows wCols wChls vStride yRows yCols uRows uCols
  let vCols := wCount
  let V := W
  let Z ← Gemm MatrixOrder.ColMaj MatrixOrder.ColMaj MatrixOrder.ColMaj
    uRows vCols uCols 1 U V 0 Y
  pure (Z, U)

/-- `Convolution` for filters in row-major order and output in channel-major
order. -/
def Convolution_RowMajorFilters_ChannelMajorOutput {α : Type} [CommRing α]
    (W X Y : List α) (wCount wRows wCols wChls vStride yRows yCols : Int)
    (space : List α) : Option (List α × List α) := do
  let uRows := yRows * yCols
  let uCols := wRows * wCols * wChls
  let U ← ChlMajInputUnroll X space wRows wCols wChls vStride yRows yCols uRows uCols
  let vCols := wCount
  let V := W
  let Z ← Gemm MatrixOrder.ColMaj MatrixOrder.RowMaj MatrixOrder.ColMaj
    uRows vCols uCols 1 U V 0 Y
  pure (Z, U)

/-! ## Natural-number geometries

Most statements below are about calls whose dimensions are natural numbers.  For
those, the offsets of one iteration are natural numbers too. -/

/-- The dimensions of one call: filter size, vertical stride, output size. -/
structure Geometry where
  wRows : Nat
  wCols : Nat
  wChls : Nat
  vStride : Nat
  yRows : Nat
  yCols : Nat
  deriving DecidableEq, Repr

/-- One iteration of the four nested loops of `ChlMajInputUnroll`. -/
structure Iteration where
  wRow : Nat
  wCol : Nat
  wChl : Nat
  yRow : Nat
  deriving DecidableEq, Repr

namespace Geometry

/-- Number of rows of the input, `int xRows = (yRows - 1) * vStride + wRows`, as a
natural number (the `int` value when `1 ≤ yRows`, as in every iteration). -/
def xRows (g : Geometry) : Nat := (g.yRows - 1) * g.vStride + g.wRows

/-- Number of columns of the input, `int xCols = yCols + wCols - 1`, as a natural
number (the `int` value when `1 ≤ wCols`, as in every iteration). -/
def xCols (g : Geometry) : Nat := g.yCols + g.wCols - 1

/-- Number of rows of the unrolled matrix, `int uRows = yRows * yCols`. -/
def uRows (g : Geometry) : Nat := g.yRows * g.yCols

/-- Number of columns of the unrolled matrix, `int uCols = wRows * wCols * wChls`. -/
def uCols (g : Geometry) : Nat := g.wRows * g.wCols * g.wChls

/-- The loop counters of an iteration are below their bounds. -/
def InRange (g : Geometry) (it : Iteration) : Prop :=
  it.wRow < g.wRows ∧ it.wCol < g.wCols ∧ it.wChl < g.wChls ∧ it.yRow < g.yRows

instance (g : Geometry) (it : Iteration) : Decidable (g.InRange it) := by
  unfold InRange; infer_instance

/-- The column `uCol` of the unrolled matrix filled by an iteration. -/
def uCol (g : Geometry) (it : Iteration) : Nat :=
  (it.wRow * g.wCols + it.wCol) * g.wChls + it.wChl

/-- The offset `source - X` of an iteration, as a natural number. -/
def source (g : Geometry) (it : Iteration) : Nat :=
  (it.wChl * g.xRows + (it.yRow * g.vStride + it.wRow)) * g.xCols + it.wCol

/-- The offset `target - U` of an iteration, as a natural number. -/
def target (g : Geometry) (it : Iteration) : Nat :=
  (g.uCol it * g.yRows + it.yRow) * g.yCols

/-- The iteration whose copy covers position `p` of `U`. -/
def iterationOf (g : Geometry) (p : Nat) : Iteration :=
  let k := p / g.yCols
  let c := k / g.yRows
  let b := c / g.wChls
  { wRow := b / g.wCols, wCol := b % g.wCols, wChl := c % g.wChls, yRow := k % g.yRows }

/-- The position of `X` whose value the transform stores at position `p` of `U`. -/
def sourceOf (g : Geometry) (p : Nat) : Nat :=
  g.source (g.iterationOf p) + p % g.yCols

/-- The offset `source - X` of an iteration for an arbitrary integer stride, as
the code computes it. -/
def sourceAt (g : Geometry) (vStride : Int) (it : Iteration) : Int :=
  copySource g.wRows g.wCols vStride g.yRows g.yCols it.wRow it.wCol it.wChl it.yRow

/-- The position of `X` whose value the transform stores at position `p` of `U`,
for an arbitrary integer stride. -/
def sourceOfAt (g : Geometry) (vStride : Int) (p : Nat) : Nat :=
  (g.sourceAt vStride (g.iterationOf p)).toNat + p % g.yCols

/-- The assertions of an iteration hold and its copy stays inside buffers of
lengths `xLen` and `uLen`; the stride and the asserted bounds `uRows`, `uCols`
are arbitrary integers. -/
def StepOK (g : Geometry) (vStride uRows uCols : Int) (xLen uLen : Nat) (it : Iteration) :
    Prop :=
  copyAsserts g.wRows g.wCols g.wChls vStride g.yRows g.yCols uRows uCols
      (g.sourceAt vStride it) (g.target it) ∧
    (g.yCols = 0 ∨
      ((g.sourceAt vStride it).toNat + g.yCols ≤ xLen ∧ g.target it + g.yCols ≤ uLen))

instance (g : Geometry) (vStride uRows uCols : Int) (xLen uLen : Nat) (it : Iteration) :
    Decidable (g.StepOK vStride uRows uCols xLen uLen it) := by
  unfold StepOK; infer_instance

end Geometry

/-- The iterations of the four nested loops of `ChlMajInputUnroll`, in the order
the code runs them. -/
def loopIterations (wRows wCols wChls yRows : Int) : List Iteration :=
  (List.range wRows.toNat).flatMap fun wRow =>
    (List.range wCols.toNat).flatMap fun wCol =>
      (List.range wChls.toNat).flatMap fun wChl =>
        (List.range yRows.toNat).map fun yRow =>
          { wRow := wRow, wCol := wCol, wChl := wChl, yRow := yRow }

/-- The iterations in the order of the reversed nesting, `yRow` outermost and
`wRow` innermost. -/
def reversedLoopIterations (wRows wCols wChls yRows : Int) : List Iteration :=
  (List.range yRows.toNat).flatMap fun yRow =>
    (List.range wChls.toNat).flatMap fun wChl =>
      (List.range wCols.toNat).flatMap fun wCol =>
        (List.range wRows.toNat).map fun wRow =>
          { wRow := wRow, wCol := wCol, wChl := wChl, yRow := yRow }

/-- The loop body of `ChlMajInputUnroll` run over a list of iterations, in the
order of the list. -/
def runIterations {α : Type} (X : List α)
    (wRows wCols wChls vStride yRows yCols uRows uCols : Int)
    (l : List Iteration) (U : List α) : Option (List α) :=
  l.foldlM (fun U it =>
    unrollBody X wRows wCols wChls vStride yRows yCols uRows uCols
      it.wRow it.wCol it.wChl it.yRow U) U

/-- Both runs succeed and their outputs agree, with a value, at every position
below `n`. -/
def AgreeBelow {α : Type} (n : Nat) (run1 run2 : Option (List α × List α)) : Prop :=
  ∃ Y1 U1 Y2 U2, run1 = some (Y1, U1) ∧ run2 = some (Y2, U2) ∧
    ∀ p, p < n → ∃ v, Y1[p]? = some v ∧ Y2[p]? = some v

/-- The run succeeds, the scratch buffer keeps its length, and its positions from
`n` on are as they were in `space`. -/
def FrameFrom {α : Type} (n : Nat) (space : List α) (run : Option (List α × List α)) :
    Prop :=
  ∃ Y' U', run = some (Y', U') ∧ U'.length = space.length ∧
    ∀ i, n ≤ i → U'[i]? = space[i]?

/-- The dimensions of the concrete scenario: one channel, 2×2 filters, vertical
stride 1, 2×2 output (hence a 3×3 input). -/
def scenarioGeometry : Geometry :=
  { wRows := 2, wCols := 2, wChls := 1, vStride := 1, yRows := 2, yCols := 2 }

/-- The input of the concrete scenario, the values `0..8`. -/
def scenarioX : List Int := [0, 1, 2, 3, 4, 5, 6, 7, 8]

/-- The entry of the product for row `r` of the unrolled matrix and filter `f`,
with the filters `W` read in layout `oB`. -/
def convEntry {α : Type} [CommRing α] (g : Geometry) (wCount : Nat) (oB : MatrixOrder)
    (W X : List α) (r f : Nat) : α :=
  ∑ l in range g.uCols,
    X.getD (g.sourceOf (l * g.uRows + r)) 0 * W.getD (oB.index g.uCols wCount l f) 0

/-- The common shape of the four `Convolution` overloads: unroll, then one `Gemm`
call with `U` column-major, the filters in layout `oB` and the output in layout
`oC`. -/
def convolutionWith {α : Type} [CommRing α] (oB oC : MatrixOrder)
    (W X Y : List α) (wCount wRows wCols wChls vStride yRows yCols : Int)
    (space : List α) : Option (List α × List α) :=
  (ChlMajInputUnroll X space wRows wCols wChls vStride yRows yCols
      (yRows * yCols) (wRows * wCols * wChls)).bind fun U =>
    (Gemm MatrixOrder.ColMaj oB oC (yRows * yCols) wCount (wRows * wCols * wChls)
      1 U W 0 Y).bind fun Z => some (Z, U)

/-- The transform with its four loops nested in the reverse order: `yRow`
outermost, `wRow` innermost. -/
def ChlMajInputUnroll_reversed {α : Type} (X U : List α)
    (wRows wCols wChls vStride yRows yCols uRows uCols : Int) : Option (List α) :=
  forLoop yRows (fun yRow U =>
    forLoop wChls (fun wChl U =>
      forLoop wCols (fun wCol U =>
        forLoop wRows (fun wRow U =>
          unrollBody X wRows wCols wChls vStride yRows yCols uRows uCols
            wRow wCol wChl yRow U) U) U) U) U

/-! ## Counting the copies

The transform once more, with a ghost record of the work done: the size of each
`std::copy` call, in the order of the calls, and the number of elements assigned. -/

/-- The buffer `U` with the ghost record: `copies` holds the size `last - first` of
each `std::copy` call so far, `moved` counts the element assignments so far. -/
structure CopyCount (α : Type) where
  U : List α
  copies : List Nat
  moved : Nat

/-- The copy `copyElements`, counting each element assignment in `moved`. -/
def copyElementsCounted {α : Type} (X : List α) (source : Nat) :
    Nat → List α → Nat → Nat → Option (List α × Nat)
  | 0, U, _, moved => some (U, moved)
  | count + 1, U, target, moved =>
    match X[source]? with
    | none => none
    | some v =>
      if target < U.length then
        copyElementsCounted X (source + 1) count (U.set target v) (target + 1) (moved + 1)
      else none

/-- The call `std::copy(first, last, result)` as in `stdCopy`, recording its size
and counting its element assignments. -/
def stdCopyCounted {α : Type} (X : List α) (first last : Int) (s : CopyCount α)
    (result : Int) : Option (CopyCount α) :=
  if first < 0 ∨ result < 0 ∨ last < first then none
  else
    (copyElementsCounted X first.toNat (last - first).toNat s.U result.toNat s.moved).map
      fun r => { U := r.1, copies := s.copies ++ [(last - first).toNat], moved := r.2 }

/-- The loop body `unrollBody` on the buffer with its ghost record. -/
def unrollBodyCounted {α : Type} (X : List α)
    (wRows wCols wChls vStride yRows yCols uRows uCols : Int)
    (wRow wCol wChl yRow : Int) (s : CopyCount α) : Option (CopyCount α) :=
  let copySize := yCols
  let source := copySource wRows wCols vStride yRows yCols wRow wCol wChl yRow
  let target := copyTarget wCols wChls yRows yCols wRow wCol wChl yRow
  if copyAsserts wRows wCols wChls vStride yRows yCols uRows uCols source target then
    stdCopyCounted X source (source + copySize) s target
  else none

/-- The transform `ChlMajInputUnroll` on the buffer with its ghost record, which
starts empty. -/
def ChlMajInputUnrollCounted {α : Type} (X U : List α)
    (wRows wCols wChls vStride yRows yCols uRows uCols : Int) : Option (CopyCount α) :=
  forLoop wRows (fun wRow s =>
    forLoop wCols (fun wCol s =>
      forLoop wChls (fun wChl s =>
        forLoop yRows (fun yRow s =>
          unrollBodyCounted X wRows wCols wChls vStride yRows yCols uRows uCols
            wRow wCol wChl yRow s) s) s) s) { U := U, copies := [], moved := 0 }

/-! ## Sums of buffers -/

/-- Elementwise sum of two buffers. -/
def addBuffers {α : Type} [Add α] (A B : List α) : List α :=
  List.zipWith (fun a b => a + b) A B

/-- The three runs succeed and, at every position below `n`, the output of the
first is the sum of the outputs of the other two. -/
def SumBelow {α : Type} [Add α] (n : Nat) (run12 run1 run2 : Option (List α × List α)) :
    Prop :=
  ∃ Y12 U12 Y1 U1 Y2 U2, run12 = some (Y12, U12) ∧ run1 = some (Y1, U1) ∧
    run2 = some (Y2, U2) ∧
    ∀ p, p < n → ∃ a b, Y1[p]? = some a ∧ Y2[p]? = some b ∧ Y12[p]? = some (a + b)

/-- The run succeeds and its output is zero at every position below `n`. -/
def ZeroBelow {α : Type} [Zero α] (n : Nat) (run : Option (List α × List α)) : Prop :=
  ∃ Y U, run = some (Y, U) ∧ ∀ p, p < n → Y[p]? = some 0

/-- The map `conv`, from the filters, the input, the initial output buffer and the
scratch buffer to the result of a convolution, is additive in the input, additive
in the filters, and sends the zero input of length `xLen` to zero, on the first
`n` positions of the output.  The runs of a sum, of its first term and of its
second term start from the buffers with index `12`, `1` and `2`. -/
def BilinearOn {α : Type} [CommRing α] (n xLen : Nat)
    (conv : List α → List α → List α → List α → Option (List α × List α))
    (W W1 W2 X X1 X2 Y12 Y1 Y2 S12 S1 S2 : List α) : Prop :=
  SumBelow n (conv W (addBuffers X1 X2) Y12 S12) (conv W X1 Y1 S1) (conv W X2 Y2 S2) ∧
    SumBelow n (conv (addBuffers W1 W2) X Y12 S12) (conv W1 X Y1 S1) (conv W2 X Y2 S2) ∧
    ZeroBelow n (conv W (List.replicate xLen 0) Y12 S12)

/-! ## Offsets of the input read by the transform -/

/-- Some copy of `ChlMajInputUnroll` reads offset `off` of `X`: for loop counters
below their bounds and a position `yCol` below the copy size, `off` is
`source + yCol`. -/
def ReadsOffset (wRows wCols wChls vStride yRows yCols : Int) (off : Int) : Prop :=
  ∃ wRow wCol wChl yRow yCol : Nat,
    (wRow : Int) < wRows ∧ (wCol : Int) < wCols ∧ (wChl : Int) < wChls ∧
      (yRow : Int) < yRows ∧ (yCol : Int) < yCols ∧
      copySource wRows wCols vStride yRows yCols wRow wCol wChl yRow + (yCol : Int) = off

/-! ## The index arithmetic in 32 bits

The values of the `int` expressions the code evaluates, over the integers, and
their evaluation by a machine whose `int` is a 32-bit two's complement number. -/

/-- The value `e` lies in `[0, 2^31)`. -/
def InInt32 (e : Int) : Prop := 0 ≤ e ∧ e < 2 ^ 31

instance (e : Int) : Decidable (InInt32 e) := by
  unfold InInt32; infer_instance

/-- The 32-bit two's complement number congruent to `x` modulo `2^32`. -/
def wrap32 (x : Int) : Int := (x + 2 ^ 31) % 2 ^ 32 - 2 ^ 31

/-- Sum of two `int`s on the 32-bit machine. -/
def add32 (a b : Int) : Int := wrap32 (a + b)

/-- Difference of two `int`s on the 32-bit machine. -/
def sub32 (a b : Int) : Int := wrap32 (a - b)

/-- Product of two `int`s on the 32-bit machine. -/
def mul32 (a b : Int) : Int := wrap32 (a * b)

/-- The values of the `int` expressions evaluated before the loops of
`ChlMajInputUnroll`, sub-expressions first: those of
`xRows = (yRows - 1) * vStride + wRows` and of `xCols = yCols + wCols - 1`. -/
def preambleIntermediates (wRows wCols vStride yRows yCols : Int) : List Int :=
  [yRows - 1, (yRows - 1) * vStride, (yRows - 1) * vStride + wRows,
   yCols + wCols, yCols + wCols - 1]

/-- The values of the `int` expressions evaluated in one iteration of
`ChlMajInputUnroll`, sub-expressions first: those of `xRow`, of the source offset
`(xChl * xRows + xRow) * xCols + xCol`, of `uCol`, of the target offset
`(uCol * yRows + yRow) * yCols`, of the bounds `xRows * xCols * xChls` and
`uRows * uCols` in the assertions, and the incremented loop counters. -/
def bodyIntermediates (wRows wCols wChls vStride yRows yCols uRows uCols
    wRow wCol wChl yRow : Int) : List Int :=
  let xRows := (yRows - 1) * vStride + wRows
  let xCols := yCols + wCols - 1
  let xChls := wChls
  let xRow := yRow * vStride + wRow
  let xCol := wCol
  let xChl := wChl
  let uCol := (wRow * wCols + wCol) * wChls + wChl
  [yRow * vStride, xRow,
   xChl * xRows, xChl * xRows + xRow, (xChl * xRows + xRow) * xCols,
   (xChl * xRows + xRow) * xCols + xCol,
   wRow * wCols, wRow * wCols + wCol, (wRow * wCols + wCol) * wChls, uCol,
   uCol * yRows, uCol * yRows + yRow, (uCol * yRows + yRow) * yCols,
   xRows * xCols, xRows * xCols * xChls, uRows * uCols,
   yRow + 1, wChl + 1, wCol + 1, wRow + 1]

/-- The values of the `int` expressions evaluated by a `Convolution` variant
before it calls `ChlMajInputUnroll`: those of `uRows = yRows * yCols` and of
`uCols = wRows * wCols * wChls`. -/
def convolutionIntermediates (wRows wCols wChls yRows yCols : Int) : List Int :=
  [yRows * yCols, wRows * wCols, wRows * wCols * wChls]

/-- The source offset of an iteration as the 32-bit machine evaluates it. -/
def copySource32 (wRows wCols vStride yRows yCols wRow wCol wChl yRow : Int) : Int :=
  let xRows := add32 (mul32 (sub32 yRows 1) vStride) wRows
  let xCols := sub32 (add32 yCols wCols) 1
  let xRow := add32 (mul32 yRow vStride) wRow
  let xCol := wCol
  let xChl := wChl
  add32 (mul32 (add32 (mul32 xChl xRows) xRow) xCols) xCol

/-- The target offset of an iteration as the 32-bit machine evaluates it. -/
def copyTarget32 (wCols wChls yRows yCols wRow wCol wChl yRow : Int) : Int :=
  let uCol := add32 (mul32 (add32 (mul32 wRow wCols) wCol) wChls) wChl
  mul32 (add32 (mul32 uCol yRows) yRow) yCols

/-- The bound `xRows * xCols * xChls` of the assertions as the 32-bit machine
evaluates it. -/
def sourceBound32 (wRows wCols wChls vStride yRows yCols : Int) : Int :=
  let xRows := add32 (mul32 (sub32 yRows 1) vStride) wRows
  let xCols := sub32 (add32 yCols wCols) 1
  let xChls := wChls
  mul32 (mul32 xRows xCols) xChls

/-- The bound `uRows * uCols` of the assertions as the 32-bit machine evaluates it,
with `uRows = yRows * yCols` and `uCols = wRows * wCols * wChls` as the
`Convolution` variants compute them. -/
def targetBound32 (wRows wCols wChls yRows yCols : Int) : Int :=
  let uRows := mul32 yRows yCols
  let uCols := mul32 (mul32 wRows wCols) wChls
  mul32 uRows uCols

/-! ## Mixed-radix arithmetic -/

theorem encode_div (a b n : Nat) (h : b < n) : (a * n + b) / n = a := by
  have hn : 0 < n := Nat.lt_of_le_of_lt (Nat.zero_le _) h
  rw [Nat.add_comm, Nat.add_mul_div_right _ _ hn, Nat.div_eq_of_lt h, Nat.zero_add]

theorem encode_mod (a b n : Nat) (h : b < n) : (a * n + b) % n = b := by
  rw [Nat.add_comm, Nat.add_mul_mod_self_right, Nat.mod_eq_of_lt h]

theorem encode_lt (a b m n : Nat) (ha : a < m) (hb : b < n) : a * n + b < m * n := by
  have : (a + 1) * n ≤ m * n := Nat.mul_le_mul_right n ha
  have h2 : (a + 1) * n = a * n + n := Nat.succ_mul a n
  omega

/-! ## `std::copy` -/

theorem copyElements_spec {α : Type} (X : List α) :
    ∀ (n s : Nat) (U : List α) (t : Nat), s + n ≤ X.length → t + n ≤ U.length →
      ∃ U', copyElements X s n U t = some U' ∧ U'.length = U.length ∧
        ∀ p, U'[p]? = if t ≤ p ∧ p < t + n then X[s + (p - t)]? else U[p]? := by
  intro n
  induction n with
  | zero =>
    intro s U t _ _
    refine ⟨U, rfl, rfl, fun p => ?_⟩
    have : ¬ (t ≤ p ∧ p < t + 0) := by omega
    rw [if_neg this]
  | succ n ih =>
    intro s U t hs ht
    have hsX : s < X.length := by omega
    have htU : t < U.length := by omega
    obtain ⟨U', hU', hlen, hget⟩ := ih (s + 1) (U.set t X[s]) (t + 1)
      (by omega) (by simp; omega)
    refine ⟨U', ?_, ?_, fun p => ?_⟩
    · simp [copyElements, List.getElem?_eq_getElem hsX, htU, hU']
    · simpa using hlen
    · rw [hget p]
      by_cases h1 : t + 1 ≤ p ∧ p < t + 1 + n
      · have h2 : t ≤ p ∧ p < t + (n + 1) := by omega
        have h3 : s + 1 + (p - (t + 1)) = s + (p - t) := by omega
        simp [h1, h2, h3]
      · by_cases h4 : p = t
        · subst h4
          have h2 : p ≤ p ∧ p < p + (n + 1) := by omega
          simp [h1, h2, List.getElem?_set_self htU, List.getElem?_eq_getElem hsX]
        · have h2 : ¬ (t ≤ p ∧ p < t + (n + 1)) := by omega
          simp [h1, h2, List.getElem?_set_ne (Ne.symm h4)]

theorem copyElements_none {α : Type} (X : List α) :
    ∀ (n s : Nat) (U : List α) (t : Nat), 0 < n → (X.length < s + n ∨ U.length < t + n) →
      copyElements X s n U t = none := by
  intro n
  induction n with
  | zero => intro s U t h; omega
  | succ n ih =>
    intro s U t _ hbad
    by_cases hsX : s < X.length
    · by_cases htU : t < U.length
      · have hn : 0 < n := by omega
        have := ih (s + 1) (U.set t X[s]) (t + 1) hn (by simp; omega)
        simp [copyElements, List.getElem?_eq_getElem hsX, htU, this]
      · simp [copyElements, List.getElem?_eq_getElem hsX, htU]
    · have : X[s]? = none := List.getElem?_eq_none (by omega)
      simp [copyElements, this]

/-! ## The loop body on natural numbers -/

theorem copySource_natCast (g : Geometry) (it : Iteration) (hy : it.yRow < g.yRows)
    (hc : it.wCol < g.wCols) :
    copySource g.wRows g.wCols g.vStride g.yRows g.yCols it.wRow it.wCol it.wChl it.yRow
      = ((g.source it : Nat) : Int) := by
  obtain ⟨y, hy'⟩ : ∃ y, g.yRows = y + 1 := ⟨g.yRows - 1, by omega⟩
  obtain ⟨c, hc'⟩ : ∃ c, g.wCols = c + 1 := ⟨g.wCols - 1, by omega⟩
  simp only [copySource, Geometry.source, Geometry.xRows, Geometry.xCols, hy', hc']
  have h1 : y + 1 - 1 = y := by omega
  have h2 : g.yCols + (c + 1) - 1 = g.yCols + c := by omega
  rw [h1, h2]
  push_cast
  ring

theorem copyTarget_natCast (g : Geometry) (it : Iteration) :
    copyTarget g.wCols g.wChls g.yRows g.yCols it.wRow it.wCol it.wChl it.yRow
      = ((g.target it : Nat) : Int) := by
  simp only [copyTarget, Geometry.target, Geometry.uCol]
  push_cast
  ring

theorem xSize_natCast (g : Geometry) (hy : 0 < g.yRows) (hc : 0 < g.wCols) :
    (((g.yRows : Int) - 1) * g.vStride + g.wRows) * ((g.yCols : Int) + g.wCols - 1) * g.wChls
      = ((g.xRows * g.xCols * g.wChls : Nat) : Int) := by
  obtain ⟨y, hy'⟩ : ∃ y, g.yRows = y + 1 := ⟨g.yRows - 1, by omega⟩
  obtain ⟨c, hc'⟩ : ∃ c, g.wCols = c + 1 := ⟨g.wCols - 1, by omega⟩
  simp only [Geometry.xRows, Geometry.xCols, hy', hc']
  have h1 : y + 1 - 1 = y := by omega
  have h2 : g.yCols + (c + 1) - 1 = g.yCols + c := by omega
  rw [h1, h2]
  push_cast
  ring

theorem Geometry.cast_uRows (g : Geometry) :
    (g.yRows : Int) * (g.yCols : Int) = ((g.uRows : Nat) : Int) := by
  simp only [Geometry.uRows]; push_cast; rfl

theorem Geometry.cast_uCols (g : Geometry) :
    (g.wRows : Int) * (g.wCols : Int) * (g.wChls : Int) = ((g.uCols : Nat) : Int) := by
  simp only [Geometry.uCols]; push_cast; rfl

/-- For a natural-number stride and an iteration below the loop bounds, the
offset `source - X` is the natural number `source`. -/
theorem Geometry.sourceAt_natCast (g : Geometry) (it : Iteration) (hr : g.InRange it) :
    g.sourceAt g.vStride it = ((g.source it : Nat) : Int) :=
  copySource_natCast g it hr.2.2.2 hr.2.1

/-- With natural-number loop bounds and copy size the loop body is: check the
assertions, then copy `yCols` elements from offset `source` of `X` to offset
`target` of `U`. -/
theorem unrollBody_natDims {α : Type} (X U : List α) (g : Geometry)
    (vStride uRows uCols : Int) (it : Iteration) :
    unrollBody X g.wRows g.wCols g.wChls vStride g.yRows g.yCols uRows uCols
        it.wRow it.wCol it.wChl it.yRow U
      = if copyAsserts g.wRows g.wCols g.wChls vStride g.yRows g.yCols uRows uCols
            (g.sourceAt vStride it) (g.target it) then
          copyElements X (g.sourceAt vStride it).toNat g.yCols U (g.target it)
        else none := by
  have hs : copySource g.wRows g.wCols vStride g.yRows g.yCols it.wRow it.wCol it.wChl it.yRow
      = g.sourceAt vStride it := rfl
  simp only [unrollBody, stdCopy, copyTarget_natCast g it, hs]
  by_cases h : copyAsserts g.wRows g.wCols g.wChls vStride g.yRows g.yCols uRows uCols
      (g.sourceAt vStride it) (g.target it)
  · have h0 : 0 ≤ g.sourceAt vStride it := h.1
    have hg : ¬ (g.sourceAt vStride it < 0 ∨ ((g.target it : Nat) : Int) < 0 ∨
        g.sourceAt vStride it + (g.yCols : Int) < g.sourceAt vStride it) := by omega
    have e1 : (g.sourceAt vStride it + (g.yCols : Int) - g.sourceAt vStride it).toNat
        = g.yCols := by
      rw [add_sub_cancel_left, Int.toNat_ofNat]
    rw [if_pos h, if_pos h, if_neg hg, e1, Int.toNat_ofNat]
  · rw [if_neg h, if_neg h]
/-! ## Positions of `U` and iterations -/

theorem Geometry.uCol_lt (g : Geometry) (it : Iteration) (h : g.InRange it) :
    g.uCol it < g.uCols := by
  obtain ⟨h1, h2, h3, _⟩ := h
  exact encode_lt _ _ _ _ (encode_lt _ _ _ _ h1 h2) h3

theorem Geometry.target_add_lt (g : Geometry) (it : Iteration) (h : g.InRange it) (i : Nat)
    (hi : i < g.yCols) : g.target it + i < g.uRows * g.uCols := by
  have h1 := encode_lt _ _ _ _ (encode_lt _ _ _ _ (g.uCol_lt it h) h.2.2.2) hi
  have h2 : g.uCols * g.yRows * g.yCols = g.uRows * g.uCols := by
    simp only [Geometry.uRows]; ring
  rw [← h2]
  exact h1

theorem Geometry.iterationOf_target_add (g : Geometry) (it : Iteration) (h : g.InRange it)
    (i : Nat) (hi : i < g.yCols) : g.iterationOf (g.target it + i) = it := by
  obtain ⟨_, h2, h3, h4⟩ := h
  cases it
  simp only [Geometry.iterationOf, Geometry.target, Geometry.uCol] at *
  simp only [encode_div _ _ _ hi, encode_div _ _ _ h4, encode_mod _ _ _ h4,
    encode_div _ _ _ h3, encode_mod _ _ _ h3, encode_div _ _ _ h2, encode_mod _ _ _ h2]

theorem Geometry.sourceOf_target_add (g : Geometry) (it : Iteration) (h : g.InRange it)
    (i : Nat) (hi : i < g.yCols) : g.sourceOf (g.target it + i) = g.source it + i := by
  unfold Geometry.sourceOf
  rw [g.iterationOf_target_add it h i hi]
  have : (g.target it + i) % g.yCols = i := by
    unfold Geometry.target
    exact encode_mod _ _ _ hi
  rw [this]

theorem Geometry.sourceOfAt_target_add (g : Geometry) (vStride : Int) (it : Iteration)
    (h : g.InRange it) (i : Nat) (hi : i < g.yCols) :
    g.sourceOfAt vStride (g.target it + i) = (g.sourceAt vStride it).toNat + i := by
  unfold Geometry.sourceOfAt
  rw [g.iterationOf_target_add it h i hi]
  have : (g.target it + i) % g.yCols = i := by
    unfold Geometry.target
    exact encode_mod _ _ _ hi
  rw [this]
theorem Geometry.inRange_iterationOf (g : Geometry) (p : Nat) (hp : p < g.uRows * g.uCols) :
    g.InRange (g.iterationOf p) := by
  have hpos : 0 < g.uRows * g.uCols := Nat.lt_of_le_of_lt (Nat.zero_le _) hp
  simp only [Geometry.uRows, Geometry.uCols] at hp hpos
  have hyR : 0 < g.yRows := by
    rcases Nat.eq_zero_or_pos g.yRows with h | h
    · rw [h] at hpos; simp at hpos
    · exact h
  have hyC : 0 < g.yCols := by
    rcases Nat.eq_zero_or_pos g.yCols with h | h
    · rw [h] at hpos; simp at hpos
    · exact h
  have hwC : 0 < g.wCols := by
    rcases Nat.eq_zero_or_pos g.wCols with h | h
    · rw [h] at hpos; simp at hpos
    · exact h
  have hwH : 0 < g.wChls := by
    rcases Nat.eq_zero_or_pos g.wChls with h | h
    · rw [h] at hpos; simp at hpos
    · exact h
  have hk : p / g.yCols < g.wRows * g.wCols * g.wChls * g.yRows := by
    rw [Nat.div_lt_iff_lt_mul hyC]
    calc p < g.yRows * g.yCols * (g.wRows * g.wCols * g.wChls) := hp
      _ = g.wRows * g.wCols * g.wChls * g.yRows * g.yCols := by ring
  have hc : p / g.yCols / g.yRows < g.wRows * g.wCols * g.wChls := by
    rw [Nat.div_lt_iff_lt_mul hyR]; exact hk
  have hb : p / g.yCols / g.yRows / g.wChls < g.wRows * g.wCols := by
    rw [Nat.div_lt_iff_lt_mul hwH]; exact hc
  refine ⟨?_, Nat.mod_lt _ hwC, Nat.mod_lt _ hwH, Nat.mod_lt _ hyR⟩
  simp only [Geometry.iterationOf]
  rw [Nat.div_lt_iff_lt_mul hwC]; exact hb

theorem Geometry.target_iterationOf (g : Geometry) (p : Nat) :
    g.target (g.iterationOf p) + p % g.yCols = p := by
  simp only [Geometry.target, Geometry.uCol, Geometry.iterationOf, Nat.div_add_mod']

theorem Geometry.yCols_pos_of_lt (g : Geometry) (p : Nat) (hp : p < g.uRows * g.uCols) :
    0 < g.yCols := by
  rcases Nat.eq_zero_or_pos g.yCols with h | h
  · simp [Geometry.uRows, h] at hp
  · exact h

/-! ## One iteration -/

theorem unrollBody_some {α : Type} (X U : List α) (g : Geometry) (vStride uRows uCols : Int)
    (it : Iteration) (hok : g.StepOK vStride uRows uCols X.length U.length it) :
    ∃ U', unrollBody X g.wRows g.wCols g.wChls vStride g.yRows g.yCols uRows uCols
          it.wRow it.wCol it.wChl it.yRow U = some U' ∧ U'.length = U.length ∧
      ∀ p, U'[p]? = if g.target it ≤ p ∧ p < g.target it + g.yCols then
          X[(g.sourceAt vStride it).toNat + (p - g.target it)]? else U[p]? := by
  rw [unrollBody_natDims X U g vStride uRows uCols it, if_pos hok.1]
  rcases hok.2 with h0 | h1
  · rw [h0]
    refine ⟨U, rfl, rfl, fun p => ?_⟩
    have : ¬ (g.target it ≤ p ∧ p < g.target it + 0) := by omega
    rw [if_neg this]
  · exact copyElements_spec X g.yCols _ U (g.target it) h1.1 h1.2

theorem unrollBody_none {α : Type} (X U : List α) (g : Geometry) (vStride uRows uCols : Int)
    (it : Iteration) (hok : ¬ g.StepOK vStride uRows uCols X.length U.length it) :
    unrollBody X g.wRows g.wCols g.wChls vStride g.yRows g.yCols uRows uCols
      it.wRow it.wCol it.wChl it.yRow U = none := by
  rw [unrollBody_natDims X U g vStride uRows uCols it]
  by_cases ha : copyAsserts g.wRows g.wCols g.wChls vStride g.yRows g.yCols uRows uCols
      (g.sourceAt vStride it) (g.target it)
  · rw [if_pos ha]
    have hb : ¬ (g.yCols = 0 ∨ ((g.sourceAt vStride it).toNat + g.yCols ≤ X.length ∧
        g.target it + g.yCols ≤ U.length)) :=
      fun h => hok ⟨ha, h⟩
    exact copyElements_none X g.yCols _ U (g.target it) (by omega) (by omega)
  · rw [if_neg ha]

/-! ## A list of iterations -/

theorem runIterations_cons {α : Type} (X U : List α)
    (wRows wCols wChls vStride yRows yCols uRows uCols : Int)
    (it : Iteration) (l : List Iteration) :
    runIterations X wRows wCols wChls vStride yRows yCols uRows uCols (it :: l) U =
      (unrollBody X wRows wCols wChls vStride yRows yCols uRows uCols
        it.wRow it.wCol it.wChl it.yRow U).bind
        (runIterations X wRows wCols wChls vStride yRows yCols uRows uCols l) := by
  simp only [runIterations, List.foldlM_cons]
  rfl

/-- Every iteration of the list succeeds: the run succeeds, the length of `U` is
unchanged, and position `p` holds the input value `X[sourceOfAt p]` when the
iteration that covers `p` is in the list, its former value otherwise. -/
theorem runIterations_some {α : Type} (X : List α) (g : Geometry) (vStride uRows uCols : Int)
    (l : List Iteration) :
    ∀ (U : List α),
      (∀ it ∈ l, g.InRange it ∧ g.StepOK vStride uRows uCols X.length U.length it) →
      ∃ U', runIterations X g.wRows g.wCols g.wChls vStride g.yRows g.yCols uRows uCols l U
          = some U' ∧ U'.length = U.length ∧
        ∀ p, U'[p]? = if p < g.uRows * g.uCols ∧ g.iterationOf p ∈ l then
            X[g.sourceOfAt vStride p]? else U[p]? := by
  induction l with
  | nil =>
    intro U _
    exact ⟨U, rfl, rfl, fun p => by simp⟩
  | cons it l ih =>
    intro U h
    obtain ⟨hr, hok⟩ := h it (List.mem_cons_self _ _)
    obtain ⟨U1, hU1, hlen1, hget1⟩ := unrollBody_some X U g vStride uRows uCols it hok
    obtain ⟨U', hU', hlen, hget⟩ := ih U1 (fun it' hit' => by
      rw [hlen1]; exact h it' (List.mem_cons_of_mem _ hit'))
    refine ⟨U', ?_, hlen.trans hlen1, fun p => ?_⟩
    · rw [runIterations_cons, hU1]; exact hU'
    · rw [hget p]
      by_cases hA : p < g.uRows * g.uCols ∧ g.iterationOf p ∈ l
      · have hA' : p < g.uRows * g.uCols ∧ g.iterationOf p ∈ it :: l :=
          ⟨hA.1, List.mem_cons_of_mem _ hA.2⟩
        rw [if_pos hA, if_pos hA']
      · rw [if_neg hA, hget1 p]
        by_cases hB : g.target it ≤ p ∧ p < g.target it + g.yCols
        · have hi : p - g.target it < g.yCols := by omega
          have hp : g.target it + (p - g.target it) = p := by omega
          have h1 := g.iterationOf_target_add it hr _ hi
          have h2 := g.sourceOfAt_target_add vStride it hr _ hi
          have h3 := g.target_add_lt it hr _ hi
          rw [hp] at h1 h2 h3
          have hC : p < g.uRows * g.uCols ∧ g.iterationOf p ∈ it :: l :=
            ⟨h3, by rw [h1]; exact List.mem_cons_self _ _⟩
          rw [if_pos hB, if_pos hC, h2]
        · have hC : ¬ (p < g.uRows * g.uCols ∧ g.iterationOf p ∈ it :: l) := by
            rintro ⟨hp, hmem⟩
            rcases List.mem_cons.mp hmem with heq | hmem'
            · have h1 := g.target_iterationOf p
              have h2 := Nat.mod_lt p (g.yCols_pos_of_lt p hp)
              rw [heq] at h1
              omega
            · exact hA ⟨hp, hmem'⟩
          rw [if_neg hB, if_neg hC]

/-- One iteration of the list fails: the run fails. -/
theorem runIterations_none {α : Type} (X : List α) (g : Geometry) (vStride uRows uCols : Int)
    (l : List Iteration) :
    ∀ (U : List α), (∃ it ∈ l, ¬ g.StepOK vStride uRows uCols X.length U.length it) →
      runIterations X g.wRows g.wCols g.wChls vStride g.yRows g.yCols uRows uCols l U
        = none := by
  induction l with
  | nil =>
    intro U h
    obtain ⟨it, hit, _⟩ := h
    exact absurd hit (List.not_mem_nil _)
  | cons it l ih =>
    intro U h
    rw [runIterations_cons]
    by_cases hok : g.StepOK vStride uRows uCols X.length U.length it
    · obtain ⟨U1, hU1, hlen1, _⟩ := unrollBody_some X U g vStride uRows uCols it hok
      rw [hU1]
      apply ih U1
      obtain ⟨it', hit', hbad⟩ := h
      rcases List.mem_cons.mp hit' with heq | hmem
      · rw [heq] at hbad; exact absurd hok hbad
      · exact ⟨it', hmem, by rw [hlen1]; exact hbad⟩
    · rw [unrollBody_none X U g vStride uRows uCols it hok]
      rfl

/-! ## The nested loops as a list of iterations -/

theorem foldlM_flatMap {σ β γ : Type} (f : β → List γ) (step : σ → γ → Option σ)
    (l : List β) : ∀ s : σ,
    (l.flatMap f).foldlM step s = l.foldlM (fun s b => (f b).foldlM step s) s := by
  induction l with
  | nil => intro s; rfl
  | cons b l ih =>
    intro s
    rw [List.flatMap_cons, List.foldlM_append, List.foldlM_cons]
    congr 1
    funext s'
    exact ih s'

theorem mem_loopIterations (wRows wCols wChls yRows : Int) (it : Iteration) :
    it ∈ loopIterations wRows wCols wChls yRows ↔
      (it.wRow : Int) < wRows ∧ (it.wCol : Int) < wCols ∧ (it.wChl : Int) < wChls ∧
        (it.yRow : Int) < yRows := by
  cases it
  simp only [loopIterations, List.mem_flatMap, List.mem_map, List.mem_range,
    Iteration.mk.injEq, Int.lt_toNat]
  constructor
  · rintro ⟨a, ha, b, hb, c, hc, d, hd, rfl, rfl, rfl, rfl⟩
    exact ⟨ha, hb, hc, hd⟩
  · rintro ⟨ha, hb, hc, hd⟩
    exact ⟨_, ha, _, hb, _, hc, _, hd, rfl, rfl, rfl, rfl⟩

theorem Geometry.mem_iterations (g : Geometry) (it : Iteration) :
    it ∈ loopIterations g.wRows g.wCols g.wChls g.yRows ↔ g.InRange it := by
  rw [mem_loopIterations]
  simp only [Geometry.InRange, Nat.cast_lt]

/-- The transform is its loop body run over `loopIterations`. -/
theorem ChlMajInputUnroll_eq_runIterations {α : Type} (X U : List α)
    (wRows wCols wChls vStride yRows yCols uRows uCols : Int) :
    ChlMajInputUnroll X U wRows wCols wChls vStride yRows yCols uRows uCols
      = runIterations X wRows wCols wChls vStride yRows yCols uRows uCols
          (loopIterations wRows wCols wChls yRows) U := by
  simp only [ChlMajInputUnroll, forLoop, runIterations, loopIterations,
    foldlM_flatMap, List.foldlM_map]
/-! ## The transform on buffers of the documented sizes -/

theorem Geometry.source_add_le (g : Geometry) (it : Iteration) (h : g.InRange it) :
    g.source it + g.yCols ≤ g.xRows * g.xCols * g.wChls := by
  obtain ⟨h1, h2, h3, h4⟩ := h
  have hrow : it.yRow * g.vStride + it.wRow < g.xRows := by
    have : it.yRow * g.vStride ≤ (g.yRows - 1) * g.vStride :=
      Nat.mul_le_mul_right _ (by omega)
    simp only [Geometry.xRows]
    omega
  have hchl : it.wChl * g.xRows + (it.yRow * g.vStride + it.wRow) < g.wChls * g.xRows :=
    encode_lt _ _ _ _ h3 hrow
  have hcol : it.wCol + g.yCols ≤ g.xCols := by
    simp only [Geometry.xCols]; omega
  have h5 : (it.wChl * g.xRows + (it.yRow * g.vStride + it.wRow) + 1) * g.xCols
      ≤ g.wChls * g.xRows * g.xCols := Nat.mul_le_mul_right _ hchl
  have h6 : (it.wChl * g.xRows + (it.yRow * g.vStride + it.wRow) + 1) * g.xCols
      = (it.wChl * g.xRows + (it.yRow * g.vStride + it.wRow)) * g.xCols + g.xCols := by ring
  have h7 : g.xRows * g.xCols * g.wChls = g.wChls * g.xRows * g.xCols := by ring
  simp only [Geometry.source]
  omega

theorem Geometry.target_add_le (g : Geometry) (it : Iteration) (h : g.InRange it) :
    g.target it + g.yCols ≤ g.uRows * g.uCols := by
  have hk : g.uCol it * g.yRows + it.yRow < g.uCols * g.yRows :=
    encode_lt _ _ _ _ (g.uCol_lt it h) h.2.2.2
  have h5 : (g.uCol it * g.yRows + it.yRow + 1) * g.yCols ≤ g.uCols * g.yRows * g.yCols :=
    Nat.mul_le_mul_right _ hk
  have h6 : (g.uCol it * g.yRows + it.yRow + 1) * g.yCols
      = (g.uCol it * g.yRows + it.yRow) * g.yCols + g.yCols := by ring
  have h7 : g.uCols * g.yRows * g.yCols = g.uRows * g.uCols := by
    simp only [Geometry.uRows]; ring
  simp only [Geometry.target]
  omega

/-- The four assertions hold in every iteration of a call with a natural-number
stride, `uRows = yRows * yCols` and `uCols = wRows * wCols * wChls`. -/
theorem Geometry.copyAsserts_of_inRange (g : Geometry) (it : Iteration) (hr : g.InRange it) :
    copyAsserts g.wRows g.wCols g.wChls g.vStride g.yRows g.yCols g.uRows g.uCols
      (g.sourceAt g.vStride it) (g.target it) := by
  have hy : 0 < g.yRows := Nat.lt_of_le_of_lt (Nat.zero_le _) hr.2.2.2
  have hc : 0 < g.wCols := Nat.lt_of_le_of_lt (Nat.zero_le _) hr.2.1
  have h1 := g.source_add_le it hr
  have h2 := g.target_add_le it hr
  unfold copyAsserts
  simp only [g.sourceAt_natCast it hr, xSize_natCast g hy hc]
  refine ⟨Int.natCast_nonneg _, by exact_mod_cast h1, Int.natCast_nonneg _,
    by exact_mod_cast h2⟩

theorem Geometry.stepOK_of_sizes (g : Geometry) (xLen uLen : Nat)
    (hX : g.wChls * g.xRows * g.xCols ≤ xLen) (hU : g.uRows * g.uCols ≤ uLen)
    (it : Iteration) (h : g.InRange it) :
    g.StepOK g.vStride g.uRows g.uCols xLen uLen it := by
  have h1 := g.source_add_le it h
  have h2 := g.target_add_le it h
  have h3 : g.xRows * g.xCols * g.wChls = g.wChls * g.xRows * g.xCols := by ring
  refine ⟨g.copyAsserts_of_inRange it h, Or.inr ⟨?_, by omega⟩⟩
  rw [g.sourceAt_natCast it h, Int.toNat_ofNat]
  omega

theorem Geometry.sourceOfAt_eq (g : Geometry) (p : Nat) (hp : p < g.uRows * g.uCols) :
    g.sourceOfAt g.vStride p = g.sourceOf p := by
  unfold Geometry.sourceOfAt Geometry.sourceOf
  rw [g.sourceAt_natCast _ (g.inRange_iterationOf p hp), Int.toNat_ofNat]

/-- On buffers of the documented sizes the transform succeeds, keeps the length
of `U`, stores `X[sourceOf p]` at every position `p < uRows * uCols` and leaves
the other positions as they were. -/
theorem ChlMajInputUnroll_result {α : Type} (X U : List α) (g : Geometry)
    (hX : g.wChls * g.xRows * g.xCols ≤ X.length) (hU : g.uRows * g.uCols ≤ U.length) :
    ∃ U', ChlMajInputUnroll X U g.wRows g.wCols g.wChls g.vStride g.yRows g.yCols
          g.uRows g.uCols = some U' ∧ U'.length = U.length ∧
      ∀ p, U'[p]? = if p < g.uRows * g.uCols then X[g.sourceOf p]? else U[p]? := by
  obtain ⟨U', hU', hlen, hget⟩ := runIterations_some X g g.vStride g.uRows g.uCols
    (loopIterations g.wRows g.wCols g.wChls g.yRows) U
    (fun it hit => ⟨(g.mem_iterations it).mp hit,
      g.stepOK_of_sizes _ _ hX hU it ((g.mem_iterations it).mp hit)⟩)
  refine ⟨U', ?_, hlen, fun p => ?_⟩
  · rw [ChlMajInputUnroll_eq_runIterations]; exact hU'
  · rw [hget p]
    by_cases hp : p < g.uRows * g.uCols
    · have : p < g.uRows * g.uCols ∧
          g.iterationOf p ∈ loopIterations g.wRows g.wCols g.wChls g.yRows :=
        ⟨hp, (g.mem_iterations _).mpr (g.inRange_iterationOf p hp)⟩
      rw [if_pos this, if_pos hp, g.sourceOfAt_eq p hp]
    · have : ¬ (p < g.uRows * g.uCols ∧
          g.iterationOf p ∈ loopIterations g.wRows g.wCols g.wChls g.yRows) :=
        fun h => hp h.1
      rw [if_neg this, if_neg hp]
/-- The value read by the transform is inside `X`. -/
theorem Geometry.sourceOf_lt (g : Geometry) (p : Nat) (hp : p < g.uRows * g.uCols) :
    g.sourceOf p < g.wChls * g.xRows * g.xCols := by
  have h1 := g.source_add_le _ (g.inRange_iterationOf p hp)
  have h2 := Nat.mod_lt p (g.yCols_pos_of_lt p hp)
  have h3 : g.xRows * g.xCols * g.wChls = g.wChls * g.xRows * g.xCols := by ring
  simp only [Geometry.sourceOf]
  omega

/-! ## The matrix product -/

theorem MatrixOrder.index_lt (o : MatrixOrder) (rows cols i j : Nat) (hi : i < rows)
    (hj : j < cols) : o.index rows cols i j < rows * cols := by
  cases o
  · exact encode_lt _ _ _ _ hi hj
  · rw [Nat.mul_comm rows cols]; exact encode_lt _ _ _ _ hj hi

theorem MatrixOrder.rowOf_index (o : MatrixOrder) (rows cols i j : Nat) (hi : i < rows)
    (hj : j < cols) : o.rowOf rows cols (o.index rows cols i j) = i := by
  cases o
  · exact encode_div _ _ _ hj
  · exact encode_mod _ _ _ hi

theorem MatrixOrder.colOf_index (o : MatrixOrder) (rows cols i j : Nat) (hi : i < rows)
    (hj : j < cols) : o.colOf rows cols (o.index rows cols i j) = j := by
  cases o
  · exact encode_mod _ _ _ hj
  · exact encode_div _ _ _ hi

/-- On buffers that hold their matrices `Gemm` succeeds, keeps the length of `C`,
stores `alpha·(A·B)(i, j) + beta·C(i, j)` at the position of every entry `(i, j)`
and leaves the positions from `m * n` on as they were. -/
theorem Gemm_result {α : Type} [CommRing α] (oA oB oC : MatrixOrder) (m n k : Nat)
    (alpha beta : α) (A B C : List α) (hA : m * k ≤ A.length) (hB : k * n ≤ B.length)
    (hC : m * n ≤ C.length) :
    ∃ Z, Gemm oA oB oC m n k alpha A B beta C = some Z ∧ Z.length = C.length ∧
      (∀ i j, i < m → j < n → Z[oC.index m n i j]? =
        some (alpha * (∑ l in range k,
            A.getD (oA.index m k i l) 0 * B.getD (oB.index k n l j) 0)
          + beta * C.getD (oC.index m n i j) 0)) ∧
      ∀ p, m * n ≤ p → Z[p]? = C[p]? := by
  have hneg : ¬ ((m : Int) < 0 ∨ (n : Int) < 0 ∨ (k : Int) < 0) := by omega
  have hsz : ¬ (A.length < m * k ∨ B.length < k * n ∨ C.length < m * n) := by omega
  have hG : Gemm oA oB oC m n k alpha A B beta C = some (C.mapIdx fun p c =>
      if p < m * n then
        alpha * (∑ l in range k, A.getD (oA.index m k (oC.rowOf m n p) l) 0 *
          B.getD (oB.index k n l (oC.colOf m n p)) 0) + beta * c
      else c) := by
    simp only [Gemm, if_neg hneg, Int.toNat_ofNat, if_neg hsz]
  refine ⟨_, hG, ?_, ?_, ?_⟩
  · simp
  · intro i j hi hj
    have hlt := oC.index_lt m n i j hi hj
    have hlt' : oC.index m n i j < C.length := by omega
    rw [List.getElem?_mapIdx, List.getElem?_eq_getElem hlt']
    simp only [Option.map_some', if_pos hlt, oC.rowOf_index m n i j hi hj,
      oC.colOf_index m n i j hi hj]
    rw [List.getD_eq_getElem _ _ hlt']
  · intro p hp
    have hp' : ¬ p < m * n := by omega
    rw [List.getElem?_mapIdx]
    cases h : C[p]? with
    | none => rfl
    | some c => simp only [Option.map_some', if_neg hp']

theorem sum_range_mul {β : Type} [AddCommMonoid β] (f : Nat → β) (a b : Nat) :
    ∑ l in range (a * b), f l = ∑ i in range a, ∑ j in range b, f (i * b + j) := by
  induction a with
  | zero => simp
  | succ a ih =>
    rw [Nat.succ_mul, Finset.sum_range_add, ih, Finset.sum_range_succ]

/-! ## Unrolling followed by the matrix product -/


/-- The transform followed by the `Gemm` call of a convolution, on buffers of the
documented sizes. -/
theorem unroll_gemm_result {α : Type} [CommRing α] (g : Geometry) (wCount : Nat)
    (oB oC : MatrixOrder) (W X Y space : List α)
    (hW : g.uCols * wCount ≤ W.length) (hX : g.wChls * g.xRows * g.xCols ≤ X.length)
    (hY : g.uRows * wCount ≤ Y.length) (hS : g.uRows * g.uCols ≤ space.length) :
    ∃ Z U', ChlMajInputUnroll X space g.wRows g.wCols g.wChls g.vStride g.yRows g.yCols
          ((g.yRows : Int) * g.yCols) ((g.wRows : Int) * g.wCols * g.wChls) = some U' ∧
      Gemm MatrixOrder.ColMaj oB oC ((g.yRows : Int) * g.yCols) wCount
          ((g.wRows : Int) * g.wCols * g.wChls) 1 U' W 0 Y = some Z ∧
      U'.length = space.length ∧
      (∀ p, U'[p]? = if p < g.uRows * g.uCols then X[g.sourceOf p]? else space[p]?) ∧
      Z.length = Y.length ∧
      (∀ r f, r < g.uRows → f < wCount →
        Z[oC.index g.uRows wCount r f]? = some (convEntry g wCount oB W X r f)) ∧
      ∀ p, g.uRows * wCount ≤ p → Z[p]? = Y[p]? := by
  obtain ⟨U', hU', hlenU, hgetU⟩ := ChlMajInputUnroll_result X space g hX hS
  obtain ⟨Z, hZ, hlenZ, hgetZ, hrest⟩ := Gemm_result MatrixOrder.ColMaj oB oC g.uRows wCount
    g.uCols 1 0 U' W Y (by omega) hW hY
  refine ⟨Z, U', ?_, ?_, hlenU, hgetU, hlenZ, fun r f hr hf => ?_, hrest⟩
  · rw [g.cast_uRows, g.cast_uCols]; exact hU'
  · rw [g.cast_uRows, g.cast_uCols]; exact hZ
  · rw [hgetZ r f hr hf]
    simp only [one_mul, zero_mul, add_zero, convEntry]
    congr 1
    apply Finset.sum_congr rfl
    intro l hl
    have hl' : l < g.uCols := Finset.mem_range.mp hl
    have hp : l * g.uRows + r < g.uRows * g.uCols :=
      MatrixOrder.index_lt MatrixOrder.ColMaj g.uRows g.uCols r l hr hl'
    have : U'.getD (MatrixOrder.ColMaj.index g.uRows g.uCols r l) 0
        = X.getD (g.sourceOf (l * g.uRows + r)) 0 := by
      simp only [MatrixOrder.index, List.getD_eq_getElem?_getD, hgetU, if_pos hp]
    rw [this]

theorem Convolution_FilterMajorFilters_RowMajorOutput_eq {α : Type} [CommRing α]
    (W X Y : List α) (wCount wRows wCols wChls vStride yRows yCols : Int) (space : List α) :
    Convolution_FilterMajorFilters_RowMajorOutput W X Y wCount wRows wCols wChls vStride
        yRows yCols space
      = convolutionWith MatrixOrder.ColMaj MatrixOrder.RowMaj W X Y wCount wRows wCols wChls
        vStride yRows yCols space := rfl

theorem Convolution_RowMajorFilters_RowMajorOutput_eq {α : Type} [CommRing α]
    (W X Y : List α) (wCount wRows wCols wChls vStride yRows yCols : Int) (space : List α) :
    Convolution_RowMajorFilters_RowMajorOutput W X Y wCount wRows wCols wChls vStride
        yRows yCols space
      = convolutionWith MatrixOrder.RowMaj MatrixOrder.RowMaj W X Y wCount wRows wCols wChls
        vStride yRows yCols space := rfl

theorem Convolution_FilterMajorFilters_ChannelMajorOutput_eq {α : Type} [CommRing α]
    (W X Y : List α) (wCount wRows wCols wChls vStride yRows yCols : Int) (space : List α) :
    Convolution_FilterMajorFilters_ChannelMajorOutput W X Y wCount wRows wCols wChls vStride
        yRows yCols space
      = convolutionWith MatrixOrder.ColMaj MatrixOrder.ColMaj W X Y wCount wRows wCols wChls
        vStride yRows yCols space := rfl

theorem Convolution_RowMajorFilters_ChannelMajorOutput_eq {α : Type} [CommRing α]
    (W X Y : List α) (wCount wRows wCols wChls vStride yRows yCols : Int) (space : List α) :
    Convolution_RowMajorFilters_ChannelMajorOutput W X Y wCount wRows wCols wChls vStride
        yRows yCols space
      = convolutionWith MatrixOrder.RowMaj MatrixOrder.ColMaj W X Y wCount wRows wCols wChls
        vStride yRows yCols space := rfl

/-- A convolution on buffers of the documented sizes succeeds; `Y` keeps its
length and holds `convEntry` at the position of every entry `(r, f)`; `space`
holds the unrolled matrix. -/
theorem convolutionWith_result {α : Type} [CommRing α] (g : Geometry) (wCount : Nat)
    (oB oC : MatrixOrder) (W X Y space : List α)
    (hW : g.uCols * wCount ≤ W.length) (hX : g.wChls * g.xRows * g.xCols ≤ X.length)
    (hY : g.uRows * wCount ≤ Y.length) (hS : g.uRows * g.uCols ≤ space.length) :
    ∃ Z U', convolutionWith oB oC W X Y wCount g.wRows g.wCols g.wChls g.vStride g.yRows
          g.yCols space = some (Z, U') ∧
      U'.length = space.length ∧
      (∀ p, U'[p]? = if p < g.uRows * g.uCols then X[g.sourceOf p]? else space[p]?) ∧
      Z.length = Y.length ∧
      (∀ r f, r < g.uRows → f < wCount →
        Z[oC.index g.uRows wCount r f]? = some (convEntry g wCount oB W X r f)) ∧
      ∀ p, g.uRows * wCount ≤ p → Z[p]? = Y[p]? := by
  obtain ⟨Z, U', hU', hZ, h1, h2, h3, h4, h5⟩ :=
    unroll_gemm_result g wCount oB oC W X Y space hW hX hY hS
  refine ⟨Z, U', ?_, h1, h2, h3, h4, h5⟩
  simp only [convolutionWith, hU', Option.some_bind, hZ]

/-- The entry of the product as the sum over the filter window. -/
theorem convEntry_eq_sum {α : Type} [CommRing α] (g : Geometry) (wCount : Nat)
    (oB : MatrixOrder) (W X : List α) (yRow yCol f : Nat) (hy : yRow < g.yRows)
    (hc : yCol < g.yCols) :
    convEntry g wCount oB W X (yRow * g.yCols + yCol) f =
      ∑ wRow in range g.wRows, ∑ wCol in range g.wCols, ∑ wChl in range g.wChls,
        W.getD (oB.index g.uCols wCount ((wRow * g.wCols + wCol) * g.wChls + wChl) f) 0 *
          X.getD ((wChl * g.xRows + yRow * g.vStride + wRow) * g.xCols + wCol + yCol) 0 := by
  simp only [convEntry]
  rw [show g.uCols = g.wRows * g.wCols * g.wChls from rfl, sum_range_mul, sum_range_mul]
  apply Finset.sum_congr rfl
  intro wRow hwRow
  apply Finset.sum_congr rfl
  intro wCol hwCol
  apply Finset.sum_congr rfl
  intro wChl hwChl
  have hr : g.InRange ⟨wRow, wCol, wChl, yRow⟩ :=
    ⟨Finset.mem_range.mp hwRow, Finset.mem_range.mp hwCol, Finset.mem_range.mp hwChl, hy⟩
  have h1 : ((wRow * g.wCols + wCol) * g.wChls + wChl) * g.uRows + (yRow * g.yCols + yCol)
      = g.target ⟨wRow, wCol, wChl, yRow⟩ + yCol := by
    simp only [Geometry.target, Geometry.uCol, Geometry.uRows]; ring
  have h2 : g.source ⟨wRow, wCol, wChl, yRow⟩ + yCol
      = (wChl * g.xRows + yRow * g.vStride + wRow) * g.xCols + wCol + yCol := by
    simp only [Geometry.source]; ring
  rw [h1, g.sourceOf_target_add _ hr yCol hc, h2, mul_comm]

/-- The transform called as the convolutions call it, with `uRows = yRows * yCols`
and `uCols = wRows * wCols * wChls`. -/
theorem ChlMajInputUnroll_called {α : Type} (X U : List α) (g : Geometry)
    (hX : g.wChls * g.xRows * g.xCols ≤ X.length) (hU : g.uRows * g.uCols ≤ U.length) :
    ∃ U', ChlMajInputUnroll X U g.wRows g.wCols g.wChls g.vStride g.yRows g.yCols
          ((g.yRows : Int) * g.yCols) ((g.wRows : Int) * g.wCols * g.wChls) = some U' ∧
      U'.length = U.length ∧
      ∀ p, U'[p]? = if p < g.uRows * g.uCols then X[g.sourceOf p]? else U[p]? := by
  rw [g.cast_uRows, g.cast_uCols]
  exact ChlMajInputUnroll_result X U g hX hU

/-- The entry of `U` for `(wRow, wCol, wChl, yRow, yCol)` is the entry of `X` at
channel `wChl`, row `yRow * vStride + wRow`, column `wCol + yCol`. -/
theorem unrolled_entry {α : Type} (X U U' : List α) (g : Geometry)
    (hX : g.wChls * g.xRows * g.xCols ≤ X.length)
    (hget : ∀ p, U'[p]? = if p < g.uRows * g.uCols then X[g.sourceOf p]? else U[p]?)
    (it : Iteration) (hr : g.InRange it) (yCol : Nat) (hc : yCol < g.yCols) :
    ∃ v, X[(it.wChl * g.xRows + it.yRow * g.vStride + it.wRow) * g.xCols + it.wCol + yCol]?
          = some v ∧
      U'[((it.wRow * g.wCols + it.wCol) * g.wChls + it.wChl) * (g.yRows * g.yCols)
          + it.yRow * g.yCols + yCol]? = some v := by
  have h1 : ((it.wRow * g.wCols + it.wCol) * g.wChls + it.wChl) * (g.yRows * g.yCols)
      + it.yRow * g.yCols + yCol = g.target it + yCol := by
    simp only [Geometry.target, Geometry.uCol]; ring
  have h2 : (it.wChl * g.xRows + it.yRow * g.vStride + it.wRow) * g.xCols + it.wCol + yCol
      = g.source it + yCol := by
    simp only [Geometry.source]; ring
  have hlt := g.target_add_lt it hr yCol hc
  have hs := g.sourceOf_lt _ hlt
  rw [g.sourceOf_target_add it hr yCol hc] at hs
  have hs' : g.source it + yCol < X.length := by omega
  refine ⟨X[g.source it + yCol], ?_, ?_⟩
  · rw [h2, List.getElem?_eq_getElem hs']
  · rw [h1, hget, if_pos hlt, g.sourceOf_target_add it hr yCol hc,
      List.getElem?_eq_getElem hs']

/-- The filter-major, row-major-output convolution on natural-number dimensions
and buffers of the documented sizes: it succeeds and the output entry for
`(yRow, yCol, f)` is the sum over the filter window. -/
theorem filterMajor_rowMajor_entries {α : Type} [CommRing α] (g : Geometry) (wCount : Nat)
    (W X Y space : List α)
    (hW : g.uCols * wCount ≤ W.length) (hX : g.wChls * g.xRows * g.xCols ≤ X.length)
    (hY : g.uRows * wCount ≤ Y.length) (hS : g.uRows * g.uCols ≤ space.length) :
    ∃ Y' U', Convolution_FilterMajorFilters_RowMajorOutput W X Y wCount g.wRows g.wCols
          g.wChls g.vStride g.yRows g.yCols space = some (Y', U') ∧
      ∀ f yRow yCol, f < wCount → yRow < g.yRows → yCol < g.yCols →
        Y'[(yRow * g.yCols + yCol) * wCount + f]? = some
          (∑ wRow in range g.wRows, ∑ wCol in range g.wCols, ∑ wChl in range g.wChls,
            W.getD (f * (g.wRows * g.wCols * g.wChls)
                + ((wRow * g.wCols + wCol) * g.wChls + wChl)) 0 *
              X.getD ((wChl * g.xRows + yRow * g.vStride + wRow) * g.xCols + wCol + yCol) 0) := by
  obtain ⟨Z, U', hZ, _, _, _, hget, _⟩ := convolutionWith_result g wCount MatrixOrder.ColMaj
    MatrixOrder.RowMaj W X Y space hW hX hY hS
  refine ⟨Z, U', ?_, ?_⟩
  · rw [Convolution_FilterMajorFilters_RowMajorOutput_eq]; exact hZ
  · intro f yRow yCol hf hy hc
    have hr : yRow * g.yCols + yCol < g.uRows := encode_lt _ _ _ _ hy hc
    have := hget (yRow * g.yCols + yCol) f hr hf
    rw [convEntry_eq_sum g wCount _ W X yRow yCol f hy hc] at this
    exact this

/-- Two filter buffers that hold the same filter bank, one filter-major and one
row-major, give the same entries of the product. -/
theorem convEntry_layout {α : Type} [CommRing α] (g : Geometry) (wCount : Nat)
    (Wfm Wrm X : List α)
    (hsame : ∀ k, k < g.uCols → ∀ f, f < wCount →
      Wrm[k * wCount + f]? = Wfm[f * g.uCols + k]?)
    (r f : Nat) (hf : f < wCount) :
    convEntry g wCount MatrixOrder.RowMaj Wrm X r f
      = convEntry g wCount MatrixOrder.ColMaj Wfm X r f := by
  simp only [convEntry]
  apply Finset.sum_congr rfl
  intro l hl
  simp only [MatrixOrder.index, List.getD_eq_getElem?_getD,
    hsame l (Finset.mem_range.mp hl) f hf]

/-- A list of known length is determined by its entries. -/
theorem list_eq_of_getElem? {α : Type} (Z L : List α) (hlen : Z.length = L.length)
    (h : ∀ i, i < L.length → Z[i]? = L[i]?) : Z = L := by
  apply List.ext_getElem?
  intro i
  by_cases hi : i < L.length
  · exact h i hi
  · rw [List.getElem?_eq_none (by omega), List.getElem?_eq_none (by omega)]

theorem MatrixOrder.index_rowOf_colOf (o : MatrixOrder) (rows cols p : Nat)
    (hp : p < rows * cols) :
    o.index rows cols (o.rowOf rows cols p) (o.colOf rows cols p) = p ∧
      o.rowOf rows cols p < rows ∧ o.colOf rows cols p < cols := by
  have hpos : 0 < rows * cols := Nat.lt_of_le_of_lt (Nat.zero_le _) hp
  have hr : 0 < rows := Nat.pos_of_mul_pos_right hpos
  have hc : 0 < cols := Nat.pos_of_mul_pos_left hpos
  cases o
  · refine ⟨Nat.div_add_mod' p cols, ?_, Nat.mod_lt _ hc⟩
    exact (Nat.div_lt_iff_lt_mul hc).mpr hp
  · refine ⟨Nat.div_add_mod' p rows, Nat.mod_lt _ hr, ?_⟩
    exact (Nat.div_lt_iff_lt_mul hr).mpr (by rw [Nat.mul_comm]; exact hp)

/-- The output of a convolution, position by position. -/
theorem convolutionWith_output {α : Type} [CommRing α] (g : Geometry) (wCount : Nat)
    (oB oC : MatrixOrder) (W X Y space : List α)
    (hW : g.uCols * wCount ≤ W.length) (hX : g.wChls * g.xRows * g.xCols ≤ X.length)
    (hY : g.uRows * wCount ≤ Y.length) (hS : g.uRows * g.uCols ≤ space.length) :
    ∃ Z U', convolutionWith oB oC W X Y wCount g.wRows g.wCols g.wChls g.vStride g.yRows
          g.yCols space = some (Z, U') ∧ Z.length = Y.length ∧
      ∀ p, p < g.uRows * wCount → Z[p]? = some (convEntry g wCount oB W X
        (oC.rowOf g.uRows wCount p) (oC.colOf g.uRows wCount p)) := by
  obtain ⟨Z, U', hZ, _, _, hlen, hget, _⟩ :=
    convolutionWith_result g wCount oB oC W X Y space hW hX hY hS
  refine ⟨Z, U', hZ, hlen, fun p hp => ?_⟩
  obtain ⟨h1, h2, h3⟩ := oC.index_rowOf_colOf g.uRows wCount p hp
  have := hget _ _ h2 h3
  rw [h1] at this
  exact this

/-- Two runs of a convolution that differ only in the initial contents of the
output and scratch buffers agree on the output. -/
theorem convolutionWith_agree {α : Type} [CommRing α] (g : Geometry) (wCount : Nat)
    (oB oC : MatrixOrder) (W X Y1 Y2 S1 S2 : List α)
    (hW : g.uCols * wCount ≤ W.length) (hX : g.wChls * g.xRows * g.xCols ≤ X.length)
    (hY1 : g.uRows * wCount ≤ Y1.length) (hY2 : g.uRows * wCount ≤ Y2.length)
    (hS1 : g.uRows * g.uCols ≤ S1.length) (hS2 : g.uRows * g.uCols ≤ S2.length) :
    AgreeBelow (g.uRows * wCount)
      (convolutionWith oB oC W X Y1 wCount g.wRows g.wCols g.wChls g.vStride g.yRows
        g.yCols S1)
      (convolutionWith oB oC W X Y2 wCount g.wRows g.wCols g.wChls g.vStride g.yRows
        g.yCols S2) := by
  obtain ⟨Z1, U1, e1, _, g1⟩ := convolutionWith_output g wCount oB oC W X Y1 S1 hW hX hY1 hS1
  obtain ⟨Z2, U2, e2, _, g2⟩ := convolutionWith_output g wCount oB oC W X Y2 S2 hW hX hY2 hS2
  exact ⟨Z1, U1, Z2, U2, e1, e2, fun p hp => ⟨_, g1 p hp, g2 p hp⟩⟩

/-- In the concrete scenario the output of a convolution is the list `L` as soon
as `L` holds the entries of the product. -/
theorem scenario_output (oB oC : MatrixOrder) (W L Y space : List Int)
    (hW : W.length = 8) (hY : Y.length = 8) (hS : 16 ≤ space.length) (hL : L.length = 8)
    (hentries : ∀ p, p < 8 → L[p]? = some (convEntry scenarioGeometry 2 oB W scenarioX
      (oC.rowOf 4 2 p) (oC.colOf 4 2 p))) :
    (convolutionWith oB oC W scenarioX Y 2 2 2 1 1 2 2 space).map Prod.fst = some L := by
  obtain ⟨Z, U', hZ, hlen, hget⟩ := convolutionWith_output scenarioGeometry 2 oB oC W
    scenarioX Y space (by rw [hW]; decide) (by decide) (by rw [hY]; decide) hS
  have hZ' : convolutionWith oB oC W scenarioX Y 2 2 2 1 1 2 2 space = some (Z, U') := hZ
  rw [hZ', Option.map_some']
  congr 1
  apply list_eq_of_getElem? Z L (by rw [hlen, hY, hL])
  intro p hp
  rw [hL] at hp
  rw [hentries p hp]
  exact hget p hp

/-- The four assertions hold in every iteration of a call made as the
convolutions make it. -/
theorem copyAsserts_called (g : Geometry) (it : Iteration) (hr : g.InRange it) :
    copyAsserts g.wRows g.wCols g.wChls g.vStride g.yRows g.yCols
      ((g.yRows : Int) * g.yCols) ((g.wRows : Int) * g.wCols * g.wChls)
      (copySource g.wRows g.wCols g.vStride g.yRows g.yCols it.wRow it.wCol it.wChl it.yRow)
      (copyTarget g.wCols g.wChls g.yRows g.yCols it.wRow it.wCol it.wChl it.yRow) := by
  rw [g.cast_uRows, g.cast_uCols, copyTarget_natCast g it]
  exact g.copyAsserts_of_inRange it hr
/-- The scratch buffer after a convolution is the result of the transform. -/
theorem convolutionWith_frame {α : Type} [CommRing α] (g : Geometry) (wCount : Nat)
    (oB oC : MatrixOrder) (W X Y space : List α)
    (hW : g.uCols * wCount ≤ W.length) (hX : g.wChls * g.xRows * g.xCols ≤ X.length)
    (hY : g.uRows * wCount ≤ Y.length) (hS : g.uRows * g.uCols ≤ space.length) :
    FrameFrom (g.uRows * g.uCols) space
      (convolutionWith oB oC W X Y wCount g.wRows g.wCols g.wChls g.vStride g.yRows
        g.yCols space) := by
  obtain ⟨Z, U', hZ, hlen, hget, _⟩ :=
    convolutionWith_result g wCount oB oC W X Y space hW hX hY hS
  refine ⟨Z, U', hZ, hlen, fun i hi => ?_⟩
  have : ¬ i < g.uRows * g.uCols := by omega
  rw [hget i, if_neg this]

/-! ## Order of the iterations -/

theorem mem_reversedLoopIterations (wRows wCols wChls yRows : Int) (it : Iteration) :
    it ∈ reversedLoopIterations wRows wCols wChls yRows ↔
      (it.wRow : Int) < wRows ∧ (it.wCol : Int) < wCols ∧ (it.wChl : Int) < wChls ∧
        (it.yRow : Int) < yRows := by
  cases it
  simp only [reversedLoopIterations, List.mem_flatMap, List.mem_map, List.mem_range,
    Iteration.mk.injEq, Int.lt_toNat]
  constructor
  · rintro ⟨a, ha, b, hb, c, hc, d, hd, rfl, rfl, rfl, rfl⟩
    exact ⟨hd, hc, hb, ha⟩
  · rintro ⟨ha, hb, hc, hd⟩
    exact ⟨_, hd, _, hc, _, hb, _, ha, rfl, rfl, rfl, rfl⟩

/-- The transform with reversed nesting is the loop body run over
`reversedLoopIterations`. -/
theorem ChlMajInputUnroll_reversed_eq_runIterations {α : Type} (X U : List α)
    (wRows wCols wChls vStride yRows yCols uRows uCols : Int) :
    ChlMajInputUnroll_reversed X U wRows wCols wChls vStride yRows yCols uRows uCols
      = runIterations X wRows wCols wChls vStride yRows yCols uRows uCols
          (reversedLoopIterations wRows wCols wChls yRows) U := by
  simp only [ChlMajInputUnroll_reversed, forLoop, runIterations, reversedLoopIterations,
    foldlM_flatMap, List.foldlM_map]

/-- With natural-number loop bounds and copy size, the result of running a list of
iterations, failure included, depends only on which iterations the list
contains. -/
theorem runIterations_congr_natDims {α : Type} (X U : List α) (g : Geometry)
    (vStride uRows uCols : Int) (l1 l2 : List Iteration) (hr : ∀ it ∈ l1, g.InRange it)
    (hmem : ∀ it, it ∈ l1 ↔ it ∈ l2) :
    runIterations X g.wRows g.wCols g.wChls vStride g.yRows g.yCols uRows uCols l1 U
      = runIterations X g.wRows g.wCols g.wChls vStride g.yRows g.yCols uRows uCols l2 U := by
  have hr2 : ∀ it ∈ l2, g.InRange it := fun it hit => hr it ((hmem it).mpr hit)
  by_cases hall : ∀ it ∈ l1, g.StepOK vStride uRows uCols X.length U.length it
  · obtain ⟨U1, e1, len1, get1⟩ := runIterations_some X g vStride uRows uCols l1 U
      (fun it hit => ⟨hr it hit, hall it hit⟩)
    obtain ⟨U2, e2, len2, get2⟩ := runIterations_some X g vStride uRows uCols l2 U
      (fun it hit => ⟨hr2 it hit, hall it ((hmem it).mpr hit)⟩)
    rw [e1, e2]
    congr 1
    apply List.ext_getElem?
    intro p
    rw [get1 p, get2 p]
    simp only [hmem]
  · have hbad : ∃ it ∈ l1, ¬ g.StepOK vStride uRows uCols X.length U.length it := by
      by_contra hno
      apply hall
      intro it hit
      by_contra hnot
      exact hno ⟨it, hit, hnot⟩
    obtain ⟨it, hit, hnot⟩ := hbad
    rw [runIterations_none X g vStride uRows uCols l1 U ⟨it, hit, hnot⟩,
      runIterations_none X g vStride uRows uCols l2 U ⟨it, (hmem it).mp hit, hnot⟩]

/-- A negative copy size makes the loop body fail. -/
theorem unrollBody_negative {α : Type} (X U : List α)
    (wRows wCols wChls vStride yRows yCols uRows uCols wRow wCol wChl yRow : Int)
    (hy : yCols < 0) :
    unrollBody X wRows wCols wChls vStride yRows yCols uRows uCols wRow wCol wChl yRow U
      = none := by
  simp only [unrollBody, stdCopy]
  split
  · have : copySource wRows wCols vStride yRows yCols wRow wCol wChl yRow < 0 ∨
        copyTarget wCols wChls yRows yCols wRow wCol wChl yRow < 0 ∨
        copySource wRows wCols vStride yRows yCols wRow wCol wChl yRow + yCols
          < copySource wRows wCols vStride yRows yCols wRow wCol wChl yRow := by omega
    rw [if_pos this]
  · rfl

theorem runIterations_negative {α : Type} (X U : List α)
    (wRows wCols wChls vStride yRows yCols uRows uCols : Int) (hy : yCols < 0)
    (l : List Iteration) (hl : l ≠ []) :
    runIterations X wRows wCols wChls vStride yRows yCols uRows uCols l U = none := by
  cases l with
  | nil => exact absurd rfl hl
  | cons it l =>
    rw [runIterations_cons, unrollBody_negative X U _ _ _ _ _ _ _ _ _ _ _ _ hy]
    rfl

/-- The result of running a list of iterations that are below the loop bounds,
failure included, depends only on which iterations the list contains, for all
integer dimensions. -/
theorem runIterations_congr {α : Type} (X U : List α)
    (wRows wCols wChls vStride yRows yCols uRows uCols : Int) (l1 l2 : List Iteration)
    (hr : ∀ it ∈ l1, (it.wRow : Int) < wRows ∧ (it.wCol : Int) < wCols ∧
      (it.wChl : Int) < wChls ∧ (it.yRow : Int) < yRows)
    (hmem : ∀ it, it ∈ l1 ↔ it ∈ l2) :
    runIterations X wRows wCols wChls vStride yRows yCols uRows uCols l1 U
      = runIterations X wRows wCols wChls vStride yRows yCols uRows uCols l2 U := by
  cases h1 : l1 with
  | nil =>
    have h2 : l2 = [] := by
      apply List.eq_nil_iff_forall_not_mem.mpr
      intro it hit
      have := (hmem it).mpr hit
      rw [h1] at this
      exact absurd this (List.not_mem_nil _)
    rw [h2]
  | cons it0 l =>
    have hne1 : l1 ≠ [] := by rw [h1]; exact List.cons_ne_nil _ _
    have hit0 : it0 ∈ l1 := by rw [h1]; exact List.mem_cons_self _ _
    have hne2 : l2 ≠ [] := List.ne_nil_of_mem ((hmem it0).mp hit0)
    rw [← h1]
    by_cases hy : yCols < 0
    · rw [runIterations_negative X U _ _ _ _ _ _ _ _ hy l1 hne1,
        runIterations_negative X U _ _ _ _ _ _ _ _ hy l2 hne2]
    · obtain ⟨q1, q2, q3, q4⟩ := hr it0 hit0
      obtain ⟨a, rfl⟩ := Int.eq_ofNat_of_zero_le (a := wRows) (by omega)
      obtain ⟨b, rfl⟩ := Int.eq_ofNat_of_zero_le (a := wCols) (by omega)
      obtain ⟨c, rfl⟩ := Int.eq_ofNat_of_zero_le (a := wChls) (by omega)
      obtain ⟨d, rfl⟩ := Int.eq_ofNat_of_zero_le (a := yRows) (by omega)
      obtain ⟨e, rfl⟩ := Int.eq_ofNat_of_zero_le (a := yCols) (by omega)
      exact runIterations_congr_natDims X U (Geometry.mk a b c 0 d e) vStride uRows uCols
        l1 l2 (fun it hit => by
          obtain ⟨r1, r2, r3, r4⟩ := hr it hit
          exact ⟨by exact_mod_cast r1, by exact_mod_cast r2, by exact_mod_cast r3,
            by exact_mod_cast r4⟩) hmem
/-! ## Properties of the specification -/

/-- C1: for natural-number dimensions, an input `X` of length
`wChls * xRows * xCols` and a buffer `U` of length at least `uRows * uCols`,
`ChlMajInputUnroll` succeeds and afterwards
`U[((wRow*wCols + wCol)*wChls + wChl)*uRows + yRow*yCols + yCol]` equals
`X[(wChl*xRows + yRow*vStride + wRow)*xCols + wCol + yCol]` for all indices below
their bounds; this position of `U` is entry (row `yRow*yCols + yCol`, column
`(wRow*wCols + wCol)*wChls + wChl`) of a column-major `uRows × uCols` matrix. -/
theorem C1_unroll_entries {α : Type} (wRows wCols wChls vStride yRows yCols : Nat)
    (X U : List α)
    (hX : X.length = wChls * ((yRows - 1) * vStride + wRows) * (yCols + wCols - 1))
    (hU : yRows * yCols * (wRows * wCols * wChls) ≤ U.length) :
    ∃ U', ChlMajInputUnroll X U wRows wCols wChls vStride yRows yCols
          ((yRows : Int) * yCols) ((wRows : Int) * wCols * wChls) = some U' ∧
      ∀ wRow wCol wChl yRow yCol, wRow < wRows → wCol < wCols → wChl < wChls →
        yRow < yRows → yCol < yCols →
        ∃ v, X[(wChl * ((yRows - 1) * vStride + wRows) + yRow * vStride + wRow)
              * (yCols + wCols - 1) + wCol + yCol]? = some v ∧
          U'[((wRow * wCols + wCol) * wChls + wChl) * (yRows * yCols)
              + yRow * yCols + yCol]? = some v ∧
          U'[MatrixOrder.ColMaj.index (yRows * yCols) (wRows * wCols * wChls)
              (yRow * yCols + yCol) ((wRow * wCols + wCol) * wChls + wChl)]? = some v := by
  have hX' : (Geometry.mk wRows wCols wChls vStride yRows yCols).wChls
      * (Geometry.mk wRows wCols wChls vStride yRows yCols).xRows
      * (Geometry.mk wRows wCols wChls vStride yRows yCols).xCols ≤ X.length :=
    Nat.le_of_eq hX.symm
  obtain ⟨U', hU', _, hget⟩ :=
    ChlMajInputUnroll_called X U (Geometry.mk wRows wCols wChls vStride yRows yCols) hX' hU
  refine ⟨U', hU', ?_⟩
  intro wRow wCol wChl yRow yCol h1 h2 h3 h4 h5
  obtain ⟨v, hv1, hv2⟩ := unrolled_entry X U U' _ hX' hget ⟨wRow, wCol, wChl, yRow⟩
    ⟨h1, h2, h3, h4⟩ yCol h5
  refine ⟨v, hv1, hv2, ?_⟩
  have : MatrixOrder.ColMaj.index (yRows * yCols) (wRows * wCols * wChls)
      (yRow * yCols + yCol) ((wRow * wCols + wCol) * wChls + wChl)
      = ((wRow * wCols + wCol) * wChls + wChl) * (yRows * yCols) + yRow * yCols + yCol := by
    simp only [MatrixOrder.index]; ring
  rw [this]
  exact hv2

/-- C1, on the 3×3 input `0..8` with a 2×2 filter window and a 2×2 output. -/
theorem C1_unroll_entries_witness :
    ([0, 1, 2, 3, 4, 5, 6, 7, 8] : List Int).length = 1 * ((2 - 1) * 1 + 2) * (2 + 2 - 1) ∧
    2 * 2 * (2 * 2 * 1) ≤ (List.replicate 16 (-1 : Int)).length ∧
    ∃ U', ChlMajInputUnroll [0, 1, 2, 3, 4, 5, 6, 7, 8] (List.replicate 16 (-1 : Int))
          (2 : Nat) (2 : Nat) (1 : Nat) (1 : Nat) (2 : Nat) (2 : Nat)
          (((2 : Nat) : Int) * (2 : Nat)) (((2 : Nat) : Int) * (2 : Nat) * (1 : Nat)) = some U' ∧
      ∀ wRow wCol wChl yRow yCol, wRow < 2 → wCol < 2 → wChl < 1 → yRow < 2 → yCol < 2 →
        ∃ v, ([0, 1, 2, 3, 4, 5, 6, 7, 8] : List Int)[(wChl * ((2 - 1) * 1 + 2) + yRow * 1 + wRow)
              * (2 + 2 - 1) + wCol + yCol]? = some v ∧
          U'[((wRow * 2 + wCol) * 1 + wChl) * (2 * 2) + yRow * 2 + yCol]? = some v ∧
          U'[MatrixOrder.ColMaj.index (2 * 2) (2 * 2 * 1)
              (yRow * 2 + yCol) ((wRow * 2 + wCol) * 1 + wChl)]? = some v :=
  ⟨by decide, by decide,
    C1_unroll_entries 2 2 1 1 2 2 [0, 1, 2, 3, 4, 5, 6, 7, 8] (List.replicate 16 (-1))
      (by decide) (by decide)⟩

/-- C2: with `Gemm` the exact product over a commutative ring, the filter-major,
row-major-output `Convolution` computes the direct strided convolution: on
natural-number dimensions and buffers of the documented sizes it succeeds and
`Y[(yRow*yCols + yCol)*wCount + f]` is the sum over `wRow < wRows`, `wCol < wCols`,
`wChl < wChls` of `W[f*(wRows*wCols*wChls) + (wRow*wCols + wCol)*wChls + wChl] *
X[(wChl*xRows + yRow*vStride + wRow)*xCols + wCol + yCol]`. -/
theorem C2_direct_convolution {α : Type} [CommRing α]
    (wCount wRows wCols wChls vStride yRows yCols : Nat) (W X Y space : List α)
    (hW : W.length = wCount * wRows * wCols * wChls)
    (hX : X.length = wChls * ((yRows - 1) * vStride + wRows) * (yCols + wCols - 1))
    (hY : Y.length = yRows * yCols * wCount)
    (hS : wRows * wCols * wChls * yRows * yCols ≤ space.length) :
    ∃ Y' U', Convolution_FilterMajorFilters_RowMajorOutput W X Y wCount wRows wCols wChls
          vStride yRows yCols space = some (Y', U') ∧
      ∀ f yRow yCol, f < wCount → yRow < yRows → yCol < yCols →
        Y'[(yRow * yCols + yCol) * wCount + f]? = some
          (∑ wRow in range wRows, ∑ wCol in range wCols, ∑ wChl in range wChls,
            W.getD (f * (wRows * wCols * wChls) + (wRow * wCols + wCol) * wChls + wChl) 0 *
              X.getD ((wChl * ((yRows - 1) * vStride + wRows) + yRow * vStride + wRow)
                * (yCols + wCols - 1) + wCol + yCol) 0) := by
  have hW' : (Geometry.mk wRows wCols wChls vStride yRows yCols).uCols * wCount ≤ W.length := by
    rw [hW]; simp only [Geometry.uCols]; exact Nat.le_of_eq (by ring)
  have hS' : (Geometry.mk wRows wCols wChls vStride yRows yCols).uRows
      * (Geometry.mk wRows wCols wChls vStride yRows yCols).uCols ≤ space.length := by
    refine Nat.le_trans (Nat.le_of_eq ?_) hS
    simp only [Geometry.uRows, Geometry.uCols]; ring
  obtain ⟨Y', U', h, hget⟩ := filterMajor_rowMajor_entries
    (Geometry.mk wRows wCols wChls vStride yRows yCols) wCount W X Y space hW'
    (Nat.le_of_eq hX.symm) (Nat.le_of_eq hY.symm) hS'
  refine ⟨Y', U', h, ?_⟩
  intro f yRow yCol hf hy hc
  rw [hget f yRow yCol hf hy hc]
  simp only [Geometry.xRows, Geometry.xCols, Nat.add_assoc]

/-- C2, on the 3×3 input `0..8` with two 2×2 filters and a 2×2 output. -/
theorem C2_direct_convolution_witness :
    ([1, 1, 1, 1, 1, 0, 0, 0] : List Int).length = 2 * 2 * 2 * 1 ∧
    ([0, 1, 2, 3, 4, 5, 6, 7, 8] : List Int).length
      = 1 * ((2 - 1) * 1 + 2) * (2 + 2 - 1) ∧
    (List.replicate 8 (-1 : Int)).length = 2 * 2 * 2 ∧
    2 * 2 * 1 * 2 * 2 ≤ (List.replicate 16 (-1 : Int)).length ∧
    ∃ Y' U', Convolution_FilterMajorFilters_RowMajorOutput [1, 1, 1, 1, 1, 0, 0, 0]
          [0, 1, 2, 3, 4, 5, 6, 7, 8] (List.replicate 8 (-1 : Int))
          (2 : Nat) (2 : Nat) (2 : Nat) (1 : Nat) (1 : Nat) (2 : Nat) (2 : Nat)
          (List.replicate 16 (-1 : Int)) = some (Y', U') ∧
      ∀ f yRow yCol, f < 2 → yRow < 2 → yCol < 2 →
        Y'[(yRow * 2 + yCol) * 2 + f]? = some
          (∑ wRow in range 2, ∑ wCol in range 2, ∑ wChl in range 1,
            ([1, 1, 1, 1, 1, 0, 0, 0] : List Int).getD
                (f * (2 * 2 * 1) + (wRow * 2 + wCol) * 1 + wChl) 0 *
              ([0, 1, 2, 3, 4, 5, 6, 7, 8] : List Int).getD
                ((wChl * ((2 - 1) * 1 + 2) + yRow * 1 + wRow) * (2 + 2 - 1) + wCol + yCol) 0) :=
  ⟨by decide, by decide, by decide, by decide,
    C2_direct_convolution 2 2 2 1 1 2 2 [1, 1, 1, 1, 1, 0, 0, 0] [0, 1, 2, 3, 4, 5, 6, 7, 8]
      (List.replicate 8 (-1)) (List.replicate 16 (-1))
      (by decide) (by decide) (by decide) (by decide)⟩

/-- C3: layout independence.  When `Wfm` (filter-major) and `Wrm` (row-major) hold
the same filter bank, `Wrm[k*wCount + f] = Wfm[f*uCols + k]`, the four
`Convolution` variants run on the same `X` and dimensions (each on its own output
and scratch buffers, of the documented sizes) succeed and agree:
`Y1[r*wCount + f] = Y2[r*wCount + f] = Y3[f*uRows + r] = Y4[f*uRows + r]` for every
`r < uRows` and `f < wCount`. -/
theorem C3_layout_independence {α : Type} [CommRing α]
    (wCount wRows wCols wChls vStride yRows yCols : Nat)
    (Wfm Wrm X Y1 Y2 Y3 Y4 S1 S2 S3 S4 : List α)
    (hWfm : Wfm.length = wCount * wRows * wCols * wChls)
    (hWrm : Wrm.length = wCount * wRows * wCols * wChls)
    (hsame : ∀ k, k < wRows * wCols * wChls → ∀ f, f < wCount →
      Wrm[k * wCount + f]? = Wfm[f * (wRows * wCols * wChls) + k]?)
    (hX : X.length = wChls * ((yRows - 1) * vStride + wRows) * (yCols + wCols - 1))
    (hY1 : Y1.length = yRows * yCols * wCount) (hY2 : Y2.length = yRows * yCols * wCount)
    (hY3 : Y3.length = yRows * yCols * wCount) (hY4 : Y4.length = yRows * yCols * wCount)
    (hS1 : wRows * wCols * wChls * yRows * yCols ≤ S1.length)
    (hS2 : wRows * wCols * wChls * yRows * yCols ≤ S2.length)
    (hS3 : wRows * wCols * wChls * yRows * yCols ≤ S3.length)
    (hS4 : wRows * wCols * wChls * yRows * yCols ≤ S4.length) :
    ∃ Y1' U1 Y2' U2 Y3' U3 Y4' U4,
      Convolution_FilterMajorFilters_RowMajorOutput Wfm X Y1 wCount wRows wCols wChls
          vStride yRows yCols S1 = some (Y1', U1) ∧
      Convolution_RowMajorFilters_RowMajorOutput Wrm X Y2 wCount wRows wCols wChls
          vStride yRows yCols S2 = some (Y2', U2) ∧
      Convolution_FilterMajorFilters_ChannelMajorOutput Wfm X Y3 wCount wRows wCols wChls
          vStride yRows yCols S3 = some (Y3', U3) ∧
      Convolution_RowMajorFilters_ChannelMajorOutput Wrm X Y4 wCount wRows wCols wChls
          vStride yRows yCols S4 = some (Y4', U4) ∧
      ∀ r f, r < yRows * yCols → f < wCount →
        ∃ v, Y1'[r * wCount + f]? = some v ∧ Y2'[r * wCount + f]? = some v ∧
          Y3'[f * (yRows * yCols) + r]? = some v ∧ Y4'[f * (yRows * yCols) + r]? = some v := by
  have hu : (Geometry.mk wRows wCols wChls vStride yRows yCols).uCols * wCount
      = wCount * wRows * wCols * wChls := by
    simp only [Geometry.uCols]; ring
  have hs : (Geometry.mk wRows wCols wChls vStride yRows yCols).uRows
      * (Geometry.mk wRows wCols wChls vStride yRows yCols).uCols
      = wRows * wCols * wChls * yRows * yCols := by
    simp only [Geometry.uRows, Geometry.uCols]; ring
  have hX' := Nat.le_of_eq hX.symm
  obtain ⟨Z1, U1, e1, _, _, _, g1, _⟩ := convolutionWith_result
    (Geometry.mk wRows wCols wChls vStride yRows yCols) wCount MatrixOrder.ColMaj
    MatrixOrder.RowMaj Wfm X Y1 S1 (by omega) hX' (Nat.le_of_eq hY1.symm) (by omega)
  obtain ⟨Z2, U2, e2, _, _, _, g2, _⟩ := convolutionWith_result
    (Geometry.mk wRows wCols wChls vStride yRows yCols) wCount MatrixOrder.RowMaj
    MatrixOrder.RowMaj Wrm X Y2 S2 (by omega) hX' (Nat.le_of_eq hY2.symm) (by omega)
  obtain ⟨Z3, U3, e3, _, _, _, g3, _⟩ := convolutionWith_result
    (Geometry.mk wRows wCols wChls vStride yRows yCols) wCount MatrixOrder.ColMaj
    MatrixOrder.ColMaj Wfm X Y3 S3 (by omega) hX' (Nat.le_of_eq hY3.symm) (by omega)
  obtain ⟨Z4, U4, e4, _, _, _, g4, _⟩ := convolutionWith_result
    (Geometry.mk wRows wCols wChls vStride yRows yCols) wCount MatrixOrder.RowMaj
    MatrixOrder.ColMaj Wrm X Y4 S4 (by omega) hX' (Nat.le_of_eq hY4.symm) (by omega)
  refine ⟨Z1, U1, Z2, U2, Z3, U3, Z4, U4, e1, e2, e3, e4, ?_⟩
  intro r f hr hf
  have hl := convEntry_layout (Geometry.mk wRows wCols wChls vStride yRows yCols) wCount
    Wfm Wrm X hsame r f hf
  refine ⟨_, g1 r f hr hf, ?_, g3 r f hr hf, ?_⟩
  · rw [← hl]; exact g2 r f hr hf
  · rw [← hl]; exact g4 r f hr hf

/-- C3, on the 3×3 input `0..8` with two 2×2 filters and a 2×2 output. -/
theorem C3_layout_independence_witness :
    ([1, 1, 1, 1, 1, 0, 0, 0] : List Int).length = 2 * 2 * 2 * 1 ∧
    ([1, 1, 1, 0, 1, 0, 1, 0] : List Int).length = 2 * 2 * 2 * 1 ∧
    (∀ k, k < 2 * 2 * 1 → ∀ f, f < 2 →
      ([1, 1, 1, 0, 1, 0, 1, 0] : List Int)[k * 2 + f]?
        = ([1, 1, 1, 1, 1, 0, 0, 0] : List Int)[f * (2 * 2 * 1) + k]?) ∧
    ∃ Y1' U1 Y2' U2 Y3' U3 Y4' U4,
      Convolution_FilterMajorFilters_RowMajorOutput [1, 1, 1, 1, 1, 0, 0, 0]
          [0, 1, 2, 3, 4, 5, 6, 7, 8] (List.replicate 8 (-1 : Int))
          (2 : Nat) (2 : Nat) (2 : Nat) (1 : Nat) (1 : Nat) (2 : Nat) (2 : Nat)
          (List.replicate 16 (-1 : Int)) = some (Y1', U1) ∧
      Convolution_RowMajorFilters_RowMajorOutput [1, 1, 1, 0, 1, 0, 1, 0]
          [0, 1, 2, 3, 4, 5, 6, 7, 8] (List.replicate 8 (-2 : Int))
          (2 : Nat) (2 : Nat) (2 : Nat) (1 : Nat) (1 : Nat) (2 : Nat) (2 : Nat)
          (List.replicate 17 (-2 : Int)) = some (Y2', U2) ∧
      Convolution_FilterMajorFilters_ChannelMajorOutput [1, 1, 1, 1, 1, 0, 0, 0]
          [0, 1, 2, 3, 4, 5, 6, 7, 8] (List.replicate 8 (-3 : Int))
          (2 : Nat) (2 : Nat) (2 : Nat) (1 : Nat) (1 : Nat) (2 : Nat) (2 : Nat)
          (List.replicate 18 (-3 : Int)) = some (Y3', U3) ∧
      Convolution_RowMajorFilters_ChannelMajorOutput [1, 1, 1, 0, 1, 0, 1, 0]
          [0, 1, 2, 3, 4, 5, 6, 7, 8] (List.replicate 8 (-4 : Int))
          (2 : Nat) (2 : Nat) (2 : Nat) (1 : Nat) (1 : Nat) (2 : Nat) (2 : Nat)
          (List.replicate 19 (-4 : Int)) = some (Y4', U4) ∧
      ∀ r f, r < 2 * 2 → f < 2 →
        ∃ v, Y1'[r * 2 + f]? = some v ∧ Y2'[r * 2 + f]? = some v ∧
          Y3'[f * (2 * 2) + r]? = some v ∧ Y4'[f * (2 * 2) + r]? = some v :=
  ⟨by decide, by decide, by decide,
    C3_layout_independence 2 2 2 1 1 2 2 [1, 1, 1, 1, 1, 0, 0, 0] [1, 1, 1, 0, 1, 0, 1, 0]
      [0, 1, 2, 3, 4, 5, 6, 7, 8]
      (List.replicate 8 (-1)) (List.replicate 8 (-2)) (List.replicate 8 (-3))
      (List.replicate 8 (-4)) (List.replicate 16 (-1)) (List.replicate 17 (-2))
      (List.replicate 18 (-3)) (List.replicate 19 (-4))
      (by decide) (by decide) (by decide) (by decide) (by decide) (by decide) (by decide)
      (by decide) (by decide) (by decide) (by decide) (by decide)⟩

/-- C4: the concrete scenario.  With one channel, two 2×2 filters (all ones; one
at top-left), vertical stride 1, a 2×2 output and the 3×3 input `0..8`, each of
the four `Convolution` variants, given `W` in its own filter layout, an output
buffer of 8 elements and a scratch buffer of at least 16, yields 8, 12, 20, 24 for
filter 0 and 0, 1, 3, 4 for filter 1: `Y = [8,0,12,1,20,3,24,4]` for the
row-major-output variants and `Y = [8,12,20,24,0,1,3,4]` for the
channel-major-output variants. -/
theorem C4_concrete_scenario (Y space : List Int) (hY : Y.length = 8)
    (hS : 16 ≤ space.length) :
    (Convolution_FilterMajorFilters_RowMajorOutput [1, 1, 1, 1, 1, 0, 0, 0]
        [0, 1, 2, 3, 4, 5, 6, 7, 8] Y 2 2 2 1 1 2 2 space).map Prod.fst
      = some [8, 0, 12, 1, 20, 3, 24, 4] ∧
    (Convolution_RowMajorFilters_RowMajorOutput [1, 1, 1, 0, 1, 0, 1, 0]
        [0, 1, 2, 3, 4, 5, 6, 7, 8] Y 2 2 2 1 1 2 2 space).map Prod.fst
      = some [8, 0, 12, 1, 20, 3, 24, 4] ∧
    (Convolution_FilterMajorFilters_ChannelMajorOutput [1, 1, 1, 1, 1, 0, 0, 0]
        [0, 1, 2, 3, 4, 5, 6, 7, 8] Y 2 2 2 1 1 2 2 space).map Prod.fst
      = some [8, 12, 20, 24, 0, 1, 3, 4] ∧
    (Convolution_RowMajorFilters_ChannelMajorOutput [1, 1, 1, 0, 1, 0, 1, 0]
        [0, 1, 2, 3, 4, 5, 6, 7, 8] Y 2 2 2 1 1 2 2 space).map Prod.fst
      = some [8, 12, 20, 24, 0, 1, 3, 4] := by
  refine ⟨?_, ?_, ?_, ?_⟩
  · rw [Convolution_FilterMajorFilters_RowMajorOutput_eq]
    exact scenario_output MatrixOrder.ColMaj MatrixOrder.RowMaj _ _ Y space rfl hY hS rfl
      (by decide)
  · rw [Convolution_RowMajorFilters_RowMajorOutput_eq]
    exact scenario_output MatrixOrder.RowMaj MatrixOrder.RowMaj _ _ Y space rfl hY hS rfl
      (by decide)
  · rw [Convolution_FilterMajorFilters_ChannelMajorOutput_eq]
    exact scenario_output MatrixOrder.ColMaj MatrixOrder.ColMaj _ _ Y space rfl hY hS rfl
      (by decide)
  · rw [Convolution_RowMajorFilters_ChannelMajorOutput_eq]
    exact scenario_output MatrixOrder.RowMaj MatrixOrder.ColMaj _ _ Y space rfl hY hS rfl
      (by decide)

/-- C4, with an output buffer and a scratch buffer filled with a canary. -/
theorem C4_concrete_scenario_witness :
    (List.replicate 8 (-1 : Int)).length = 8 ∧ 16 ≤ (List.replicate 16 (-1 : Int)).length ∧
    (Convolution_FilterMajorFilters_RowMajorOutput [1, 1, 1, 1, 1, 0, 0, 0]
        [0, 1, 2, 3, 4, 5, 6, 7, 8] (List.replicate 8 (-1 : Int)) 2 2 2 1 1 2 2
        (List.replicate 16 (-1 : Int))).map Prod.fst
      = some [8, 0, 12, 1, 20, 3, 24, 4] ∧
    (Convolution_RowMajorFilters_RowMajorOutput [1, 1, 1, 0, 1, 0, 1, 0]
        [0, 1, 2, 3, 4, 5, 6, 7, 8] (List.replicate 8 (-1 : Int)) 2 2 2 1 1 2 2
        (List.replicate 16 (-1 : Int))).map Prod.fst
      = some [8, 0, 12, 1, 20, 3, 24, 4] ∧
    (Convolution_FilterMajorFilters_ChannelMajorOutput [1, 1, 1, 1, 1, 0, 0, 0]
        [0, 1, 2, 3, 4, 5, 6, 7, 8] (List.replicate 8 (-1 : Int)) 2 2 2 1 1 2 2
        (List.replicate 16 (-1 : Int))).map Prod.fst
      = some [8, 12, 20, 24, 0, 1, 3, 4] ∧
    (Convolution_RowMajorFilters_ChannelMajorOutput [1, 1, 1, 0, 1, 0, 1, 0]
        [0, 1, 2, 3, 4, 5, 6, 7, 8] (List.replicate 8 (-1 : Int)) 2 2 2 1 1 2 2
        (List.replicate 16 (-1 : Int))).map Prod.fst
      = some [8, 12, 20, 24, 0, 1, 3, 4] :=
  ⟨by decide, by decide,
    C4_concrete_scenario (List.replicate 8 (-1)) (List.replicate 16 (-1))
      (by decide) (by decide)⟩

/-- C5: write-once coverage of `U`.  The map sending `(wRow, wCol, wChl, yRow, yCol)`,
each below its bound, to the offset
`((wRow*wCols + wCol)*wChls + wChl)*uRows + yRow*yCols + yCol` is a bijection onto
the positions below `uRows * uCols`; this offset is the one the code writes,
`target + yCol`; hence every position below `uRows * uCols` is written by exactly
one pair of a loop iteration and an offset within its copy. -/
theorem C5_write_once_bijection (wRows wCols wChls yRows yCols : Nat) :
    Set.BijOn
      (fun t : Iteration × Nat =>
        ((t.1.wRow * wCols + t.1.wCol) * wChls + t.1.wChl) * (yRows * yCols)
          + t.1.yRow * yCols + t.2)
      {t | t.1.wRow < wRows ∧ t.1.wCol < wCols ∧ t.1.wChl < wChls ∧ t.1.yRow < yRows ∧
        t.2 < yCols}
      (Set.Iio (yRows * yCols * (wRows * wCols * wChls))) ∧
    (∀ t : Iteration × Nat,
      copyTarget wCols wChls yRows yCols t.1.wRow t.1.wCol t.1.wChl t.1.yRow + (t.2 : Int)
        = ((((t.1.wRow * wCols + t.1.wCol) * wChls + t.1.wChl) * (yRows * yCols)
            + t.1.yRow * yCols + t.2 : Nat) : Int)) ∧
    ∀ p, p < yRows * yCols * (wRows * wCols * wChls) →
      ∃! t : Iteration × Nat,
        (t.1.wRow < wRows ∧ t.1.wCol < wCols ∧ t.1.wChl < wChls ∧ t.1.yRow < yRows ∧
          t.2 < yCols) ∧
        copyTarget wCols wChls yRows yCols t.1.wRow t.1.wCol t.1.wChl t.1.yRow + (t.2 : Int)
          = (p : Int) := by
  have hf : ∀ t : Iteration × Nat,
      ((t.1.wRow * wCols + t.1.wCol) * wChls + t.1.wChl) * (yRows * yCols)
          + t.1.yRow * yCols + t.2
        = (Geometry.mk wRows wCols wChls 0 yRows yCols).target t.1 + t.2 := by
    intro t
    simp only [Geometry.target, Geometry.uCol]; ring
  have hcode : ∀ t : Iteration × Nat,
      copyTarget wCols wChls yRows yCols t.1.wRow t.1.wCol t.1.wChl t.1.yRow + (t.2 : Int)
        = ((((t.1.wRow * wCols + t.1.wCol) * wChls + t.1.wChl) * (yRows * yCols)
            + t.1.yRow * yCols + t.2 : Nat) : Int) := by
    intro t
    simp only [copyTarget]; push_cast; ring
  have hinj : ∀ t t' : Iteration × Nat,
      (t.1.wRow < wRows ∧ t.1.wCol < wCols ∧ t.1.wChl < wChls ∧ t.1.yRow < yRows ∧
        t.2 < yCols) →
      (t'.1.wRow < wRows ∧ t'.1.wCol < wCols ∧ t'.1.wChl < wChls ∧ t'.1.yRow < yRows ∧
        t'.2 < yCols) →
      (Geometry.mk wRows wCols wChls 0 yRows yCols).target t.1 + t.2
        = (Geometry.mk wRows wCols wChls 0 yRows yCols).target t'.1 + t'.2 → t = t' := by
    intro t t' ht ht' heq
    have hr : (Geometry.mk wRows wCols wChls 0 yRows yCols).InRange t.1 :=
      ⟨ht.1, ht.2.1, ht.2.2.1, ht.2.2.2.1⟩
    have hr' : (Geometry.mk wRows wCols wChls 0 yRows yCols).InRange t'.1 :=
      ⟨ht'.1, ht'.2.1, ht'.2.2.1, ht'.2.2.2.1⟩
    have h1 := Geometry.iterationOf_target_add _ t.1 hr t.2 ht.2.2.2.2
    have h2 := Geometry.iterationOf_target_add _ t'.1 hr' t'.2 ht'.2.2.2.2
    have h3 : t.1 = t'.1 := by rw [← h1, ← h2, heq]
    have h4 : t.2 = t'.2 := by rw [h3] at heq; omega
    exact Prod.ext h3 h4
  have hsurj : ∀ p, p < yRows * yCols * (wRows * wCols * wChls) →
      ((Geometry.mk wRows wCols wChls 0 yRows yCols).iterationOf p).wRow < wRows ∧
      ((Geometry.mk wRows wCols wChls 0 yRows yCols).iterationOf p).wCol < wCols ∧
      ((Geometry.mk wRows wCols wChls 0 yRows yCols).iterationOf p).wChl < wChls ∧
      ((Geometry.mk wRows wCols wChls 0 yRows yCols).iterationOf p).yRow < yRows ∧
      p % yCols < yCols := by
    intro p hp
    obtain ⟨h1, h2, h3, h4⟩ := Geometry.inRange_iterationOf
      (Geometry.mk wRows wCols wChls 0 yRows yCols) p hp
    exact ⟨h1, h2, h3, h4, Nat.mod_lt _ (Geometry.yCols_pos_of_lt
      (Geometry.mk wRows wCols wChls 0 yRows yCols) p hp)⟩
  refine ⟨⟨?_, ?_, ?_⟩, hcode, ?_⟩
  · intro t ht
    simp only [Set.mem_Iio, hf]
    exact Geometry.target_add_lt (Geometry.mk wRows wCols wChls 0 yRows yCols) t.1
      ⟨ht.1, ht.2.1, ht.2.2.1, ht.2.2.2.1⟩ t.2 ht.2.2.2.2
  · intro t ht t' ht' heq
    simp only [hf] at heq
    exact hinj t t' ht ht' heq
  · intro p hp
    refine ⟨((Geometry.mk wRows wCols wChls 0 yRows yCols).iterationOf p, p % yCols),
      hsurj p hp, ?_⟩
    exact (hf ((Geometry.mk wRows wCols wChls 0 yRows yCols).iterationOf p, p % yCols)).trans
      (Geometry.target_iterationOf _ p)
  · intro p hp
    refine ⟨((Geometry.mk wRows wCols wChls 0 yRows yCols).iterationOf p, p % yCols),
      ⟨hsurj p hp, ?_⟩, ?_⟩
    · rw [hcode, hf]
      exact congrArg Nat.cast (Geometry.target_iterationOf _ p)
    · intro t ht
      have h1 := ht.2
      rw [hcode, hf] at h1
      have h2 : (Geometry.mk wRows wCols wChls 0 yRows yCols).target t.1 + t.2 = p := by
        exact_mod_cast h1
      apply hinj t _ ht.1 (hsurj p hp)
      rw [h2]
      exact (Geometry.target_iterationOf _ p).symm

/-- C6: bounds safety.  For natural-number dimensions, called with
`uRows = yRows*yCols` and `uCols = wRows*wCols*wChls` on an input of length
`wChls*xRows*xCols` and a buffer of capacity at least `uRows*uCols`,
`ChlMajInputUnroll` runs to completion, the four assertions hold in every
iteration, and every copy reads only offsets of `X` in `[0, wChls*xRows*xCols)`
and writes only offsets of `U` in `[0, uRows*uCols)`. -/
theorem C6_bounds_safety {α : Type} (wRows wCols wChls vStride yRows yCols : Nat)
    (X U : List α)
    (hX : X.length = wChls * ((yRows - 1) * vStride + wRows) * (yCols + wCols - 1))
    (hU : yRows * yCols * (wRows * wCols * wChls) ≤ U.length) :
    (ChlMajInputUnroll X U wRows wCols wChls vStride yRows yCols
        ((yRows : Int) * yCols) ((wRows : Int) * wCols * wChls)).isSome = true ∧
    ∀ wRow wCol wChl yRow, wRow < wRows → wCol < wCols → wChl < wChls → yRow < yRows →
      copyAsserts wRows wCols wChls vStride yRows yCols
        ((yRows : Int) * yCols) ((wRows : Int) * wCols * wChls)
        (copySource wRows wCols vStride yRows yCols wRow wCol wChl yRow)
        (copyTarget wCols wChls yRows yCols wRow wCol wChl yRow) ∧
      ∀ i, i < yCols →
        (0 ≤ copySource wRows wCols vStride yRows yCols wRow wCol wChl yRow + (i : Int) ∧
          copySource wRows wCols vStride yRows yCols wRow wCol wChl yRow + (i : Int)
            < (X.length : Int)) ∧
        (0 ≤ copyTarget wCols wChls yRows yCols wRow wCol wChl yRow + (i : Int) ∧
          copyTarget wCols wChls yRows yCols wRow wCol wChl yRow + (i : Int)
            < ((yRows * yCols * (wRows * wCols * wChls) : Nat) : Int) ∧
          copyTarget wCols wChls yRows yCols wRow wCol wChl yRow + (i : Int)
            < (U.length : Int)) := by
  have hX' : (Geometry.mk wRows wCols wChls vStride yRows yCols).wChls
      * (Geometry.mk wRows wCols wChls vStride yRows yCols).xRows
      * (Geometry.mk wRows wCols wChls vStride yRows yCols).xCols ≤ X.length :=
    Nat.le_of_eq hX.symm
  obtain ⟨U', hU', _, _⟩ :=
    ChlMajInputUnroll_called X U (Geometry.mk wRows wCols wChls vStride yRows yCols) hX' hU
  refine ⟨by rw [hU']; rfl, ?_⟩
  intro wRow wCol wChl yRow h1 h2 h3 h4
  have hr : (Geometry.mk wRows wCols wChls vStride yRows yCols).InRange
      ⟨wRow, wCol, wChl, yRow⟩ := ⟨h1, h2, h3, h4⟩
  refine ⟨copyAsserts_called _ _ hr, ?_⟩
  intro i hi
  have hs := Geometry.source_add_le _ _ hr
  have ht := Geometry.target_add_le _ _ hr
  have e1 := copySource_natCast (Geometry.mk wRows wCols wChls vStride yRows yCols)
    ⟨wRow, wCol, wChl, yRow⟩ h4 h2
  have e2 := copyTarget_natCast (Geometry.mk wRows wCols wChls vStride yRows yCols)
    ⟨wRow, wCol, wChl, yRow⟩
  have h5 : (Geometry.mk wRows wCols wChls vStride yRows yCols).xRows
      * (Geometry.mk wRows wCols wChls vStride yRows yCols).xCols
      * (Geometry.mk wRows wCols wChls vStride yRows yCols).wChls
      = (Geometry.mk wRows wCols wChls vStride yRows yCols).wChls
      * (Geometry.mk wRows wCols wChls vStride yRows yCols).xRows
      * (Geometry.mk wRows wCols wChls vStride yRows yCols).xCols := by ring
  have hyc : (Geometry.mk wRows wCols wChls vStride yRows yCols).yCols = yCols := rfl
  have hur : (Geometry.mk wRows wCols wChls vStride yRows yCols).uRows
      * (Geometry.mk wRows wCols wChls vStride yRows yCols).uCols
      = yRows * yCols * (wRows * wCols * wChls) := rfl
  rw [hyc] at hs ht
  rw [hur] at ht
  simp only at e1 e2
  rw [e1, e2]
  refine ⟨⟨by omega, ?_⟩, ⟨by omega, ?_, ?_⟩⟩
  · have : Geometry.source (Geometry.mk wRows wCols wChls vStride yRows yCols)
        ⟨wRow, wCol, wChl, yRow⟩ + i < X.length := by omega
    exact_mod_cast this
  · have : Geometry.target (Geometry.mk wRows wCols wChls vStride yRows yCols)
        ⟨wRow, wCol, wChl, yRow⟩ + i < yRows * yCols * (wRows * wCols * wChls) := by omega
    exact_mod_cast this
  · have : Geometry.target (Geometry.mk wRows wCols wChls vStride yRows yCols)
        ⟨wRow, wCol, wChl, yRow⟩ + i < U.length := by omega
    exact_mod_cast this

/-- C6, on the 3×3 input `0..8` with a 2×2 filter window and a 2×2 output. -/
theorem C6_bounds_safety_witness :
    ([0, 1, 2, 3, 4, 5, 6, 7, 8] : List Int).length = 1 * ((2 - 1) * 1 + 2) * (2 + 2 - 1) ∧
    2 * 2 * (2 * 2 * 1) ≤ (List.replicate 16 (-1 : Int)).length ∧
    (ChlMajInputUnroll [0, 1, 2, 3, 4, 5, 6, 7, 8] (List.replicate 16 (-1 : Int))
        (2 : Nat) (2 : Nat) (1 : Nat) (1 : Nat) (2 : Nat) (2 : Nat)
        (((2 : Nat) : Int) * (2 : Nat)) (((2 : Nat) : Int) * (2 : Nat) * (1 : Nat))).isSome
      = true :=
  ⟨by decide, by decide,
    (C6_bounds_safety 2 2 1 1 2 2 [0, 1, 2, 3, 4, 5, 6, 7, 8] (List.replicate 16 (-1))
      (by decide) (by decide)).1⟩

/-- C7: the output is fully overwritten, with no accumulation.  For each of the
four `Convolution` variants, two runs with the same `W`, `X` and dimensions but
arbitrary initial contents of `Y` and of the scratch buffer both succeed and end
with equal contents of `Y` at all `yRows*yCols*wCount` positions. -/
theorem C7_output_overwritten {α : Type} [CommRing α]
    (wCount wRows wCols wChls vStride yRows yCols : Nat) (W X Y1 Y2 S1 S2 : List α)
    (hW : W.length = wCount * wRows * wCols * wChls)
    (hX : X.length = wChls * ((yRows - 1) * vStride + wRows) * (yCols + wCols - 1))
    (hY1 : Y1.length = yRows * yCols * wCount) (hY2 : Y2.length = yRows * yCols * wCount)
    (hS1 : wRows * wCols * wChls * yRows * yCols ≤ S1.length)
    (hS2 : wRows * wCols * wChls * yRows * yCols ≤ S2.length) :
    AgreeBelow (yRows * yCols * wCount)
      (Convolution_FilterMajorFilters_RowMajorOutput W X Y1 wCount wRows wCols wChls
        vStride yRows yCols S1)
      (Convolution_FilterMajorFilters_RowMajorOutput W X Y2 wCount wRows wCols wChls
        vStride yRows yCols S2) ∧
    AgreeBelow (yRows * yCols * wCount)
      (Convolution_RowMajorFilters_RowMajorOutput W X Y1 wCount wRows wCols wChls
        vStride yRows yCols S1)
      (Convolution_RowMajorFilters_RowMajorOutput W X Y2 wCount wRows wCols wChls
        vStride yRows yCols S2) ∧
    AgreeBelow (yRows * yCols * wCount)
      (Convolution_FilterMajorFilters_ChannelMajorOutput W X Y1 wCount wRows wCols wChls
        vStride yRows yCols S1)
      (Convolution_FilterMajorFilters_ChannelMajorOutput W X Y2 wCount wRows wCols wChls
        vStride yRows yCols S2) ∧
    AgreeBelow (yRows * yCols * wCount)
      (Convolution_RowMajorFilters_ChannelMajorOutput W X Y1 wCount wRows wCols wChls
        vStride yRows yCols S1)
      (Convolution_RowMajorFilters_ChannelMajorOutput W X Y2 wCount wRows wCols wChls
        vStride yRows yCols S2) := by
  have hu : (Geometry.mk wRows wCols wChls vStride yRows yCols).uCols * wCount
      = wCount * wRows * wCols * wChls := by
    simp only [Geometry.uCols]; ring
  have hs : (Geometry.mk wRows wCols wChls vStride yRows yCols).uRows
      * (Geometry.mk wRows wCols wChls vStride yRows yCols).uCols
      = wRows * wCols * wChls * yRows * yCols := by
    simp only [Geometry.uRows, Geometry.uCols]; ring
  have key := fun oB oC => convolutionWith_agree
    (Geometry.mk wRows wCols wChls vStride yRows yCols) wCount oB oC W X Y1 Y2 S1 S2
    (by omega) (Nat.le_of_eq hX.symm) (Nat.le_of_eq hY1.symm) (Nat.le_of_eq hY2.symm)
    (by omega) (by omega)
  exact ⟨key MatrixOrder.ColMaj MatrixOrder.RowMaj, key MatrixOrder.RowMaj MatrixOrder.RowMaj,
    key MatrixOrder.ColMaj MatrixOrder.ColMaj, key MatrixOrder.RowMaj MatrixOrder.ColMaj⟩

/-- C7, on the concrete scenario with two different canaries. -/
theorem C7_output_overwritten_witness :
    AgreeBelow (2 * 2 * 2)
      (Convolution_FilterMajorFilters_RowMajorOutput [1, 1, 1, 1, 1, 0, 0, 0]
        [0, 1, 2, 3, 4, 5, 6, 7, 8] (List.replicate 8 (-1 : Int))
        (2 : Nat) (2 : Nat) (2 : Nat) (1 : Nat) (1 : Nat) (2 : Nat) (2 : Nat)
        (List.replicate 16 (-1 : Int)))
      (Convolution_FilterMajorFilters_RowMajorOutput [1, 1, 1, 1, 1, 0, 0, 0]
        [0, 1, 2, 3, 4, 5, 6, 7, 8] (List.replicate 8 (7 : Int))
        (2 : Nat) (2 : Nat) (2 : Nat) (1 : Nat) (1 : Nat) (2 : Nat) (2 : Nat)
        (List.replicate 20 (9 : Int))) :=
  (C7_output_overwritten 2 2 2 1 1 2 2 [1, 1, 1, 1, 1, 0, 0, 0] [0, 1, 2, 3, 4, 5, 6, 7, 8]
    (List.replicate 8 (-1)) (List.replicate 8 7) (List.replicate 16 (-1)) (List.replicate 20 9)
    (by decide) (by decide) (by decide) (by decide) (by decide) (by decide)).1

/-- C8: degenerate 1×1 filter.  With `wRows = wCols = 1` the filter-major,
row-major-output `Convolution` succeeds and computes, for each pixel on its own,
a linear combination across channels:
`Y[(yRow*yCols + yCol)*wCount + f]` is the sum over `c < wChls` of
`W[f*wChls + c] * X[(c*xRows + yRow*vStride)*yCols + yCol]` with
`xRows = (yRows-1)*vStride + 1`. -/
theorem C8_one_by_one_filter {α : Type} [CommRing α]
    (wCount wChls vStride yRows yCols : Nat) (W X Y space : List α)
    (hW : W.length = wCount * wChls)
    (hX : X.length = wChls * ((yRows - 1) * vStride + 1) * yCols)
    (hY : Y.length = yRows * yCols * wCount)
    (hS : wChls * yRows * yCols ≤ space.length) :
    ∃ Y' U', Convolution_FilterMajorFilters_RowMajorOutput W X Y wCount 1 1 wChls
          vStride yRows yCols space = some (Y', U') ∧
      ∀ f yRow yCol, f < wCount → yRow < yRows → yCol < yCols →
        Y'[(yRow * yCols + yCol) * wCount + f]? = some
          (∑ c in range wChls, W.getD (f * wChls + c) 0 *
            X.getD ((c * ((yRows - 1) * vStride + 1) + yRow * vStride) * yCols + yCol) 0) := by
  have hW' : (Geometry.mk 1 1 wChls vStride yRows yCols).uCols * wCount ≤ W.length := by
    rw [hW]; simp only [Geometry.uCols]; exact Nat.le_of_eq (by ring)
  have hX' : (Geometry.mk 1 1 wChls vStride yRows yCols).wChls
      * (Geometry.mk 1 1 wChls vStride yRows yCols).xRows
      * (Geometry.mk 1 1 wChls vStride yRows yCols).xCols ≤ X.length := by
    rw [hX]; simp only [Geometry.xRows, Geometry.xCols, Nat.add_sub_cancel]
    exact Nat.le_refl _
  have hS' : (Geometry.mk 1 1 wChls vStride yRows yCols).uRows
      * (Geometry.mk 1 1 wChls vStride yRows yCols).uCols ≤ space.length := by
    refine Nat.le_trans (Nat.le_of_eq ?_) hS
    simp only [Geometry.uRows, Geometry.uCols]; ring
  obtain ⟨Y', U', h, hget⟩ := filterMajor_rowMajor_entries
    (Geometry.mk 1 1 wChls vStride yRows yCols) wCount W X Y space hW'
    hX' (Nat.le_of_eq hY.symm) hS'
  simp only [Nat.cast_one] at h
  refine ⟨Y', U', h, ?_⟩
  intro f yRow yCol hf hy hc
  rw [hget f yRow yCol hf hy hc]
  simp only [Geometry.xRows, Geometry.xCols, Finset.sum_range_one, Nat.add_sub_cancel,
    Nat.zero_mul, Nat.zero_add, Nat.add_zero, Nat.one_mul, Nat.mul_one]

/-- C8, with two channels, two filters, vertical stride 2 and a 2×2 output. -/
theorem C8_one_by_one_filter_witness :
    ∃ Y' U', Convolution_FilterMajorFilters_RowMajorOutput ([1, 2, 3, 4] : List Int)
          [0, 1, 2, 3, 4, 5, 6, 7, 8, 9, 10, 11] (List.replicate 8 (-1 : Int))
          (2 : Nat) 1 1 (2 : Nat) (2 : Nat) (2 : Nat) (2 : Nat)
          (List.replicate 8 (-1 : Int)) = some (Y', U') ∧
      ∀ f yRow yCol, f < 2 → yRow < 2 → yCol < 2 →
        Y'[(yRow * 2 + yCol) * 2 + f]? = some
          (∑ c in range 2, ([1, 2, 3, 4] : List Int).getD (f * 2 + c) 0 *
            ([0, 1, 2, 3, 4, 5, 6, 7, 8, 9, 10, 11] : List Int).getD
              ((c * ((2 - 1) * 2 + 1) + yRow * 2) * 2 + yCol) 0) :=
  C8_one_by_one_filter 2 2 2 2 2 [1, 2, 3, 4] [0, 1, 2, 3, 4, 5, 6, 7, 8, 9, 10, 11]
    (List.replicate 8 (-1)) (List.replicate 8 (-1))
    (by decide) (by decide) (by decide) (by decide)

/-- C9: scratch frame.  On buffers of the documented sizes `ChlMajInputUnroll`, and
with it each of the four `Convolution` variants, succeeds and changes only the
first `wRows*wCols*wChls*yRows*yCols` elements of the scratch buffer: the buffer
keeps its length and every position from that size on holds what it held before
the call. -/
theorem C9_scratch_frame {α : Type} [CommRing α]
    (wCount wRows wCols wChls vStride yRows yCols : Nat) (W X Y space : List α)
    (hW : W.length = wCount * wRows * wCols * wChls)
    (hX : X.length = wChls * ((yRows - 1) * vStride + wRows) * (yCols + wCols - 1))
    (hY : Y.length = yRows * yCols * wCount)
    (hS : wRows * wCols * wChls * yRows * yCols ≤ space.length) :
    (∃ U', ChlMajInputUnroll X space wRows wCols wChls vStride yRows yCols
          ((yRows : Int) * yCols) ((wRows : Int) * wCols * wChls) = some U' ∧
      U'.length = space.length ∧
      ∀ i, wRows * wCols * wChls * yRows * yCols ≤ i → U'[i]? = space[i]?) ∧
    FrameFrom (wRows * wCols * wChls * yRows * yCols) space
      (Convolution_FilterMajorFilters_RowMajorOutput W X Y wCount wRows wCols wChls
        vStride yRows yCols space) ∧
    FrameFrom (wRows * wCols * wChls * yRows * yCols) space
      (Convolution_RowMajorFilters_RowMajorOutput W X Y wCount wRows wCols wChls
        vStride yRows yCols space) ∧
    FrameFrom (wRows * wCols * wChls * yRows * yCols) space
      (Convolution_FilterMajorFilters_ChannelMajorOutput W X Y wCount wRows wCols wChls
        vStride yRows yCols space) ∧
    FrameFrom (wRows * wCols * wChls * yRows * yCols) space
      (Convolution_RowMajorFilters_ChannelMajorOutput W X Y wCount wRows wCols wChls
        vStride yRows yCols space) := by
  have hu : (Geometry.mk wRows wCols wChls vStride yRows yCols).uCols * wCount
      = wCount * wRows * wCols * wChls := by
    simp only [Geometry.uCols]; ring
  have hs : (Geometry.mk wRows wCols wChls vStride yRows yCols).uRows
      * (Geometry.mk wRows wCols wChls vStride yRows yCols).uCols
      = wRows * wCols * wChls * yRows * yCols := by
    simp only [Geometry.uRows, Geometry.uCols]; ring
  have hX' := Nat.le_of_eq hX.symm
  have key := fun oB oC => convolutionWith_frame
    (Geometry.mk wRows wCols wChls vStride yRows yCols) wCount oB oC W X Y space
    (by omega) hX' (Nat.le_of_eq hY.symm) (by omega)
  rw [hs] at key
  refine ⟨?_, key MatrixOrder.ColMaj MatrixOrder.RowMaj,
    key MatrixOrder.RowMaj MatrixOrder.RowMaj, key MatrixOrder.ColMaj MatrixOrder.ColMaj,
    key MatrixOrder.RowMaj MatrixOrder.ColMaj⟩
  obtain ⟨U', hU', hlen, hget⟩ := ChlMajInputUnroll_called X space
    (Geometry.mk wRows wCols wChls vStride yRows yCols) hX' (by omega)
  refine ⟨U', hU', hlen, fun i hi => ?_⟩
  have : ¬ i < (Geometry.mk wRows wCols wChls vStride yRows yCols).uRows
      * (Geometry.mk wRows wCols wChls vStride yRows yCols).uCols := by omega
  rw [hget i, if_neg this]

/-- C9, on the concrete scenario with a scratch buffer longer than needed. -/
theorem C9_scratch_frame_witness :
    ∃ U', ChlMajInputUnroll [0, 1, 2, 3, 4, 5, 6, 7, 8] (List.replicate 20 (-1 : Int))
          (2 : Nat) (2 : Nat) (1 : Nat) (1 : Nat) (2 : Nat) (2 : Nat)
          (((2 : Nat) : Int) * (2 : Nat)) (((2 : Nat) : Int) * (2 : Nat) * (1 : Nat)) = some U' ∧
      U'.length = (List.replicate 20 (-1 : Int)).length ∧
      ∀ i, 2 * 2 * 1 * 2 * 2 ≤ i → U'[i]? = (List.replicate 20 (-1 : Int))[i]? :=
  (C9_scratch_frame 2 2 2 1 1 2 2 [1, 1, 1, 1, 1, 0, 0, 0] [0, 1, 2, 3, 4, 5, 6, 7, 8]
    (List.replicate 8 (-1)) (List.replicate 20 (-1))
    (by decide) (by decide) (by decide) (by decide)).1

/-- C10: loop-order independence.  Running the copies of `ChlMajInputUnroll` in the
order of any permutation of its list of `(wRow, wCol, wChl, yRow)` iterations, and
in particular with the four loops nested in the reverse order, gives the result
of `ChlMajInputUnroll` itself, the same final `U`, for every `X`, every initial
`U` and all integer dimensions (a run that fails does so in every order). -/
theorem C10_loop_order_independence {α : Type}
    (wRows wCols wChls vStride yRows yCols uRows uCols : Int) (X U : List α)
    (l : List Iteration) (hl : l.Perm (loopIterations wRows wCols wChls yRows)) :
    runIterations X wRows wCols wChls vStride yRows yCols uRows uCols l U
      = ChlMajInputUnroll X U wRows wCols wChls vStride yRows yCols uRows uCols ∧
    ChlMajInputUnroll_reversed X U wRows wCols wChls vStride yRows yCols uRows uCols
      = ChlMajInputUnroll X U wRows wCols wChls vStride yRows yCols uRows uCols := by
  rw [ChlMajInputUnroll_eq_runIterations, ChlMajInputUnroll_reversed_eq_runIterations]
  constructor
  · apply runIterations_congr
    · intro it hit
      exact (mem_loopIterations _ _ _ _ it).mp (hl.mem_iff.mp hit)
    · intro it
      exact hl.mem_iff
  · apply runIterations_congr
    · intro it hit
      exact (mem_reversedLoopIterations _ _ _ _ it).mp hit
    · intro it
      rw [mem_reversedLoopIterations, mem_loopIterations]

/-- C10, on the concrete scenario with the iterations run last to first. -/
theorem C10_loop_order_independence_witness :
    runIterations [0, 1, 2, 3, 4, 5, 6, 7, 8] 2 2 1 1 2 2 4 4
        (loopIterations 2 2 1 2).reverse (List.replicate 16 (-1 : Int))
      = ChlMajInputUnroll [0, 1, 2, 3, 4, 5, 6, 7, 8] (List.replicate 16 (-1 : Int))
        2 2 1 1 2 2 4 4 :=
  (C10_loop_order_independence 2 2 1 1 2 2 4 4 [0, 1, 2, 3, 4, 5, 6, 7, 8]
    (List.replicate 16 (-1)) (loopIterations 2 2 1 2).reverse
    (List.reverse_perm _)).1

/-- C13: unit horizontal stride as a shift structure of `U`.  On buffers of the
documented sizes, after `ChlMajInputUnroll` the entry of `U` for
`(wRow, wCol, wChl, yRow, yCol + 1)` equals the entry for
`(wRow, wCol + 1, wChl, yRow, yCol)` whenever `wCol + 1 < wCols` and
`yCol + 1 < yCols`, entries being addressed as
`U[((wRow*wCols + wCol)*wChls + wChl)*yRows*yCols + yRow*yCols + yCol]`: both hold
the input element at channel `wChl`, row `yRow*vStride + wRow`, column
`wCol + yCol + 1`. -/
theorem C13_shift_structure {α : Type} (wRows wCols wChls vStride yRows yCols : Nat)
    (X U : List α)
    (hX : X.length = wChls * ((yRows - 1) * vStride + wRows) * (yCols + wCols - 1))
    (hU : yRows * yCols * (wRows * wCols * wChls) ≤ U.length) :
    ∃ U', ChlMajInputUnroll X U wRows wCols wChls vStride yRows yCols
          ((yRows : Int) * yCols) ((wRows : Int) * wCols * wChls) = some U' ∧
      ∀ wRow wCol wChl yRow yCol, wRow < wRows → wChl < wChls → yRow < yRows →
        wCol + 1 < wCols → yCol + 1 < yCols →
        ∃ v, U'[((wRow * wCols + wCol) * wChls + wChl) * yRows * yCols
              + yRow * yCols + (yCol + 1)]? = some v ∧
          U'[((wRow * wCols + (wCol + 1)) * wChls + wChl) * yRows * yCols
              + yRow * yCols + yCol]? = some v ∧
          X[(wChl * ((yRows - 1) * vStride + wRows) + yRow * vStride + wRow)
              * (yCols + wCols - 1) + (wCol + yCol + 1)]? = some v := by
  have hX' : (Geometry.mk wRows wCols wChls vStride yRows yCols).wChls
      * (Geometry.mk wRows wCols wChls vStride yRows yCols).xRows
      * (Geometry.mk wRows wCols wChls vStride yRows yCols).xCols ≤ X.length :=
    Nat.le_of_eq hX.symm
  obtain ⟨U', hU', _, hget⟩ :=
    ChlMajInputUnroll_called X U (Geometry.mk wRows wCols wChls vStride yRows yCols) hX' hU
  refine ⟨U', hU', ?_⟩
  intro wRow wCol wChl yRow yCol h1 h3 h4 h2 h5
  obtain ⟨v, hv1, hv2⟩ := unrolled_entry X U U' _ hX' hget ⟨wRow, wCol, wChl, yRow⟩
    ⟨h1, Nat.lt_of_succ_lt h2, h3, h4⟩ (yCol + 1) h5
  obtain ⟨w, hw1, hw2⟩ := unrolled_entry X U U' _ hX' hget ⟨wRow, wCol + 1, wChl, yRow⟩
    ⟨h1, h2, h3, h4⟩ yCol (Nat.lt_of_succ_lt h5)
  simp only [Geometry.xRows, Geometry.xCols, Nat.add_assoc] at hv1 hw1
  simp only [← Nat.mul_assoc] at hv2 hw2
  have hvw : w = v := by
    have e : wCol + (1 + yCol) = wCol + (yCol + 1) := by omega
    rw [e, hv1] at hw1
    exact (Option.some.inj hw1).symm
  rw [hvw] at hw2
  refine ⟨v, hv2, hw2, ?_⟩
  have e : wCol + yCol + 1 = wCol + (yCol + 1) := by omega
  rw [e, ← hv1]
  simp only [Nat.add_assoc]

/-- C13, on the 3×3 input `0..8` with a 2×2 filter window and a 2×2 output. -/
theorem C13_shift_structure_witness :
    ∃ U', ChlMajInputUnroll [0, 1, 2, 3, 4, 5, 6, 7, 8] (List.replicate 16 (-1 : Int))
          (2 : Nat) (2 : Nat) (1 : Nat) (1 : Nat) (2 : Nat) (2 : Nat)
          (((2 : Nat) : Int) * (2 : Nat)) (((2 : Nat) : Int) * (2 : Nat) * (1 : Nat)) = some U' ∧
      ∀ wRow wCol wChl yRow yCol, wRow < 2 → wChl < 1 → yRow < 2 →
        wCol + 1 < 2 → yCol + 1 < 2 →
        ∃ v, U'[((wRow * 2 + wCol) * 1 + wChl) * 2 * 2 + yRow * 2 + (yCol + 1)]? = some v ∧
          U'[((wRow * 2 + (wCol + 1)) * 1 + wChl) * 2 * 2 + yRow * 2 + yCol]? = some v ∧
          ([0, 1, 2, 3, 4, 5, 6, 7, 8] : List Int)[(wChl * ((2 - 1) * 1 + 2) + yRow * 1 + wRow)
              * (2 + 2 - 1) + (wCol + yCol + 1)]? = some v :=
  C13_shift_structure 2 2 1 1 2 2 [0, 1, 2, 3, 4, 5, 6, 7, 8] (List.replicate 16 (-1))
    (by decide) (by decide)

/-- C17: identity unrolling for 1×1 filters at unit stride.  With
`wRows = wCols = 1` and `vStride = 1`, on buffers of the documented sizes
`ChlMajInputUnroll` succeeds and is a plain copy of `X`: `U[i] = X[i]` for every
`i < wChls*yRows*yCols`. -/
theorem C17_identity_unrolling {α : Type} (wChls yRows yCols : Nat) (X U : List α)
    (hX : X.length = wChls * ((yRows - 1) * 1 + 1) * (yCols + 1 - 1))
    (hU : yRows * yCols * (1 * 1 * wChls) ≤ U.length) :
    ∃ U', ChlMajInputUnroll X U 1 1 wChls 1 yRows yCols
          ((yRows : Int) * yCols) ((1 : Int) * 1 * wChls) = some U' ∧
      ∀ i, i < wChls * yRows * yCols → ∃ v, X[i]? = some v ∧ U'[i]? = some v := by
  have hX' : (Geometry.mk 1 1 wChls 1 yRows yCols).wChls
      * (Geometry.mk 1 1 wChls 1 yRows yCols).xRows
      * (Geometry.mk 1 1 wChls 1 yRows yCols).xCols ≤ X.length :=
    Nat.le_of_eq hX.symm
  obtain ⟨U', hU', _, hget⟩ :=
    ChlMajInputUnroll_called X U (Geometry.mk 1 1 wChls 1 yRows yCols) hX' hU
  simp only [Nat.cast_one] at hU'
  refine ⟨U', hU', ?_⟩
  intro i hi
  have hi' : i < (Geometry.mk 1 1 wChls 1 yRows yCols).uRows
      * (Geometry.mk 1 1 wChls 1 yRows yCols).uCols := by
    have : (Geometry.mk 1 1 wChls 1 yRows yCols).uRows
        * (Geometry.mk 1 1 wChls 1 yRows yCols).uCols = wChls * yRows * yCols := by
      simp only [Geometry.uRows, Geometry.uCols]; ring
    rw [this]; exact hi
  have hr := Geometry.inRange_iterationOf _ i hi'
  have ht := Geometry.target_iterationOf (Geometry.mk 1 1 wChls 1 yRows yCols) i
  have hsrc : (Geometry.mk 1 1 wChls 1 yRows yCols).sourceOf i = i := by
    obtain ⟨r1, r2, _, r4⟩ := hr
    have y1 : yRows - 1 + 1 = yRows := by
      have : ((Geometry.mk 1 1 wChls 1 yRows yCols).iterationOf i).yRow < yRows := r4
      omega
    have w0 : ((Geometry.mk 1 1 wChls 1 yRows yCols).iterationOf i).wRow = 0 := by
      have : ((Geometry.mk 1 1 wChls 1 yRows yCols).iterationOf i).wRow < 1 := r1
      omega
    have c0 : ((Geometry.mk 1 1 wChls 1 yRows yCols).iterationOf i).wCol = 0 := by
      have : ((Geometry.mk 1 1 wChls 1 yRows yCols).iterationOf i).wCol < 1 := r2
      omega
    have e : (Geometry.mk 1 1 wChls 1 yRows yCols).source
          ((Geometry.mk 1 1 wChls 1 yRows yCols).iterationOf i)
        = (Geometry.mk 1 1 wChls 1 yRows yCols).target
          ((Geometry.mk 1 1 wChls 1 yRows yCols).iterationOf i) := by
      simp only [Geometry.source, Geometry.target, Geometry.uCol, Geometry.xRows,
        Geometry.xCols, w0, c0, Nat.mul_one, Nat.add_zero, Nat.zero_add, Nat.zero_mul,
        Nat.add_sub_cancel, y1]
    unfold Geometry.sourceOf
    rw [e]
    exact ht
  have hlt := Geometry.sourceOf_lt _ i hi'
  rw [hsrc] at hlt
  have hlt' : i < X.length := by omega
  refine ⟨X[i], List.getElem?_eq_getElem hlt', ?_⟩
  rw [hget i, if_pos hi', hsrc, List.getElem?_eq_getElem hlt']

/-- C17, with two channels and a 2×3 output: `U` becomes the input `0..11`. -/
theorem C17_identity_unrolling_witness :
    ∃ U', ChlMajInputUnroll [0, 1, 2, 3, 4, 5, 6, 7, 8, 9, 10, 11]
          (List.replicate 12 (-1 : Int)) 1 1 (2 : Nat) 1 (2 : Nat) (3 : Nat)
          (((2 : Nat) : Int) * (3 : Nat)) ((1 : Int) * 1 * (2 : Nat)) = some U' ∧
      ∀ i, i < 2 * 2 * 3 →
        ∃ v, ([0, 1, 2, 3, 4, 5, 6, 7, 8, 9, 10, 11] : List Int)[i]? = some v ∧
          U'[i]? = some v :=
  C17_identity_unrolling 2 2 3 [0, 1, 2, 3, 4, 5, 6, 7, 8, 9, 10, 11]
    (List.replicate 12 (-1)) (by decide) (by decide)

/-! ## Counting the copies -/

theorem copyElementsCounted_eq {α : Type} (X : List α) :
    ∀ (n s : Nat) (U : List α) (t m : Nat),
      copyElementsCounted X s n U t m
        = (copyElements X s n U t).map fun U' => (U', m + n) := by
  intro n
  induction n with
  | zero => intro s U t m; rfl
  | succ n ih =>
    intro s U t m
    cases hx : X[s]? with
    | none => simp only [copyElementsCounted, copyElements, hx, Option.map_none']
    | some v =>
      by_cases ht : t < U.length
      · simp only [copyElementsCounted, copyElements, hx, if_pos ht, ih]
        have : m + 1 + n = m + (n + 1) := by omega
        rw [this]
      · simp only [copyElementsCounted, copyElements, hx, if_neg ht, Option.map_none']

/-- The loop body with the ghost record does to `U` what the loop body does, and
records one copy of size `yCols`. -/
theorem unrollBodyCounted_eq {α : Type} (X : List α)
    (wRows wCols wChls vStride yRows yCols uRows uCols wRow wCol wChl yRow : Int)
    (s : CopyCount α) :
    unrollBodyCounted X wRows wCols wChls vStride yRows yCols uRows uCols
        wRow wCol wChl yRow s
      = (unrollBody X wRows wCols wChls vStride yRows yCols uRows uCols
          wRow wCol wChl yRow s.U).map fun U' =>
            { U := U', copies := s.copies ++ [yCols.toNat],
              moved := s.moved + yCols.toNat } := by
  simp only [unrollBodyCounted, unrollBody, stdCopyCounted, stdCopy]
  split
  · split
    · rfl
    · simp only [copyElementsCounted_eq, Option.map_map, add_sub_cancel_left]
      rfl
  · rfl

/-- Running the loop body with the ghost record over a list of iterations. -/
theorem foldlM_unrollBodyCounted {α : Type} (X : List α)
    (wRows wCols wChls vStride yRows yCols uRows uCols : Int) (l : List Iteration) :
    ∀ s : CopyCount α,
      l.foldlM (fun s it =>
          unrollBodyCounted X wRows wCols wChls vStride yRows yCols uRows uCols
            it.wRow it.wCol it.wChl it.yRow s) s
        = (runIterations X wRows wCols wChls vStride yRows yCols uRows uCols l s.U).map
            fun U' => { U := U', copies := s.copies ++ List.replicate l.length yCols.toNat,
                        moved := s.moved + l.length * yCols.toNat } := by
  induction l with
  | nil =>
    intro s
    simp [runIterations]
  | cons it l ih =>
    intro s
    rw [List.foldlM_cons, runIterations_cons, unrollBodyCounted_eq]
    cases h : unrollBody X wRows wCols wChls vStride yRows yCols uRows uCols
        it.wRow it.wCol it.wChl it.yRow s.U with
    | none => rfl
    | some U1 =>
      simp only [Option.map_some', Option.some_bind, Option.bind_eq_bind, ih]
      congr 1
      funext U'
      have e1 : s.copies ++ [yCols.toNat] ++ List.replicate l.length yCols.toNat
          = s.copies ++ List.replicate (l.length + 1) yCols.toNat := by
        rw [List.append_assoc, List.singleton_append, ← List.replicate_succ]
      have e2 : s.moved + yCols.toNat + l.length * yCols.toNat
          = s.moved + (l.length + 1) * yCols.toNat := by
        rw [Nat.succ_mul]; omega
      simp only [List.length_cons, e1, e2]

theorem length_flatMap_const {β γ : Type} (f : β → List γ) (c : Nat) (l : List β)
    (h : ∀ b, (f b).length = c) : (l.flatMap f).length = l.length * c := by
  induction l with
  | nil => simp
  | cons b l ih =>
    rw [List.flatMap_cons, List.length_append, ih, h b, List.length_cons, Nat.succ_mul]
    omega

/-- The four nested loops run their body `wRows * wCols * wChls * yRows` times. -/
theorem length_loopIterations (wRows wCols wChls yRows : Int) :
    (loopIterations wRows wCols wChls yRows).length
      = wRows.toNat * wCols.toNat * wChls.toNat * yRows.toNat := by
  unfold loopIterations
  rw [length_flatMap_const _ (wCols.toNat * wChls.toNat * yRows.toNat), List.length_range]
  · ring
  · intro wRow
    rw [length_flatMap_const _ (wChls.toNat * yRows.toNat), List.length_range]
    · ring
    · intro wCol
      rw [length_flatMap_const _ yRows.toNat, List.length_range]
      intro wChl
      rw [List.length_map, List.length_range]

/-- The transform with the ghost record is the transform, with one copy of size
`yCols` recorded for each iteration of the loops. -/
theorem ChlMajInputUnrollCounted_eq {α : Type} (X U : List α)
    (wRows wCols wChls vStride yRows yCols uRows uCols : Int) :
    ChlMajInputUnrollCounted X U wRows wCols wChls vStride yRows yCols uRows uCols
      = (ChlMajInputUnroll X U wRows wCols wChls vStride yRows yCols uRows uCols).map
          fun U' =>
            { U := U',
              copies := List.replicate
                (wRows.toNat * wCols.toNat * wChls.toNat * yRows.toNat) yCols.toNat,
              moved := wRows.toNat * wCols.toNat * wChls.toNat * yRows.toNat
                * yCols.toNat } := by
  have h : ChlMajInputUnrollCounted X U wRows wCols wChls vStride yRows yCols uRows uCols
      = (loopIterations wRows wCols wChls yRows).foldlM (fun s it =>
          unrollBodyCounted X wRows wCols wChls vStride yRows yCols uRows uCols
            it.wRow it.wCol it.wChl it.yRow s) { U := U, copies := [], moved := 0 } := by
    simp only [ChlMajInputUnrollCounted, forLoop, loopIterations, foldlM_flatMap,
      List.foldlM_map]
  rw [h, foldlM_unrollBodyCounted, ChlMajInputUnroll_eq_runIterations,
    length_loopIterations]
  simp only [List.nil_append, Nat.zero_add]

/-- C11: copy accounting.  For natural-number dimensions and buffers of the
documented sizes `ChlMajInputUnroll` performs exactly `wRows*wCols*wChls*yRows`
contiguous copies, each of length `yCols`, and moves
`wRows*wCols*wChls*yRows*yCols = uRows*uCols` elements in all: the transform run
with a ghost record of its `std::copy` calls ends with the same `U`, that many
recorded copies of that size, and that count of element assignments; the loop
body runs once for each of the `wRows*wCols*wChls*yRows` iterations. -/
theorem C11_copy_accounting {α : Type} (wRows wCols wChls vStride yRows yCols : Nat)
    (X U : List α)
    (hX : X.length = wChls * ((yRows - 1) * vStride + wRows) * (yCols + wCols - 1))
    (hU : yRows * yCols * (wRows * wCols * wChls) ≤ U.length) :
    (∃ U', ChlMajInputUnroll X U wRows wCols wChls vStride yRows yCols
          ((yRows : Int) * yCols) ((wRows : Int) * wCols * wChls) = some U' ∧
      ChlMajInputUnrollCounted X U wRows wCols wChls vStride yRows yCols
          ((yRows : Int) * yCols) ((wRows : Int) * wCols * wChls)
        = some { U := U',
                 copies := List.replicate (wRows * wCols * wChls * yRows) yCols,
                 moved := wRows * wCols * wChls * yRows * yCols }) ∧
    (loopIterations wRows wCols wChls yRows).length = wRows * wCols * wChls * yRows ∧
    wRows * wCols * wChls * yRows * yCols = (yRows * yCols) * (wRows * wCols * wChls) := by
  have hX' : (Geometry.mk wRows wCols wChls vStride yRows yCols).wChls
      * (Geometry.mk wRows wCols wChls vStride yRows yCols).xRows
      * (Geometry.mk wRows wCols wChls vStride yRows yCols).xCols ≤ X.length :=
    Nat.le_of_eq hX.symm
  obtain ⟨U', hU', _, _⟩ :=
    ChlMajInputUnroll_called X U (Geometry.mk wRows wCols wChls vStride yRows yCols) hX' hU
  simp only at hU'
  refine ⟨⟨U', hU', ?_⟩, ?_, by ring⟩
  · rw [ChlMajInputUnrollCounted_eq, hU']
    simp only [Option.map_some', Int.toNat_ofNat]
  · rw [length_loopIterations]
    simp only [Int.toNat_ofNat]

/-- C11, on the 3×3 input `0..8` with a 2×2 filter window and a 2×2 output: eight
copies of two elements. -/
theorem C11_copy_accounting_witness :
    ∃ U', ChlMajInputUnroll [0, 1, 2, 3, 4, 5, 6, 7, 8] (List.replicate 16 (-1 : Int))
          (2 : Nat) (2 : Nat) (1 : Nat) (1 : Nat) (2 : Nat) (2 : Nat)
          (((2 : Nat) : Int) * (2 : Nat)) (((2 : Nat) : Int) * (2 : Nat) * (1 : Nat)) = some U' ∧
      ChlMajInputUnrollCounted [0, 1, 2, 3, 4, 5, 6, 7, 8] (List.replicate 16 (-1 : Int))
          (2 : Nat) (2 : Nat) (1 : Nat) (1 : Nat) (2 : Nat) (2 : Nat)
          (((2 : Nat) : Int) * (2 : Nat)) (((2 : Nat) : Int) * (2 : Nat) * (1 : Nat))
        = some { U := U',
                 copies := List.replicate (2 * 2 * 1 * 2) 2,
                 moved := 2 * 2 * 1 * 2 * 2 } :=
  (C11_copy_accounting 2 2 1 1 2 2 [0, 1, 2, 3, 4, 5, 6, 7, 8] (List.replicate 16 (-1))
    (by decide) (by decide)).1

/-- C12: the `Gemm` call of each variant.  Each of the four `Convolution` variants
is the unrolling followed by one `Gemm` application with `alpha = 1`, `beta = 0`,
`m = yRows*yCols`, `n = wCount`, `k = wRows*wCols*wChls`, operand `A` the unrolled
matrix `U` column-major, operand `B` the buffer `W` column-major for filter-major
filters and row-major for row-major filters, and result `C` the buffer `Y`
row-major for row-major output and column-major for channel-major output. -/
theorem C12_gemm_call_shape {α : Type} [CommRing α] (W X Y space : List α)
    (wCount wRows wCols wChls vStride yRows yCols : Int) :
    Convolution_FilterMajorFilters_RowMajorOutput W X Y wCount wRows wCols wChls vStride
        yRows yCols space
      = (ChlMajInputUnroll X space wRows wCols wChls vStride yRows yCols
          (yRows * yCols) (wRows * wCols * wChls)).bind (fun U =>
        (Gemm MatrixOrder.ColMaj MatrixOrder.ColMaj MatrixOrder.RowMaj
          (yRows * yCols) wCount (wRows * wCols * wChls) 1 U W 0 Y).map
          (fun Z => (Z, U))) ∧
    Convolution_RowMajorFilters_RowMajorOutput W X Y wCount wRows wCols wChls vStride
        yRows yCols space
      = (ChlMajInputUnroll X space wRows wCols wChls vStride yRows yCols
          (yRows * yCols) (wRows * wCols * wChls)).bind (fun U =>
        (Gemm MatrixOrder.ColMaj MatrixOrder.RowMaj MatrixOrder.RowMaj
          (yRows * yCols) wCount (wRows * wCols * wChls) 1 U W 0 Y).map
          (fun Z => (Z, U))) ∧
    Convolution_FilterMajorFilters_ChannelMajorOutput W X Y wCount wRows wCols wChls vStride
        yRows yCols space
      = (ChlMajInputUnroll X space wRows wCols wChls vStride yRows yCols
          (yRows * yCols) (wRows * wCols * wChls)).bind (fun U =>
        (Gemm MatrixOrder.ColMaj MatrixOrder.ColMaj MatrixOrder.ColMaj
          (yRows * yCols) wCount (wRows * wCols * wChls) 1 U W 0 Y).map
          (fun Z => (Z, U))) ∧
    Convolution_RowMajorFilters_ChannelMajorOutput W X Y wCount wRows wCols wChls vStride
        yRows yCols space
      = (ChlMajInputUnroll X space wRows wCols wChls vStride yRows yCols
          (yRows * yCols) (wRows * wCols * wChls)).bind (fun U =>
        (Gemm MatrixOrder.ColMaj MatrixOrder.RowMaj MatrixOrder.ColMaj
          (yRows * yCols) wCount (wRows * wCols * wChls) 1 U W 0 Y).map
          (fun Z => (Z, U))) := by
  refine ⟨?_, ?_, ?_, ?_⟩
  · cases h : ChlMajInputUnroll X space wRows wCols wChls vStride yRows yCols
        (yRows * yCols) (wRows * wCols * wChls) with
    | none => simp [Convolution_FilterMajorFilters_RowMajorOutput, h]
    | some U =>
      cases h2 : Gemm MatrixOrder.ColMaj MatrixOrder.ColMaj MatrixOrder.RowMaj
        (yRows * yCols) wCount (wRows * wCols * wChls) 1 U W 0 Y <;>
      simp [Convolution_FilterMajorFilters_RowMajorOutput, h, h2]
  · cases h : ChlMajInputUnroll X space wRows wCols wChls vStride yRows yCols
        (yRows * yCols) (wRows * wCols * wChls) with
    | none => simp [Convolution_RowMajorFilters_RowMajorOutput, h]
    | some U =>
      cases h2 : Gemm MatrixOrder.ColMaj MatrixOrder.RowMaj MatrixOrder.RowMaj
        (yRows * yCols) wCount (wRows * wCols * wChls) 1 U W 0 Y <;>
      simp [Convolution_RowMajorFilters_RowMajorOutput, h, h2]
  · cases h : ChlMajInputUnroll X space wRows wCols wChls vStride yRows yCols
        (yRows * yCols) (wRows * wCols * wChls) with
    | none => simp [Convolution_FilterMajorFilters_ChannelMajorOutput, h]
    | some U =>
      cases h2 : Gemm MatrixOrder.ColMaj MatrixOrder.ColMaj MatrixOrder.ColMaj
        (yRows * yCols) wCount (wRows * wCols * wChls) 1 U W 0 Y <;>
      simp [Convolution_FilterMajorFilters_ChannelMajorOutput, h, h2]
  · cases h : ChlMajInputUnroll X space wRows wCols wChls vStride yRows yCols
        (yRows * yCols) (wRows * wCols * wChls) with
    | none => simp [Convolution_RowMajorFilters_ChannelMajorOutput, h]
    | some U =>
      cases h2 : Gemm MatrixOrder.ColMaj MatrixOrder.RowMaj MatrixOrder.ColMaj
        (yRows * yCols) wCount (wRows * wCols * wChls) 1 U W 0 Y <;>
      simp [Convolution_RowMajorFilters_ChannelMajorOutput, h, h2]

/-! ## Sums of buffers -/

theorem length_addBuffers {α : Type} [Add α] (A B : List α) (h : A.length = B.length) :
    (addBuffers A B).length = A.length := by
  simp only [addBuffers, List.length_zipWith, h, Nat.min_self]

theorem getElem?_addBuffers {α : Type} [Add α] (A B : List α) (i : Nat) (a b : α)
    (ha : A[i]? = some a) (hb : B[i]? = some b) : (addBuffers A B)[i]? = some (a + b) := by
  simp only [addBuffers, List.getElem?_zipWith, ha, hb]

theorem getD_addBuffers {α : Type} [AddZeroClass α] (A B : List α)
    (h : A.length = B.length) (i : Nat) :
    (addBuffers A B).getD i 0 = A.getD i 0 + B.getD i 0 := by
  simp only [List.getD_eq_getElem?_getD]
  by_cases hi : i < A.length
  · have hi' : i < B.length := by omega
    rw [getElem?_addBuffers A B i A[i] B[i] (List.getElem?_eq_getElem hi)
      (List.getElem?_eq_getElem hi'), List.getElem?_eq_getElem hi,
      List.getElem?_eq_getElem hi']
    rfl
  · have h1 : A[i]? = none := List.getElem?_eq_none (by omega)
    have h2 : B[i]? = none := List.getElem?_eq_none (by omega)
    have h3 : (addBuffers A B)[i]? = none :=
      List.getElem?_eq_none (by rw [length_addBuffers A B h]; omega)
    rw [h1, h2, h3]
    simp only [Option.getD_none, add_zero]

theorem getD_replicate_zero {α : Type} [Zero α] (n i : Nat) :
    (List.replicate n (0 : α)).getD i 0 = 0 := by
  simp only [List.getD_eq_getElem?_getD, List.getElem?_replicate]
  split <;> rfl

theorem convEntry_add_input {α : Type} [CommRing α] (g : Geometry) (wCount : Nat)
    (oB : MatrixOrder) (W X1 X2 : List α) (h : X1.length = X2.length) (r f : Nat) :
    convEntry g wCount oB W (addBuffers X1 X2) r f
      = convEntry g wCount oB W X1 r f + convEntry g wCount oB W X2 r f := by
  simp only [convEntry, getD_addBuffers X1 X2 h, add_mul, Finset.sum_add_distrib]

theorem convEntry_add_weights {α : Type} [CommRing α] (g : Geometry) (wCount : Nat)
    (oB : MatrixOrder) (W1 W2 X : List α) (h : W1.length = W2.length) (r f : Nat) :
    convEntry g wCount oB (addBuffers W1 W2) X r f
      = convEntry g wCount oB W1 X r f + convEntry g wCount oB W2 X r f := by
  simp only [convEntry, getD_addBuffers W1 W2 h, mul_add, Finset.sum_add_distrib]

theorem convEntry_zero_input {α : Type} [CommRing α] (g : Geometry) (wCount : Nat)
    (oB : MatrixOrder) (W : List α) (n r f : Nat) :
    convEntry g wCount oB W (List.replicate n 0) r f = 0 := by
  simp only [convEntry, getD_replicate_zero, zero_mul, Finset.sum_const_zero]

/-- A convolution on buffers of the documented sizes is additive in the input,
additive in the filters and sends the zero input to zero. -/
theorem convolutionWith_bilinear {α : Type} [CommRing α] (g : Geometry) (wCount : Nat)
    (oB oC : MatrixOrder) (W W1 W2 X X1 X2 Y12 Y1 Y2 S12 S1 S2 : List α)
    (hW : W.length = g.uCols * wCount) (hW1 : W1.length = g.uCols * wCount)
    (hW2 : W2.length = g.uCols * wCount)
    (hX : X.length = g.wChls * g.xRows * g.xCols)
    (hX1 : X1.length = g.wChls * g.xRows * g.xCols)
    (hX2 : X2.length = g.wChls * g.xRows * g.xCols)
    (hY12 : g.uRows * wCount ≤ Y12.length) (hY1 : g.uRows * wCount ≤ Y1.length)
    (hY2 : g.uRows * wCount ≤ Y2.length)
    (hS12 : g.uRows * g.uCols ≤ S12.length) (hS1 : g.uRows * g.uCols ≤ S1.length)
    (hS2 : g.uRows * g.uCols ≤ S2.length) :
    BilinearOn (g.uRows * wCount) (g.wChls * g.xRows * g.xCols)
      (fun W X Y space => convolutionWith oB oC W X Y wCount g.wRows g.wCols g.wChls
        g.vStride g.yRows g.yCols space)
      W W1 W2 X X1 X2 Y12 Y1 Y2 S12 S1 S2 := by
  have hXX : (addBuffers X1 X2).length = g.wChls * g.xRows * g.xCols := by
    rw [length_addBuffers X1 X2 (hX1.trans hX2.symm), hX1]
  have hWW : (addBuffers W1 W2).length = g.uCols * wCount := by
    rw [length_addBuffers W1 W2 (hW1.trans hW2.symm), hW1]
  refine ⟨?_, ?_, ?_⟩
  · obtain ⟨Z12, U12, e12, _, g12⟩ := convolutionWith_output g wCount oB oC W
      (addBuffers X1 X2) Y12 S12 (Nat.le_of_eq hW.symm) (Nat.le_of_eq hXX.symm) hY12 hS12
    obtain ⟨Z1, U1, e1, _, g1⟩ := convolutionWith_output g wCount oB oC W X1 Y1 S1
      (Nat.le_of_eq hW.symm) (Nat.le_of_eq hX1.symm) hY1 hS1
    obtain ⟨Z2, U2, e2, _, g2⟩ := convolutionWith_output g wCount oB oC W X2 Y2 S2
      (Nat.le_of_eq hW.symm) (Nat.le_of_eq hX2.symm) hY2 hS2
    refine ⟨Z12, U12, Z1, U1, Z2, U2, e12, e1, e2, fun p hp => ⟨_, _, g1 p hp, g2 p hp, ?_⟩⟩
    rw [g12 p hp, convEntry_add_input g wCount oB W X1 X2 (hX1.trans hX2.symm)]
  · obtain ⟨Z12, U12, e12, _, g12⟩ := convolutionWith_output g wCount oB oC
      (addBuffers W1 W2) X Y12 S12 (Nat.le_of_eq hWW.symm) (Nat.le_of_eq hX.symm) hY12 hS12
    obtain ⟨Z1, U1, e1, _, g1⟩ := convolutionWith_output g wCount oB oC W1 X Y1 S1
      (Nat.le_of_eq hW1.symm) (Nat.le_of_eq hX.symm) hY1 hS1
    obtain ⟨Z2, U2, e2, _, g2⟩ := convolutionWith_output g wCount oB oC W2 X Y2 S2
      (Nat.le_of_eq hW2.symm) (Nat.le_of_eq hX.symm) hY2 hS2
    refine ⟨Z12, U12, Z1, U1, Z2, U2, e12, e1, e2, fun p hp => ⟨_, _, g1 p hp, g2 p hp, ?_⟩⟩
    rw [g12 p hp, convEntry_add_weights g wCount oB W1 W2 X (hW1.trans hW2.symm)]
  · obtain ⟨Z, U', e, _, gz⟩ := convolutionWith_output g wCount oB oC W
      (List.replicate (g.wChls * g.xRows * g.xCols) 0) Y12 S12 (Nat.le_of_eq hW.symm)
      (by rw [List.length_replicate]) hY12 hS12
    refine ⟨Z, U', e, fun p hp => ?_⟩
    rw [gz p hp, convEntry_zero_input]

/-- The transform commutes with the elementwise sum of inputs on the first
`uRows * uCols` positions of `U`. -/
theorem ChlMajInputUnroll_add {α : Type} [Add α] (g : Geometry) (X1 X2 S12 S1 S2 : List α)
    (hX1 : X1.length = g.wChls * g.xRows * g.xCols)
    (hX2 : X2.length = g.wChls * g.xRows * g.xCols)
    (hS12 : g.uRows * g.uCols ≤ S12.length) (hS1 : g.uRows * g.uCols ≤ S1.length)
    (hS2 : g.uRows * g.uCols ≤ S2.length) :
    ∃ U12 U1 U2,
      ChlMajInputUnroll (addBuffers X1 X2) S12 g.wRows g.wCols g.wChls g.vStride g.yRows
          g.yCols ((g.yRows : Int) * g.yCols) ((g.wRows : Int) * g.wCols * g.wChls)
        = some U12 ∧
      ChlMajInputUnroll X1 S1 g.wRows g.wCols g.wChls g.vStride g.yRows
          g.yCols ((g.yRows : Int) * g.yCols) ((g.wRows : Int) * g.wCols * g.wChls)
        = some U1 ∧
      ChlMajInputUnroll X2 S2 g.wRows g.wCols g.wChls g.vStride g.yRows
          g.yCols ((g.yRows : Int) * g.yCols) ((g.wRows : Int) * g.wCols * g.wChls)
        = some U2 ∧
      ∀ p, p < g.uRows * g.uCols →
        ∃ a b, U1[p]? = some a ∧ U2[p]? = some b ∧ U12[p]? = some (a + b) := by
  have hXX : (addBuffers X1 X2).length = g.wChls * g.xRows * g.xCols := by
    rw [length_addBuffers X1 X2 (hX1.trans hX2.symm), hX1]
  obtain ⟨U12, e12, _, g12⟩ := ChlMajInputUnroll_called (addBuffers X1 X2) S12 g
    (Nat.le_of_eq hXX.symm) hS12
  obtain ⟨U1, e1, _, g1⟩ := ChlMajInputUnroll_called X1 S1 g (Nat.le_of_eq hX1.symm) hS1
  obtain ⟨U2, e2, _, g2⟩ := ChlMajInputUnroll_called X2 S2 g (Nat.le_of_eq hX2.symm) hS2
  refine ⟨U12, U1, U2, e12, e1, e2, fun p hp => ?_⟩
  have hs := g.sourceOf_lt p hp
  have h1 : g.sourceOf p < X1.length := by omega
  have h2 : g.sourceOf p < X2.length := by omega
  refine ⟨X1[g.sourceOf p], X2[g.sourceOf p], ?_, ?_, ?_⟩
  · rw [g1 p, if_pos hp, List.getElem?_eq_getElem h1]
  · rw [g2 p, if_pos hp, List.getElem?_eq_getElem h2]
  · rw [g12 p, if_pos hp]
    exact getElem?_addBuffers X1 X2 _ _ _ (List.getElem?_eq_getElem h1)
      (List.getElem?_eq_getElem h2)

/-- C16: bilinearity.  With `Gemm` the exact product over a commutative ring and
buffers of the documented sizes, each of the four `Convolution` variants is
additive in the input, `Convolution(W, X1 + X2) = Convolution(W, X1) +
Convolution(W, X2)`, additive in the filters, `Convolution(W1 + W2, X) =
Convolution(W1, X) + Convolution(W2, X)`, and sends the zero input to zero,
`Convolution(W, 0) = 0`, elementwise on the `yRows*yCols*wCount` positions of `Y`;
and `ChlMajInputUnroll` commutes with the elementwise sum of inputs on the first
`uRows*uCols` positions of `U`. -/
theorem C16_bilinearity {α : Type} [CommRing α]
    (wCount wRows wCols wChls vStride yRows yCols : Nat)
    (W W1 W2 X X1 X2 Y12 Y1 Y2 S12 S1 S2 : List α)
    (hW : W.length = wCount * wRows * wCols * wChls)
    (hW1 : W1.length = wCount * wRows * wCols * wChls)
    (hW2 : W2.length = wCount * wRows * wCols * wChls)
    (hX : X.length = wChls * ((yRows - 1) * vStride + wRows) * (yCols + wCols - 1))
    (hX1 : X1.length = wChls * ((yRows - 1) * vStride + wRows) * (yCols + wCols - 1))
    (hX2 : X2.length = wChls * ((yRows - 1) * vStride + wRows) * (yCols + wCols - 1))
    (hY12 : Y12.length = yRows * yCols * wCount) (hY1 : Y1.length = yRows * yCols * wCount)
    (hY2 : Y2.length = yRows * yCols * wCount)
    (hS12 : wRows * wCols * wChls * yRows * yCols ≤ S12.length)
    (hS1 : wRows * wCols * wChls * yRows * yCols ≤ S1.length)
    (hS2 : wRows * wCols * wChls * yRows * yCols ≤ S2.length) :
    BilinearOn (yRows * yCols * wCount)
      (wChls * ((yRows - 1) * vStride + wRows) * (yCols + wCols - 1))
      (fun W X Y space => Convolution_FilterMajorFilters_RowMajorOutput W X Y wCount
        wRows wCols wChls vStride yRows yCols space)
      W W1 W2 X X1 X2 Y12 Y1 Y2 S12 S1 S2 ∧
    BilinearOn (yRows * yCols * wCount)
      (wChls * ((yRows - 1) * vStride + wRows) * (yCols + wCols - 1))
      (fun W X Y space => Convolution_RowMajorFilters_RowMajorOutput W X Y wCount
        wRows wCols wChls vStride yRows yCols space)
      W W1 W2 X X1 X2 Y12 Y1 Y2 S12 S1 S2 ∧
    BilinearOn (yRows * yCols * wCount)
      (wChls * ((yRows - 1) * vStride + wRows) * (yCols + wCols - 1))
      (fun W X Y space => Convolution_FilterMajorFilters_ChannelMajorOutput W X Y wCount
        wRows wCols wChls vStride yRows yCols space)
      W W1 W2 X X1 X2 Y12 Y1 Y2 S12 S1 S2 ∧
    BilinearOn (yRows * yCols * wCount)
      (wChls * ((yRows - 1) * vStride + wRows) * (yCols + wCols - 1))
      (fun W X Y space => Convolution_RowMajorFilters_ChannelMajorOutput W X Y wCount
        wRows wCols wChls vStride yRows yCols space)
      W W1 W2 X X1 X2 Y12 Y1 Y2 S12 S1 S2 ∧
    ∃ U12 U1 U2,
      ChlMajInputUnroll (addBuffers X1 X2) S12 wRows wCols wChls vStride yRows yCols
          ((yRows : Int) * yCols) ((wRows : Int) * wCols * wChls) = some U12 ∧
      ChlMajInputUnroll X1 S1 wRows wCols wChls vStride yRows yCols
          ((yRows : Int) * yCols) ((wRows : Int) * wCols * wChls) = some U1 ∧
      ChlMajInputUnroll X2 S2 wRows wCols wChls vStride yRows yCols
          ((yRows : Int) * yCols) ((wRows : Int) * wCols * wChls) = some U2 ∧
      ∀ p, p < yRows * yCols * (wRows * wCols * wChls) →
        ∃ a b, U1[p]? = some a ∧ U2[p]? = some b ∧ U12[p]? = some (a + b) := by
  have hu : (Geometry.mk wRows wCols wChls vStride yRows yCols).uCols * wCount
      = wCount * wRows * wCols * wChls := by
    simp only [Geometry.uCols]; ring
  have hs : (Geometry.mk wRows wCols wChls vStride yRows yCols).uRows
      * (Geometry.mk wRows wCols wChls vStride yRows yCols).uCols
      = wRows * wCols * wChls * yRows * yCols := by
    simp only [Geometry.uRows, Geometry.uCols]; ring
  have key := fun oB oC => convolutionWith_bilinear
    (Geometry.mk wRows wCols wChls vStride yRows yCols) wCount oB oC
    W W1 W2 X X1 X2 Y12 Y1 Y2 S12 S1 S2
    (hW.trans hu.symm) (hW1.trans hu.symm) (hW2.trans hu.symm) hX hX1 hX2
    (Nat.le_of_eq hY12.symm) (Nat.le_of_eq hY1.symm) (Nat.le_of_eq hY2.symm)
    (by omega) (by omega) (by omega)
  exact ⟨key MatrixOrder.ColMaj MatrixOrder.RowMaj, key MatrixOrder.RowMaj MatrixOrder.RowMaj,
    key MatrixOrder.ColMaj MatrixOrder.ColMaj, key MatrixOrder.RowMaj MatrixOrder.ColMaj,
    ChlMajInputUnroll_add (Geometry.mk wRows wCols wChls vStride yRows yCols)
      X1 X2 S12 S1 S2 hX1 hX2 (by omega) (by omega) (by omega)⟩

/-- C16, on the concrete scenario: the input `0..8` plus its reverse, and the two
filters plus the filters `[0,1,0,0]`, `[0,0,0,2]`. -/
theorem C16_bilinearity_witness :
    BilinearOn (2 * 2 * 2) (1 * ((2 - 1) * 1 + 2) * (2 + 2 - 1))
      (fun W X Y space => Convolution_FilterMajorFilters_RowMajorOutput W X Y (2 : Nat)
        (2 : Nat) (2 : Nat) (1 : Nat) (1 : Nat) (2 : Nat) (2 : Nat) space)
      ([1, 1, 1, 1, 1, 0, 0, 0] : List Int) [1, 1, 1, 1, 1, 0, 0, 0] [0, 1, 0, 0, 0, 0, 0, 2]
      [0, 1, 2, 3, 4, 5, 6, 7, 8] [0, 1, 2, 3, 4, 5, 6, 7, 8] [8, 7, 6, 5, 4, 3, 2, 1, 0]
      (List.replicate 8 (-1)) (List.replicate 8 (-2)) (List.replicate 8 (-3))
      (List.replicate 16 (-1)) (List.replicate 17 (-2)) (List.replicate 18 (-3)) :=
  (C16_bilinearity 2 2 2 1 1 2 2
    [1, 1, 1, 1, 1, 0, 0, 0] [1, 1, 1, 1, 1, 0, 0, 0] [0, 1, 0, 0, 0, 0, 0, 2]
    [0, 1, 2, 3, 4, 5, 6, 7, 8] [0, 1, 2, 3, 4, 5, 6, 7, 8] [8, 7, 6, 5, 4, 3, 2, 1, 0]
    (List.replicate 8 (-1)) (List.replicate 8 (-2)) (List.replicate 8 (-3))
    (List.replicate 16 (-1)) (List.replicate 17 (-2)) (List.replicate 18 (-3))
    (by decide) (by decide) (by decide) (by decide) (by decide) (by decide)
    (by decide) (by decide) (by decide) (by decide) (by decide) (by decide)).1

/-! ## Offsets of the input read by the transform -/

theorem encode_inj (a b c d n : Nat) (hb : b < n) (hd : d < n)
    (h : a * n + b = c * n + d) : a = c ∧ b = d := by
  have h1 := encode_div a b n hb
  have h2 := encode_div c d n hd
  have h3 := encode_mod a b n hb
  have h4 := encode_mod c d n hd
  rw [h] at h1 h3
  exact ⟨h1.symm.trans h2, h3.symm.trans h4⟩

/-- The input row read by an iteration has a remainder below `wRows` modulo the
stride. -/
theorem row_mod_lt (vStride wRows yRow wRow : Nat) (h : wRow < wRows) :
    (yRow * vStride + wRow) % vStride < wRows := by
  rw [Nat.add_comm, Nat.add_mul_mod_self_right]
  exact Nat.lt_of_le_of_lt (Nat.mod_le _ _) h

theorem Geometry.row_lt (g : Geometry) (it : Iteration) (h : g.InRange it) :
    it.yRow * g.vStride + it.wRow < g.xRows := by
  obtain ⟨h1, _, _, h4⟩ := h
  have : it.yRow * g.vStride ≤ (g.yRows - 1) * g.vStride :=
    Nat.mul_le_mul_right _ (by omega)
  simp only [Geometry.xRows]
  omega

theorem Geometry.col_lt (g : Geometry) (it : Iteration) (h : g.InRange it) (yCol : Nat)
    (hc : yCol < g.yCols) : it.wCol + yCol < g.xCols := by
  obtain ⟨_, h2, _, _⟩ := h
  simp only [Geometry.xCols]
  omega

/-- The offset read at position `yCol` of the copy of an iteration, by channel,
row and column. -/
theorem Geometry.source_add (g : Geometry) (it : Iteration) (yCol : Nat) :
    g.source it + yCol
      = (it.wChl * g.xRows + (it.yRow * g.vStride + it.wRow)) * g.xCols
        + (it.wCol + yCol) := by
  simp only [Geometry.source]; omega

/-- A row whose remainder modulo the stride is at least `wRows` is read by no
copy. -/
theorem Geometry.never_read (g : Geometry) (it : Iteration) (hr : g.InRange it) (yCol : Nat)
    (hc : yCol < g.yCols) (c r col : Nat) (hrow : r < g.xRows) (hcol : col < g.xCols)
    (hmod : g.wRows ≤ r % g.vStride) :
    g.source it + yCol ≠ (c * g.xRows + r) * g.xCols + col := by
  intro heq
  rw [g.source_add it yCol] at heq
  obtain ⟨e1, _⟩ := encode_inj _ _ _ _ _ (g.col_lt it hr yCol hc) hcol heq
  obtain ⟨_, e2⟩ := encode_inj _ _ _ _ _ (g.row_lt it hr) hrow e1
  have := row_mod_lt g.vStride g.wRows it.yRow it.wRow hr.1
  rw [e2] at this
  omega

theorem exists_cols (wCols yCols col : Nat) (hw : 1 ≤ wCols) (hy : 1 ≤ yCols)
    (h : col < yCols + wCols - 1) :
    ∃ wCol yCol, wCol < wCols ∧ yCol < yCols ∧ wCol + yCol = col := by
  by_cases hc : col < wCols
  · exact ⟨col, 0, hc, by omega, by omega⟩
  · exact ⟨wCols - 1, col - (wCols - 1), by omega, by omega, by omega⟩

theorem exists_rows (wRows vStride yRows r : Nat) (hy : 1 ≤ yRows)
    (hcov : yRows = 1 ∨ vStride ≤ wRows) (h : r < (yRows - 1) * vStride + wRows) :
    ∃ yRow wRow, yRow < yRows ∧ wRow < wRows ∧ yRow * vStride + wRow = r := by
  by_cases hlow : r < (yRows - 1) * vStride
  · have hv : 0 < vStride := by
      rcases Nat.eq_zero_or_pos vStride with h0 | h0
      · rw [h0] at hlow; simp at hlow
      · exact h0
    have hq : r / vStride < yRows - 1 := (Nat.div_lt_iff_lt_mul hv).mpr hlow
    have hm : r % vStride < vStride := Nat.mod_lt _ hv
    rcases hcov with h1 | h1
    · rw [h1] at hlow
      simp at hlow
    · exact ⟨r / vStride, r % vStride, by omega, by omega, Nat.div_add_mod' r vStride⟩
  · exact ⟨yRows - 1, r - (yRows - 1) * vStride, by omega, by omega, by omega⟩

/-- When `yRows = 1` or the stride is at most `wRows`, every offset of the input is
read by some copy. -/
theorem Geometry.covered (g : Geometry) (h1 : 1 ≤ g.wRows) (h2 : 1 ≤ g.wCols)
    (h4 : 1 ≤ g.yRows) (h5 : 1 ≤ g.yCols)
    (hcov : g.yRows = 1 ∨ g.vStride ≤ g.wRows) (off : Nat)
    (hoff : off < g.wChls * g.xRows * g.xCols) :
    ∃ it yCol, g.InRange it ∧ yCol < g.yCols ∧ g.source it + yCol = off := by
  have hxc : 0 < g.xCols := by simp only [Geometry.xCols]; omega
  have hxr : 0 < g.xRows := by simp only [Geometry.xRows]; omega
  have ht : off / g.xCols < g.wChls * g.xRows := (Nat.div_lt_iff_lt_mul hxc).mpr hoff
  have hc : off / g.xCols / g.xRows < g.wChls := (Nat.div_lt_iff_lt_mul hxr).mpr ht
  obtain ⟨wCol, yCol, c1, c2, c3⟩ := exists_cols g.wCols g.yCols (off % g.xCols) h2 h5
    (Nat.mod_lt _ hxc)
  obtain ⟨yRow, wRow, r1, r2, r3⟩ := exists_rows g.wRows g.vStride g.yRows
    (off / g.xCols % g.xRows) h4 hcov (Nat.mod_lt _ hxr)
  refine ⟨⟨wRow, wCol, off / g.xCols / g.xRows, yRow⟩, yCol, ⟨r2, c1, hc, r1⟩, c2, ?_⟩
  rw [g.source_add]
  simp only [r3, c3, Nat.div_add_mod']

/-- When `2 ≤ yRows` and the stride exceeds `wRows`, row `wRows` of channel 0 is an
input row that no copy reads. -/
theorem Geometry.not_covered (g : Geometry) (h2 : 1 ≤ g.wCols) (h3 : 1 ≤ g.wChls)
    (h5 : 1 ≤ g.yCols) (hy : 2 ≤ g.yRows) (hv : g.wRows < g.vStride) :
    g.wRows * g.xCols < g.wChls * g.xRows * g.xCols ∧ g.wRows < g.xRows ∧ 0 < g.xCols ∧
      g.wRows ≤ g.wRows % g.vStride := by
  have hxc : 0 < g.xCols := by simp only [Geometry.xCols]; omega
  have hxr : g.wRows < g.xRows := by
    have : 1 * g.vStride ≤ (g.yRows - 1) * g.vStride := Nat.mul_le_mul_right _ (by omega)
    simp only [Geometry.xRows]
    omega
  refine ⟨?_, hxr, hxc, by rw [Nat.mod_eq_of_lt hv]⟩
  have e1 : g.wRows * g.xCols < g.xRows * g.xCols := Nat.mul_lt_mul_of_pos_right hxr hxc
  have e2 : 1 * (g.xRows * g.xCols) ≤ g.wChls * (g.xRows * g.xCols) :=
    Nat.mul_le_mul_right _ h3
  have e3 : g.wChls * g.xRows * g.xCols = g.wChls * (g.xRows * g.xCols) := Nat.mul_assoc _ _ _
  omega

/-- On natural-number dimensions, `ReadsOffset` speaks of the natural-number
offsets `source + yCol`. -/
theorem readsOffset_iff (g : Geometry) (off : Nat) :
    ReadsOffset g.wRows g.wCols g.wChls g.vStride g.yRows g.yCols off ↔
      ∃ it yCol, g.InRange it ∧ yCol < g.yCols ∧ g.source it + yCol = off := by
  constructor
  · rintro ⟨wRow, wCol, wChl, yRow, yCol, a1, a2, a3, a4, a5, a6⟩
    have hr : g.InRange ⟨wRow, wCol, wChl, yRow⟩ :=
      ⟨by exact_mod_cast a1, by exact_mod_cast a2, by exact_mod_cast a3,
        by exact_mod_cast a4⟩
    have e := copySource_natCast g ⟨wRow, wCol, wChl, yRow⟩ hr.2.2.2 hr.2.1
    simp only at e
    rw [e] at a6
    exact ⟨⟨wRow, wCol, wChl, yRow⟩, yCol, hr, by exact_mod_cast a5, by exact_mod_cast a6⟩
  · rintro ⟨it, yCol, hr, hc, he⟩
    refine ⟨it.wRow, it.wCol, it.wChl, it.yRow, yCol, by exact_mod_cast hr.1,
      by exact_mod_cast hr.2.1, by exact_mod_cast hr.2.2.1, by exact_mod_cast hr.2.2.2,
      by exact_mod_cast hc, ?_⟩
    rw [copySource_natCast g it hr.2.2.2 hr.2.1]
    exact_mod_cast he

/-- Two inputs of the documented length that agree on the rows whose remainder
modulo the stride is below `wRows` are unrolled to the same buffer. -/
theorem ChlMajInputUnroll_congr_input {α : Type} (g : Geometry) (X1 X2 space : List α)
    (hX1 : X1.length = g.wChls * g.xRows * g.xCols)
    (hX2 : X2.length = g.wChls * g.xRows * g.xCols)
    (hS : g.uRows * g.uCols ≤ space.length)
    (hagree : ∀ c, c < g.wChls → ∀ r, r < g.xRows → ∀ col, col < g.xCols →
      r % g.vStride < g.wRows →
      X1[(c * g.xRows + r) * g.xCols + col]? = X2[(c * g.xRows + r) * g.xCols + col]?) :
    ChlMajInputUnroll X1 space g.wRows g.wCols g.wChls g.vStride g.yRows g.yCols
        ((g.yRows : Int) * g.yCols) ((g.wRows : Int) * g.wCols * g.wChls)
      = ChlMajInputUnroll X2 space g.wRows g.wCols g.wChls g.vStride g.yRows g.yCols
        ((g.yRows : Int) * g.yCols) ((g.wRows : Int) * g.wCols * g.wChls) := by
  obtain ⟨U1, e1, _, g1⟩ := ChlMajInputUnroll_called X1 space g (Nat.le_of_eq hX1.symm) hS
  obtain ⟨U2, e2, _, g2⟩ := ChlMajInputUnroll_called X2 space g (Nat.le_of_eq hX2.symm) hS
  rw [e1, e2]
  congr 1
  apply List.ext_getElem?
  intro p
  rw [g1 p, g2 p]
  by_cases hp : p < g.uRows * g.uCols
  · rw [if_pos hp, if_pos hp]
    have hr := g.inRange_iterationOf p hp
    have hc := Nat.mod_lt p (g.yCols_pos_of_lt p hp)
    unfold Geometry.sourceOf
    rw [g.source_add]
    exact hagree _ hr.2.2.1 _ (g.row_lt _ hr) _ (g.col_lt _ hr _ hc)
      (row_mod_lt g.vStride g.wRows _ _ hr.1)
  · rw [if_neg hp, if_neg hp]

/-- A convolution gives the same result, and succeeds, on two such inputs. -/
theorem convolutionWith_congr_input {α : Type} [CommRing α] (g : Geometry) (wCount : Nat)
    (oB oC : MatrixOrder) (W X1 X2 Y space : List α)
    (hW : g.uCols * wCount ≤ W.length)
    (hX1 : X1.length = g.wChls * g.xRows * g.xCols)
    (hX2 : X2.length = g.wChls * g.xRows * g.xCols)
    (hY : g.uRows * wCount ≤ Y.length) (hS : g.uRows * g.uCols ≤ space.length)
    (hagree : ∀ c, c < g.wChls → ∀ r, r < g.xRows → ∀ col, col < g.xCols →
      r % g.vStride < g.wRows →
      X1[(c * g.xRows + r) * g.xCols + col]? = X2[(c * g.xRows + r) * g.xCols + col]?) :
    convolutionWith oB oC W X1 Y wCount g.wRows g.wCols g.wChls g.vStride g.yRows
        g.yCols space
      = convolutionWith oB oC W X2 Y wCount g.wRows g.wCols g.wChls g.vStride g.yRows
        g.yCols space ∧
    (convolutionWith oB oC W X1 Y wCount g.wRows g.wCols g.wChls g.vStride g.yRows
        g.yCols space).isSome = true := by
  obtain ⟨Z, U', hZ, _⟩ := convolutionWith_result g wCount oB oC W X1 Y space hW
    (Nat.le_of_eq hX1.symm) hY hS
  refine ⟨?_, by rw [hZ]; rfl⟩
  simp only [convolutionWith, ChlMajInputUnroll_congr_input g X1 X2 space hX1 hX2 hS hagree]

/-- C14: input coverage.  For dimensions at least 1 and a stride at least 0, every
offset of `X` below `wChls*xRows*xCols` is read by some copy of
`ChlMajInputUnroll` if and only if `yRows = 1` or `vStride ≤ wRows`; an input row
`r` with `r mod vStride ≥ wRows` (there are such rows when `yRows ≥ 2` and
`vStride > wRows`) is read by no copy; and the result of each of the four
`Convolution` variants does not depend on those rows: two inputs that agree on
the other rows give the same result. -/
theorem C14_input_coverage {α : Type} [CommRing α]
    (wCount wRows wCols wChls vStride yRows yCols : Nat)
    (h1 : 1 ≤ wRows) (h2 : 1 ≤ wCols) (h3 : 1 ≤ wChls) (h4 : 1 ≤ yRows) (h5 : 1 ≤ yCols)
    (W X1 X2 Y space : List α)
    (hW : W.length = wCount * wRows * wCols * wChls)
    (hX1 : X1.length = wChls * ((yRows - 1) * vStride + wRows) * (yCols + wCols - 1))
    (hX2 : X2.length = wChls * ((yRows - 1) * vStride + wRows) * (yCols + wCols - 1))
    (hY : Y.length = yRows * yCols * wCount)
    (hS : wRows * wCols * wChls * yRows * yCols ≤ space.length)
    (hagree : ∀ c, c < wChls → ∀ r, r < (yRows - 1) * vStride + wRows →
      ∀ col, col < yCols + wCols - 1 → r % vStride < wRows →
      X1[(c * ((yRows - 1) * vStride + wRows) + r) * (yCols + wCols - 1) + col]?
        = X2[(c * ((yRows - 1) * vStride + wRows) + r) * (yCols + wCols - 1) + col]?) :
    ((∀ off : Nat, off < wChls * ((yRows - 1) * vStride + wRows) * (yCols + wCols - 1) →
        ReadsOffset wRows wCols wChls vStride yRows yCols off) ↔
      (yRows = 1 ∨ vStride ≤ wRows)) ∧
    (∀ c r col : Nat, c < wChls → r < (yRows - 1) * vStride + wRows →
      col < yCols + wCols - 1 → wRows ≤ r % vStride →
      ¬ ReadsOffset wRows wCols wChls vStride yRows yCols
        (((c * ((yRows - 1) * vStride + wRows) + r) * (yCols + wCols - 1) + col : Nat) : Int)) ∧
    (2 ≤ yRows → wRows < vStride →
      ∃ r, r < (yRows - 1) * vStride + wRows ∧ wRows ≤ r % vStride) ∧
    (Convolution_FilterMajorFilters_RowMajorOutput W X1 Y wCount wRows wCols wChls
          vStride yRows yCols space
        = Convolution_FilterMajorFilters_RowMajorOutput W X2 Y wCount wRows wCols wChls
          vStride yRows yCols space ∧
      (Convolution_FilterMajorFilters_RowMajorOutput W X1 Y wCount wRows wCols wChls
          vStride yRows yCols space).isSome = true) ∧
    (Convolution_RowMajorFilters_RowMajorOutput W X1 Y wCount wRows wCols wChls
          vStride yRows yCols space
        = Convolution_RowMajorFilters_RowMajorOutput W X2 Y wCount wRows wCols wChls
          vStride yRows yCols space ∧
      (Convolution_RowMajorFilters_RowMajorOutput W X1 Y wCount wRows wCols wChls
          vStride yRows yCols space).isSome = true) ∧
    (Convolution_FilterMajorFilters_ChannelMajorOutput W X1 Y wCount wRows wCols wChls
          vStride yRows yCols space
        = Convolution_FilterMajorFilters_ChannelMajorOutput W X2 Y wCount wRows wCols wChls
          vStride yRows yCols space ∧
      (Convolution_FilterMajorFilters_ChannelMajorOutput W X1 Y wCount wRows wCols wChls
          vStride yRows yCols space).isSome = true) ∧
    (Convolution_RowMajorFilters_ChannelMajorOutput W X1 Y wCount wRows wCols wChls
          vStride yRows yCols space
        = Convolution_RowMajorFilters_ChannelMajorOutput W X2 Y wCount wRows wCols wChls
          vStride yRows yCols space ∧
      (Convolution_RowMajorFilters_ChannelMajorOutput W X1 Y wCount wRows wCols wChls
          vStride yRows yCols space).isSome = true) := by
  have hu : (Geometry.mk wRows wCols wChls vStride yRows yCols).uCols * wCount
      = wCount * wRows * wCols * wChls := by
    simp only [Geometry.uCols]; ring
  have hs : (Geometry.mk wRows wCols wChls vStride yRows yCols).uRows
      * (Geometry.mk wRows wCols wChls vStride yRows yCols).uCols
      = wRows * wCols * wChls * yRows * yCols := by
    simp only [Geometry.uRows, Geometry.uCols]; ring
  have key := fun oB oC => convolutionWith_congr_input
    (Geometry.mk wRows wCols wChls vStride yRows yCols) wCount oB oC W X1 X2 Y space
    (by omega) hX1 hX2 (Nat.le_of_eq hY.symm) (by omega) hagree
  have hnever : ∀ c r col : Nat, c < wChls → r < (yRows - 1) * vStride + wRows →
      col < yCols + wCols - 1 → wRows ≤ r % vStride →
      ¬ ReadsOffset wRows wCols wChls vStride yRows yCols
        (((c * ((yRows - 1) * vStride + wRows) + r) * (yCols + wCols - 1) + col : Nat) :
          Int) := by
    intro c r col _ hr hcol hmod hread
    obtain ⟨it, yCol, hin, hc, he⟩ :=
      (readsOffset_iff (Geometry.mk wRows wCols wChls vStride yRows yCols) _).mp hread
    exact Geometry.never_read (Geometry.mk wRows wCols wChls vStride yRows yCols) it hin
      yCol hc c r col hr hcol hmod he
  refine ⟨⟨?_, ?_⟩, hnever, ?_, key MatrixOrder.ColMaj MatrixOrder.RowMaj,
    key MatrixOrder.RowMaj MatrixOrder.RowMaj, key MatrixOrder.ColMaj MatrixOrder.ColMaj,
    key MatrixOrder.RowMaj MatrixOrder.ColMaj⟩
  · intro hall
    by_contra hno
    have hy : 2 ≤ yRows := by omega
    have hv : wRows < vStride := by omega
    obtain ⟨q1, q2, q3, q4⟩ := Geometry.not_covered
      (Geometry.mk wRows wCols wChls vStride yRows yCols) h2 h3 h5 hy hv
    have hread := hall (wRows * (yCols + wCols - 1)) q1
    have e : wRows * (yCols + wCols - 1)
        = (0 * ((yRows - 1) * vStride + wRows) + wRows) * (yCols + wCols - 1) + 0 := by
      simp only [Nat.zero_mul, Nat.zero_add, Nat.add_zero]
    rw [e] at hread
    exact hnever 0 wRows 0 h3 q2 q3 q4 hread
  · intro hcov off hoff
    apply (readsOffset_iff (Geometry.mk wRows wCols wChls vStride yRows yCols) off).mpr
    exact Geometry.covered (Geometry.mk wRows wCols wChls vStride yRows yCols)
      h1 h2 h4 h5 hcov off hoff
  · intro hy hv
    obtain ⟨_, q2, _, q4⟩ := Geometry.not_covered
      (Geometry.mk wRows wCols wChls vStride yRows yCols) h2 h3 h5 hy hv
    exact ⟨wRows, q2, q4⟩

/-- C14, with a 1×1 filter, stride 2 and a 2×1 output: the input has three rows,
the middle one is not read, and the inputs `[1,2,3]` and `[1,9,3]` give the same
result. -/
theorem C14_input_coverage_witness :
    (¬ ReadsOffset (1 : Nat) (1 : Nat) (1 : Nat) (2 : Nat) (2 : Nat) (1 : Nat)
        (((0 * ((2 - 1) * 2 + 1) + 1) * (1 + 1 - 1) + 0 : Nat) : Int)) ∧
    Convolution_FilterMajorFilters_RowMajorOutput ([5] : List Int) [1, 2, 3] [0, 0]
        (1 : Nat) (1 : Nat) (1 : Nat) (1 : Nat) (2 : Nat) (2 : Nat) (1 : Nat) [0, 0]
      = Convolution_FilterMajorFilters_RowMajorOutput ([5] : List Int) [1, 9, 3] [0, 0]
        (1 : Nat) (1 : Nat) (1 : Nat) (1 : Nat) (2 : Nat) (2 : Nat) (1 : Nat) [0, 0] :=
  ⟨(C14_input_coverage 1 1 1 1 2 2 1 (by decide) (by decide) (by decide) (by decide)
      (by decide) ([5] : List Int) [1, 2, 3] [1, 9, 3] [0, 0] [0, 0]
      (by decide) (by decide) (by decide) (by decide) (by decide) (by decide)).2.1
      0 1 0 (by decide) (by decide) (by decide) (by decide),
    (C14_input_coverage 1 1 1 1 2 2 1 (by decide) (by decide) (by decide) (by decide)
      (by decide) ([5] : List Int) [1, 2, 3] [1, 9, 3] [0, 0] [0, 0]
      (by decide) (by decide) (by decide) (by decide) (by decide) (by decide)).2.2.2.1.1⟩

/-! ## The index arithmetic in 32 bits -/

theorem wrap32_eq (e : Int) (h : InInt32 e) : wrap32 e = e := by
  obtain ⟨h1, h2⟩ := h
  unfold wrap32
  norm_num at h2 ⊢
  omega

theorem inInt32_natCast (n : Nat) (h : n < 2 ^ 31) : InInt32 (n : Int) :=
  ⟨Int.natCast_nonneg n, by exact_mod_cast h⟩

/-- Each dimension and each partial product is at most the size
`yRows*yCols*wRows*wCols*wChls` of the unrolled matrix. -/
theorem total_bounds (wRows wCols wChls yRows yCols : Nat)
    (h1 : 1 ≤ wRows) (h2 : 1 ≤ wCols) (h3 : 1 ≤ wChls) (h4 : 1 ≤ yRows) (h5 : 1 ≤ yCols) :
    yRows ≤ yRows * yCols * wRows * wCols * wChls ∧
    wRows ≤ yRows * yCols * wRows * wCols * wChls ∧
    wCols ≤ yRows * yCols * wRows * wCols * wChls ∧
    wChls ≤ yRows * yCols * wRows * wCols * wChls ∧
    yRows * yCols ≤ yRows * yCols * wRows * wCols * wChls ∧
    wRows * wCols ≤ yRows * yCols * wRows * wCols * wChls ∧
    wRows * wCols * wChls ≤ yRows * yCols * wRows * wCols * wChls ∧
    yRows * yCols * (wRows * wCols * wChls) = yRows * yCols * wRows * wCols * wChls := by
  have b1 : yRows ≤ yRows * yCols := Nat.le_mul_of_pos_right _ h5
  have b2 : yRows * yCols ≤ yRows * yCols * wRows := Nat.le_mul_of_pos_right _ h1
  have b3 : yRows * yCols * wRows ≤ yRows * yCols * wRows * wCols :=
    Nat.le_mul_of_pos_right _ h2
  have b4 : yRows * yCols * wRows * wCols ≤ yRows * yCols * wRows * wCols * wChls :=
    Nat.le_mul_of_pos_right _ h3
  have c1 : wRows ≤ yRows * yCols * wRows := Nat.le_mul_of_pos_left _ (by omega)
  have c2 : wCols ≤ yRows * yCols * wRows * wCols := Nat.le_mul_of_pos_left _ (by omega)
  have c3 : wChls ≤ yRows * yCols * wRows * wCols * wChls :=
    Nat.le_mul_of_pos_left _ (by omega)
  have e : yRows * yCols * (wRows * wCols * wChls)
      = yRows * yCols * wRows * wCols * wChls := by ring
  have d1 : wRows * wCols ≤ wRows * wCols * wChls := Nat.le_mul_of_pos_right _ h3
  have d2 : wRows * wCols * wChls ≤ yRows * yCols * (wRows * wCols * wChls) :=
    Nat.le_mul_of_pos_left _ (by omega)
  refine ⟨by omega, by omega, by omega, by omega, by omega, by omega, by omega, e⟩

theorem preambleIntermediates_inInt32 (wRows wCols wChls vStride yRows yCols : Nat)
    (h1 : 1 ≤ wRows) (h2 : 1 ≤ wCols) (h3 : 1 ≤ wChls) (h4 : 1 ≤ yRows) (h5 : 1 ≤ yCols)
    (hA : wChls * ((yRows - 1) * vStride + wRows) * (yCols + wCols - 1) < 2 ^ 31)
    (hT : yRows * yCols * wRows * wCols * wChls < 2 ^ 31)
    (hS : yCols + wCols < 2 ^ 31) :
    ∀ e ∈ preambleIntermediates wRows wCols vStride yRows yCols, InInt32 e := by
  have e1 : ((yRows - 1 : Nat) : Int) = (yRows : Int) - 1 := by omega
  have e2 : ((yCols + wCols - 1 : Nat) : Int) = (yCols : Int) + wCols - 1 := by omega
  have hxC : 1 ≤ yCols + wCols - 1 := by omega
  have hxR : 1 ≤ (yRows - 1) * vStride + wRows := by omega
  have a1 : wChls * ((yRows - 1) * vStride + wRows) * (yCols + wCols - 1)
      = wChls * (((yRows - 1) * vStride + wRows) * (yCols + wCols - 1)) := Nat.mul_assoc _ _ _
  have a2 : ((yRows - 1) * vStride + wRows) * (yCols + wCols - 1)
      ≤ wChls * (((yRows - 1) * vStride + wRows) * (yCols + wCols - 1)) :=
    Nat.le_mul_of_pos_left _ h3
  have a3 : (yRows - 1) * vStride + wRows
      ≤ ((yRows - 1) * vStride + wRows) * (yCols + wCols - 1) :=
    Nat.le_mul_of_pos_right _ hxC
  have a4 : yCols + wCols - 1
      ≤ ((yRows - 1) * vStride + wRows) * (yCols + wCols - 1) :=
    Nat.le_mul_of_pos_left _ hxR
  obtain ⟨t1, _⟩ := total_bounds wRows wCols wChls yRows yCols h1 h2 h3 h4 h5
  intro e he
  simp only [preambleIntermediates, List.mem_cons, List.mem_singleton, List.not_mem_nil,
    or_false] at he
  rcases he with rfl | rfl | rfl | rfl | rfl
  · have h := inInt32_natCast (yRows - 1) (by omega)
    rw [e1] at h; exact h
  · have h := inInt32_natCast ((yRows - 1) * vStride) (by omega)
    push_cast [e1] at h; exact h
  · have h := inInt32_natCast ((yRows - 1) * vStride + wRows) (by omega)
    push_cast [e1] at h; exact h
  · have h := inInt32_natCast (yCols + wCols) hS
    push_cast at h; exact h
  · have h := inInt32_natCast (yCols + wCols - 1) (by omega)
    rw [e2] at h; exact h

theorem convolutionIntermediates_inInt32 (wRows wCols wChls yRows yCols : Nat)
    (h1 : 1 ≤ wRows) (h2 : 1 ≤ wCols) (h3 : 1 ≤ wChls) (h4 : 1 ≤ yRows) (h5 : 1 ≤ yCols)
    (hT : yRows * yCols * wRows * wCols * wChls < 2 ^ 31) :
    ∀ e ∈ convolutionIntermediates wRows wCols wChls yRows yCols, InInt32 e := by
  obtain ⟨_, _, _, _, t5, t6, t7, _⟩ := total_bounds wRows wCols wChls yRows yCols
    h1 h2 h3 h4 h5
  intro e he
  simp only [convolutionIntermediates, List.mem_cons, List.mem_singleton, List.not_mem_nil,
    or_false] at he
  rcases he with rfl | rfl | rfl
  · have h := inInt32_natCast (yRows * yCols) (by omega)
    push_cast at h; exact h
  · have h := inInt32_natCast (wRows * wCols) (by omega)
    push_cast at h; exact h
  · have h := inInt32_natCast (wRows * wCols * wChls) (by omega)
    push_cast at h; exact h

theorem bodyIntermediates_inInt32 (wRows wCols wChls vStride yRows yCols : Nat)
    (h1 : 1 ≤ wRows) (h2 : 1 ≤ wCols) (h3 : 1 ≤ wChls) (h4 : 1 ≤ yRows) (h5 : 1 ≤ yCols)
    (hA : wChls * ((yRows - 1) * vStride + wRows) * (yCols + wCols - 1) < 2 ^ 31)
    (hT : yRows * yCols * wRows * wCols * wChls < 2 ^ 31)
    (wRow wCol wChl yRow : Nat) (r1 : wRow < wRows) (r2 : wCol < wCols) (r3 : wChl < wChls)
    (r4 : yRow < yRows) :
    ∀ e ∈ bodyIntermediates wRows wCols wChls vStride yRows yCols
        ((yRows : Int) * yCols) ((wRows : Int) * wCols * wChls) wRow wCol wChl yRow,
      InInt32 e := by
  have e1 : ((yRows - 1 : Nat) : Int) = (yRows : Int) - 1 := by omega
  have e2 : ((yCols + wCols - 1 : Nat) : Int) = (yCols : Int) + wCols - 1 := by omega
  have hxC : 1 ≤ yCols + wCols - 1 := by omega
  obtain ⟨t1, t2, t3, t4, _, _, _, t8⟩ := total_bounds wRows wCols wChls yRows yCols
    h1 h2 h3 h4 h5
  have hr : (Geometry.mk wRows wCols wChls vStride yRows yCols).InRange
      ⟨wRow, wCol, wChl, yRow⟩ := ⟨r1, r2, r3, r4⟩
  have hs := Geometry.source_add_le _ _ hr
  have ht := Geometry.target_add_le _ _ hr
  simp only [Geometry.source, Geometry.xRows, Geometry.xCols] at hs
  simp only [Geometry.target, Geometry.uCol, Geometry.uRows, Geometry.uCols] at ht
  have hAeq : ((yRows - 1) * vStride + wRows) * (yCols + wCols - 1) * wChls
      = wChls * ((yRows - 1) * vStride + wRows) * (yCols + wCols - 1) := by ring
  have m1 : wChl * ((yRows - 1) * vStride + wRows) + (yRow * vStride + wRow)
      ≤ (wChl * ((yRows - 1) * vStride + wRows) + (yRow * vStride + wRow))
        * (yCols + wCols - 1) := Nat.le_mul_of_pos_right _ hxC
  have m2 : ((yRows - 1) * vStride + wRows) * (yCols + wCols - 1)
      ≤ ((yRows - 1) * vStride + wRows) * (yCols + wCols - 1) * wChls :=
    Nat.le_mul_of_pos_right _ h3
  have n1 : wRow * wCols + wCol ≤ (wRow * wCols + wCol) * wChls :=
    Nat.le_mul_of_pos_right _ h3
  have n2 : (wRow * wCols + wCol) * wChls + wChl
      ≤ ((wRow * wCols + wCol) * wChls + wChl) * yRows := Nat.le_mul_of_pos_right _ h4
  have n3 : ((wRow * wCols + wCol) * wChls + wChl) * yRows + yRow
      ≤ (((wRow * wCols + wCol) * wChls + wChl) * yRows + yRow) * yCols :=
    Nat.le_mul_of_pos_right _ h5
  intro e he
  simp only [bodyIntermediates, List.mem_cons, List.mem_singleton, List.not_mem_nil,
    or_false] at he
  rcases he with rfl | rfl | rfl | rfl | rfl | rfl | rfl | rfl | rfl | rfl | rfl | rfl | rfl |
    rfl | rfl | rfl | rfl | rfl | rfl | rfl
  · have h := inInt32_natCast (yRow * vStride) (by omega)
    push_cast at h; exact h
  · have h := inInt32_natCast (yRow * vStride + wRow) (by omega)
    push_cast at h; exact h
  · have h := inInt32_natCast (wChl * ((yRows - 1) * vStride + wRows)) (by omega)
    push_cast [e1] at h; exact h
  · have h := inInt32_natCast
      (wChl * ((yRows - 1) * vStride + wRows) + (yRow * vStride + wRow)) (by omega)
    push_cast [e1] at h; exact h
  · have h := inInt32_natCast
      ((wChl * ((yRows - 1) * vStride + wRows) + (yRow * vStride + wRow))
        * (yCols + wCols - 1)) (by omega)
    push_cast [e1, e2] at h; exact h
  · have h := inInt32_natCast
      ((wChl * ((yRows - 1) * vStride + wRows) + (yRow * vStride + wRow))
        * (yCols + wCols - 1) + wCol) (by omega)
    push_cast [e1, e2] at h; exact h
  · have h := inInt32_natCast (wRow * wCols) (by omega)
    push_cast at h; exact h
  · have h := inInt32_natCast (wRow * wCols + wCol) (by omega)
    push_cast at h; exact h
  · have h := inInt32_natCast ((wRow * wCols + wCol) * wChls) (by omega)
    push_cast at h; exact h
  · have h := inInt32_natCast ((wRow * wCols + wCol) * wChls + wChl) (by omega)
    push_cast at h; exact h
  · have h := inInt32_natCast (((wRow * wCols + wCol) * wChls + wChl) * yRows) (by omega)
    push_cast at h; exact h
  · have h := inInt32_natCast (((wRow * wCols + wCol) * wChls + wChl) * yRows + yRow)
      (by omega)
    push_cast at h; exact h
  · have h := inInt32_natCast
      ((((wRow * wCols + wCol) * wChls + wChl) * yRows + yRow) * yCols) (by omega)
    push_cast at h; exact h
  · have h := inInt32_natCast
      (((yRows - 1) * vStride + wRows) * (yCols + wCols - 1)) (by omega)
    push_cast [e1, e2] at h; exact h
  · have h := inInt32_natCast
      (((yRows - 1) * vStride + wRows) * (yCols + wCols - 1) * wChls) (by omega)
    push_cast [e1, e2] at h; exact h
  · have h := inInt32_natCast (yRows * yCols * (wRows * wCols * wChls)) (by omega)
    push_cast at h; exact h
  · have h := inInt32_natCast (yRow + 1) (by omega)
    push_cast at h; exact h
  · have h := inInt32_natCast (wChl + 1) (by omega)
    push_cast at h; exact h
  · have h := inInt32_natCast (wCol + 1) (by omega)
    push_cast at h; exact h
  · have h := inInt32_natCast (wRow + 1) (by omega)
    push_cast at h; exact h

/-- C15, as amended: no 32-bit overflow in the index arithmetic.  If all five
dimensions are at least 1, `vStride ≥ 0`, `wChls*xRows*xCols < 2^31`,
`yRows*yCols*wRows*wCols*wChls < 2^31` and also `yCols + wCols < 2^31`, then the
value of every `int` expression evaluated in `ChlMajInputUnroll` and in the
`Convolution` variants, sub-expressions included, lies in `[0, 2^31)`; hence the
source offset, the target offset and the two bounds of the assertions, evaluated
on a 32-bit machine, are their values over the integers. -/
theorem C15_no_overflow (wRows wCols wChls vStride yRows yCols : Nat)
    (h1 : 1 ≤ wRows) (h2 : 1 ≤ wCols) (h3 : 1 ≤ wChls) (h4 : 1 ≤ yRows) (h5 : 1 ≤ yCols)
    (hA : wChls * ((yRows - 1) * vStride + wRows) * (yCols + wCols - 1) < 2 ^ 31)
    (hT : yRows * yCols * wRows * wCols * wChls < 2 ^ 31)
    (hS : yCols + wCols < 2 ^ 31) :
    (∀ e ∈ preambleIntermediates wRows wCols vStride yRows yCols, InInt32 e) ∧
    (∀ e ∈ convolutionIntermediates wRows wCols wChls yRows yCols, InInt32 e) ∧
    sourceBound32 wRows wCols wChls vStride yRows yCols
      = (((yRows : Int) - 1) * vStride + wRows) * ((yCols : Int) + wCols - 1) * wChls ∧
    targetBound32 wRows wCols wChls yRows yCols
      = ((yRows : Int) * yCols) * ((wRows : Int) * wCols * wChls) ∧
    ∀ wRow wCol wChl yRow : Nat, wRow < wRows → wCol < wCols → wChl < wChls →
      yRow < yRows →
      (∀ e ∈ bodyIntermediates wRows wCols wChls vStride yRows yCols
          ((yRows : Int) * yCols) ((wRows : Int) * wCols * wChls) wRow wCol wChl yRow,
        InInt32 e) ∧
      copySource32 wRows wCols vStride yRows yCols wRow wCol wChl yRow
        = copySource wRows wCols vStride yRows yCols wRow wCol wChl yRow ∧
      copyTarget32 wCols wChls yRows yCols wRow wCol wChl yRow
        = copyTarget wCols wChls yRows yCols wRow wCol wChl yRow := by
  have hpre := preambleIntermediates_inInt32 wRows wCols wChls vStride yRows yCols
    h1 h2 h3 h4 h5 hA hT hS
  have hconv := convolutionIntermediates_inInt32 wRows wCols wChls yRows yCols
    h1 h2 h3 h4 h5 hT
  have hbody := bodyIntermediates_inInt32 wRows wCols wChls vStride yRows yCols
    h1 h2 h3 h4 h5 hA hT
  have p1 := hpre _ (by simp [preambleIntermediates] :
    (yRows : Int) - 1 ∈ preambleIntermediates wRows wCols vStride yRows yCols)
  have p2 := hpre _ (by simp [preambleIntermediates] :
    ((yRows : Int) - 1) * vStride ∈ preambleIntermediates wRows wCols vStride yRows yCols)
  have p3 := hpre _ (by simp [preambleIntermediates] :
    ((yRows : Int) - 1) * vStride + wRows
      ∈ preambleIntermediates wRows wCols vStride yRows yCols)
  have p4 := hpre _ (by simp [preambleIntermediates] :
    (yCols : Int) + wCols ∈ preambleIntermediates wRows wCols vStride yRows yCols)
  have p5 := hpre _ (by simp [preambleIntermediates] :
    (yCols : Int) + wCols - 1 ∈ preambleIntermediates wRows wCols vStride yRows yCols)
  have c1 := hconv _ (by simp [convolutionIntermediates] :
    (yRows : Int) * yCols ∈ convolutionIntermediates wRows wCols wChls yRows yCols)
  have c2 := hconv _ (by simp [convolutionIntermediates] :
    (wRows : Int) * wCols ∈ convolutionIntermediates wRows wCols wChls yRows yCols)
  have c3 := hconv _ (by simp [convolutionIntermediates] :
    (wRows : Int) * wCols * wChls ∈ convolutionIntermediates wRows wCols wChls yRows yCols)
  have b0 := hbody 0 0 0 0 (by omega) (by omega) (by omega) (by omega)
  have q1 := b0 ((((yRows : Int) - 1) * vStride + wRows) * ((yCols : Int) + wCols - 1))
    (by simp [bodyIntermediates])
  have q2 := b0 ((((yRows : Int) - 1) * vStride + wRows) * ((yCols : Int) + wCols - 1)
    * wChls) (by simp [bodyIntermediates])
  have q3 := b0 (((yRows : Int) * yCols) * ((wRows : Int) * wCols * wChls))
    (by simp [bodyIntermediates])
  refine ⟨hpre, hconv, ?_, ?_, ?_⟩
  · simp only [sourceBound32, add32, sub32, mul32, wrap32_eq _ p1, wrap32_eq _ p2,
      wrap32_eq _ p3, wrap32_eq _ p4, wrap32_eq _ p5, wrap32_eq _ q1, wrap32_eq _ q2]
  · simp only [targetBound32, mul32, wrap32_eq _ c1, wrap32_eq _ c2, wrap32_eq _ c3,
      wrap32_eq _ q3]
  · intro wRow wCol wChl yRow r1 r2 r3 r4
    have hb := hbody wRow wCol wChl yRow r1 r2 r3 r4
    refine ⟨hb, ?_, ?_⟩
    · have s1 := hb ((yRow : Int) * vStride) (by simp [bodyIntermediates])
      have s2 := hb ((yRow : Int) * vStride + wRow) (by simp [bodyIntermediates])
      have s3 := hb ((wChl : Int) * (((yRows : Int) - 1) * vStride + wRows))
        (by simp [bodyIntermediates])
      have s4 := hb ((wChl : Int) * (((yRows : Int) - 1) * vStride + wRows)
        + ((yRow : Int) * vStride + wRow)) (by simp [bodyIntermediates])
      have s5 := hb (((wChl : Int) * (((yRows : Int) - 1) * vStride + wRows)
        + ((yRow : Int) * vStride + wRow)) * ((yCols : Int) + wCols - 1))
        (by simp [bodyIntermediates])
      have s6 := hb (((wChl : Int) * (((yRows : Int) - 1) * vStride + wRows)
        + ((yRow : Int) * vStride + wRow)) * ((yCols : Int) + wCols - 1) + wCol)
        (by simp [bodyIntermediates])
      simp only [copySource32, copySource, add32, sub32, mul32, wrap32_eq _ p1,
        wrap32_eq _ p2, wrap32_eq _ p3, wrap32_eq _ p4, wrap32_eq _ p5, wrap32_eq _ s1,
        wrap32_eq _ s2, wrap32_eq _ s3, wrap32_eq _ s4, wrap32_eq _ s5, wrap32_eq _ s6]
    · have u1 := hb ((wRow : Int) * wCols) (by simp [bodyIntermediates])
      have u2 := hb ((wRow : Int) * wCols + wCol) (by simp [bodyIntermediates])
      have u3 := hb (((wRow : Int) * wCols + wCol) * wChls) (by simp [bodyIntermediates])
      have u4 := hb (((wRow : Int) * wCols + wCol) * wChls + wChl)
        (by simp [bodyIntermediates])
      have u5 := hb ((((wRow : Int) * wCols + wCol) * wChls + wChl) * yRows)
        (by simp [bodyIntermediates])
      have u6 := hb ((((wRow : Int) * wCols + wCol) * wChls + wChl) * yRows + yRow)
        (by simp [bodyIntermediates])
      have u7 := hb (((((wRow : Int) * wCols + wCol) * wChls + wChl) * yRows + yRow)
        * yCols) (by simp [bodyIntermediates])
      simp only [copyTarget32, copyTarget, add32, mul32, wrap32_eq _ u1, wrap32_eq _ u2,
        wrap32_eq _ u3, wrap32_eq _ u4, wrap32_eq _ u5, wrap32_eq _ u6, wrap32_eq _ u7]

/-- C15 as amended, on the concrete scenario. -/
theorem C15_no_overflow_witness :
    (2 + 2 < 2 ^ 31) ∧
    sourceBound32 (2 : Nat) (2 : Nat) (1 : Nat) (1 : Nat) (2 : Nat) (2 : Nat)
      = ((((2 : Nat) : Int) - 1) * (1 : Nat) + (2 : Nat))
          * (((2 : Nat) : Int) + (2 : Nat) - 1) * (1 : Nat) ∧
    targetBound32 (2 : Nat) (2 : Nat) (1 : Nat) (2 : Nat) (2 : Nat)
      = (((2 : Nat) : Int) * (2 : Nat)) * (((2 : Nat) : Int) * (2 : Nat) * (1 : Nat)) ∧
    copySource32 (2 : Nat) (2 : Nat) (1 : Nat) (2 : Nat) (2 : Nat)
        (1 : Nat) (1 : Nat) (0 : Nat) (1 : Nat)
      = copySource (2 : Nat) (2 : Nat) (1 : Nat) (2 : Nat) (2 : Nat)
        (1 : Nat) (1 : Nat) (0 : Nat) (1 : Nat) ∧
    copyTarget32 (2 : Nat) (1 : Nat) (2 : Nat) (2 : Nat)
        (1 : Nat) (1 : Nat) (0 : Nat) (1 : Nat)
      = copyTarget (2 : Nat) (1 : Nat) (2 : Nat) (2 : Nat)
        (1 : Nat) (1 : Nat) (0 : Nat) (1 : Nat) :=
  have h := C15_no_overflow 2 2 1 1 2 2 (by decide) (by decide) (by decide) (by decide)
    (by decide) (by decide) (by decide) (by decide)
  ⟨by decide, h.2.2.1, h.2.2.2.1,
    (h.2.2.2.2 1 1 0 1 (by decide) (by decide) (by decide) (by decide)).2⟩

/-- C15 as stated fails: with `wRows = wCols = wChls = 1`, `vStride = 1`, `yRows = 1`
and `yCols = 2^31 - 1` its hypotheses hold, yet the sub-expression `yCols + wCols`
of `xCols = yCols + wCols - 1` has the value `2^31`, outside `[0, 2^31)`, and on the
32-bit machine this sum wraps around to `-2^31`. -/
theorem C15_no_overflow_counterexample :
    ((1 ≤ 1 ∧ 1 ≤ 1 ∧ 1 ≤ 1 ∧ 1 ≤ 1 ∧ 1 ≤ 2147483647) ∧
      1 * ((1 - 1) * 1 + 1) * (2147483647 + 1 - 1) < 2 ^ 31 ∧
      1 * 2147483647 * 1 * 1 * 1 < 2 ^ 31) ∧
    (2147483647 + 1 : Int) ∈ preambleIntermediates 1 1 1 1 2147483647 ∧
    ¬ InInt32 (2147483647 + 1) ∧
    ¬ (∀ e ∈ preambleIntermediates 1 1 1 1 2147483647, InInt32 e) ∧
    add32 2147483647 1 = -2147483648 := by
  decide

end Convolutional
